/-
Verification of the graph-partitioning core of agrupar_circuitos
(src/agrupar_circuitos.py): network construction (`cargar_datos`), root
selection (`encontrar_subestacion_principal`), the linear DFS grouper
(`dfs_agrupar_segmentos`), branch identification (`_identificar_ramas`),
the per-branch grouper (`_agrupar_segmentos_rama`) and branch-mode
grouping (`dfs_por_ramas`).

Modelling conventions:
* Segment lengths are Python floats used only with `+`, `/ 1000` and
  comparisons; they are embedded as exact rationals (`ℚ`).
* The networkx `Graph` is embedded by its observable interface: the
  insertion-ordered node list with the attributes the core reads (the
  `tipo` attribute, absent for nodes auto-created by `add_edge`), and the
  insertion-ordered edge list.  `neighbors`, `degree` and `get_edge_data`
  are derived exactly as networkx exposes them for this usage: adjacency
  order is first-insertion order of the incident edges, edge data for a
  node pair is the last write for that pair.
* Python exceptions are embedded with `Except PyError`; the `while`
  loops are embedded as fuel-indexed recursions, always invoked with a
  fuel that provably exceeds the loop's step count (the lemmas below
  establish that the fuel is never exhausted on the runs they describe).
* Python `dict` assignment `d[k] = v` is `dictSet` (update in place if
  the key is present, else append); `set` membership uses lists.
-/
import Mathlib

namespace AgruparCircuitos

/-- A row of the node table: the fields the partitioning core reads
(`id_nodo` and the `tipo` attribute; the remaining columns — nombre,
voltaje_kv, x, y — are carried as opaque payload by the code and never
inspected by the algorithms, so they are omitted from the embedding). -/
structure Nodo where
  id_nodo : Nat
  tipo : String
deriving DecidableEq, Repr

/-- A row of the segment table: the fields the partitioning core reads.
`id_circuito`, `tipo_conductor` and `capacidad_amp` are payload never
inspected by the algorithms and are omitted. -/
structure Segmento where
  id_segmento : Nat
  nodo_inicio : Nat
  nodo_fin : Nat
  longitud_m : ℚ
deriving DecidableEq, Repr

/-- The dict `{'segmento_id', 'longitud_m', 'nodo_inicio', 'nodo_fin'}`
that both groupers store for each consumed segment. -/
structure SegEntry where
  segmento_id : Nat
  longitud_m : ℚ
  nodo_inicio : Nat
  nodo_fin : Nat
deriving DecidableEq, Repr

/-- Branch provenance stored on a group by `dfs_por_ramas`
(lines 328-330 of the source). -/
structure RamaInfo where
  rama_id : Nat
  nodo_inicio_rama : Nat
  nodo_fin_rama : Nat
deriving DecidableEq, Repr

/-- A closed group as stored in `self.grupos`: member segments, total
length, member count and km length (`_cerrar_grupo`, lines 479-484);
branch-mode groups additionally carry `RamaInfo` (lines 323-331). -/
structure Grupo where
  segmentos : List SegEntry
  longitud_total_m : ℚ
  num_segmentos : Nat
  longitud_km : ℚ
  rama : Option RamaInfo
deriving DecidableEq, Repr

/-- A branch as recorded by `_identificar_ramas` (lines 382-386). -/
structure Rama where
  segmentos : List SegEntry
  nodo_inicio : Nat
  nodo_fin : Nat
deriving DecidableEq, Repr

/-- The `RedElectrica` graph state after `cargar_datos`: the networkx
graph by its observable interface.  `nodos` is the insertion-ordered
node list, each with its `tipo` attribute (`none` for endpoints that
`add_edge` auto-created, which carry no attributes); `edges` is the
insertion-ordered list of `add_edge` calls. -/
structure RedElectrica where
  nodos : List (Nat × Option String)
  edges : List Segmento
deriving DecidableEq, Repr

/-- The two registry fields of `RedElectrica`: `self.grupos` and the
reverse index `self.segmentos_por_grupo`. -/
structure Registry where
  grupos : List (Nat × Grupo)
  segmentos_por_grupo : List (Nat × Nat)
deriving DecidableEq, Repr

/-- The exceptions the embedded core can raise: the `ValueError` from
`max()` over an empty sequence (root selection on an empty node set),
the `KeyError` from reading the `tipo` attribute of a node that has
none, and — never raised by the code, present so the specification's
claimed error is expressible — an explicit "no root available" error. -/
inductive PyError where
  | valueErrorMaxEmpty : PyError
  | keyErrorTipo : PyError
  | noRootAvailable : PyError
deriving DecidableEq, Repr

/-! ## Dictionary and graph primitives -/

/-- Python `d[k] = v` on an insertion-ordered dict: update in place if
the key exists, else append. -/
def dictSet {α : Type} (m : List (Nat × α)) (k : Nat) (v : α) :
    List (Nat × α) :=
  if k ∈ m.map Prod.fst then
    m.map (fun p => if p.1 = k then (k, v) else p)
  else m ++ [(k, v)]

/-- Python `d.get(k)` / `d[k]` lookup. -/
def dictGet {α : Type} (m : List (Nat × α)) (k : Nat) : Option α :=
  (m.find? (fun p => p.1 = k)).map Prod.snd

/-- `tuple(sorted([a, b]))`: the unordered key a physical edge is
registered under (line 400 of the source). -/
def sortPair (a b : Nat) : Nat × Nat := (min a b, max a b)

/-- The far endpoints of the edges incident to `n`, one per `add_edge`
call, in edge-insertion order. -/
def incidentes (edges : List Segmento) (n : Nat) : List Nat :=
  edges.filterMap (fun e =>
    if e.nodo_inicio = n then some e.nodo_fin
    else if e.nodo_fin = n then some e.nodo_inicio
    else none)

/-- Deduplication keeping the first occurrence (a Python dict keyed by
neighbor keeps the position of the first insertion). -/
def dedupFirst (seen : List Nat) : List Nat → List Nat
  | [] => []
  | a :: l => if a ∈ seen then dedupFirst seen l
              else a :: dedupFirst (a :: seen) l

/-- `list(self.G.neighbors(n))`: adjacency keys in first-insertion
order. -/
def neighbors (red : RedElectrica) (n : Nat) : List Nat :=
  dedupFirst [] (incidentes red.edges n)

/-- `self.G.degree(n)` for the loop-free graphs this code builds: the
number of adjacency entries of `n`. -/
def degree (red : RedElectrica) (n : Nat) : Nat :=
  (neighbors red n).length

/-- `self.G.get_edge_data(u, v)`: the data stored for the unordered
pair, i.e. the last `add_edge` write for it. -/
def getEdgeData (edges : List Segmento) (u v : Nat) : Option Segmento :=
  (edges.filter (fun e =>
    sortPair e.nodo_inicio e.nodo_fin = sortPair u v)).getLast?

/-- The node ids of the graph, in insertion order. -/
def nodeIds (red : RedElectrica) : List Nat := red.nodos.map Prod.fst

/-! ## `cargar_datos` (lines 117-143) -/

/-- `G.add_node(id, tipo=...)`: appends a new node or overwrites the
attributes of an existing one. -/
def addNode (red : RedElectrica) (n : Nat) (tipo : String) : RedElectrica :=
  if n ∈ nodeIds red then
    { red with
      nodos := red.nodos.map (fun p => if p.1 = n then (n, some tipo) else p) }
  else { red with nodos := red.nodos ++ [(n, some tipo)] }

/-- The implicit node creation `G.add_edge` performs for an endpoint not
yet in the graph: the node is appended with no attributes. -/
def addEndpoint (red : RedElectrica) (n : Nat) : RedElectrica :=
  if n ∈ nodeIds red then red
  else { red with nodos := red.nodos ++ [(n, none)] }

/-- `G.add_edge(nodo_inicio, nodo_fin, ...)`: auto-creates missing
endpoints and records the edge write. -/
def addEdge (red : RedElectrica) (s : Segmento) : RedElectrica :=
  { nodos := (addEndpoint (addEndpoint red s.nodo_inicio) s.nodo_fin).nodos,
    edges := (addEndpoint (addEndpoint red s.nodo_inicio) s.nodo_fin).edges
      ++ [s] }

/-- `cargar_datos(df_segmentos, df_nodos)`: all node rows are added
first, then all segment rows (lines 121-140).  The construction is
total: no validation of any kind is performed. -/
def cargar_datos (df_segmentos : List Segmento) (df_nodos : List Nodo) :
    RedElectrica :=
  df_segmentos.foldl addEdge
    (df_nodos.foldl (fun r n => addNode r n.id_nodo n.tipo) ⟨[], []⟩)

/-! ## `encontrar_subestacion_principal` (lines 145-156) -/

/-- The scan `for nodo in self.G.nodes(data=True)`: returns the first
node whose `tipo` attribute is `'Subestacion'`; reading the attribute of
a node that has none raises `KeyError`.  `none` means the scan finished
without a hit. -/
def buscarSubestacion : List (Nat × Option String) →
    Option (Except PyError Nat)
  | [] => none
  | (n, t) :: rest =>
    match t with
    | none => some (Except.error PyError.keyErrorTipo)
    | some tipo =>
      if tipo = "Subestacion" then some (Except.ok n)
      else buscarSubestacion rest

/-- Python `max(grados, key=grados.get)`: scans the keys in dict order
keeping the first key whose value is maximal (later keys replace the
best only on a strictly greater value). -/
def maxFirst (deg : Nat → Nat) (best : Nat) : List Nat → Nat
  | [] => best
  | k :: ks => if deg k > deg best then maxFirst deg k ks
               else maxFirst deg best ks

/-- `encontrar_subestacion_principal`: first `Subestacion` node in graph
insertion order, else the first node of maximum degree; on an empty node
set `max()` raises `ValueError` (no explicit "no root available" error
exists in the code). -/
def encontrar_subestacion_principal (red : RedElectrica) :
    Except PyError Nat :=
  match buscarSubestacion red.nodos with
  | some r => r
  | none =>
    match nodeIds red with
    | [] => Except.error PyError.valueErrorMaxEmpty
    | n :: rest => Except.ok (maxFirst (degree red) n rest)

/-! ## The linear DFS grouper `dfs_agrupar_segmentos` (lines 158-251) -/

/-- A stack frame of the iterative DFS: the seed
`(nodo_inicio, None, None, 0.0)` or a pushed
`(vecino, nodo_actual, id_segmento, longitud_m)` (the `None` fields of
the Python tuple occur exactly together, so the two shapes are the two
constructors). -/
inductive Frame where
  | start (nodo : Nat)
  | viaSeg (nodo prev sid : Nat) (len : ℚ)
deriving DecidableEq, Repr

/-- The `nodo_actual` component of a frame. -/
def Frame.nodo : Frame → Nat
  | .start n => n
  | .viaSeg n _ _ _ => n

/-- The per-run grouping state of `dfs_agrupar_segmentos`: the registry
written through `self`, plus the locals `grupo_actual`,
`longitud_actual` and `grupo_id`. -/
structure GState where
  reg : Registry
  grupo_actual : List SegEntry
  longitud_actual : ℚ
  grupo_id : Nat
deriving DecidableEq, Repr

/-- `_cerrar_grupo` (lines 477-492): stores the closed group under
`grupo_id` and points every member segment at it in the reverse index.
Branch-mode storage (lines 322-335) writes the same fields plus the
branch provenance, passed here as `rama`. -/
def cerrarGrupoReg (reg : Registry) (segmentos : List SegEntry)
    (longitud_total : ℚ) (grupo_id : Nat) (rama : Option RamaInfo) :
    Registry :=
  { grupos := dictSet reg.grupos grupo_id
      ⟨segmentos, longitud_total, segmentos.length, longitud_total / 1000,
        rama⟩,
    segmentos_por_grupo := segmentos.foldl
      (fun m s => dictSet m s.segmento_id grupo_id)
      reg.segmentos_por_grupo }

/-- Lines 189-228: the decision taken for one incoming segment.  Fits
within the upper bound: append, and close the group once the lower
bound is reached.  Exceeds it: close the open group (if any) as-is and
start a new group holding just this segment. -/
def procesarSegmento (obj tol : ℚ) (gs : GState) (e : SegEntry) : GState :=
  if gs.longitud_actual + e.longitud_m ≤ obj * (1 + tol) then
    let actual := gs.grupo_actual ++ [e]
    let acc := gs.longitud_actual + e.longitud_m
    if acc ≥ obj * (1 - tol) then
      { reg := cerrarGrupoReg gs.reg actual acc gs.grupo_id none,
        grupo_actual := [], longitud_actual := 0,
        grupo_id := gs.grupo_id + 1 }
    else { gs with grupo_actual := actual, longitud_actual := acc }
  else
    let gs1 := if gs.grupo_actual = [] then gs else
      { gs with
        reg := cerrarGrupoReg gs.reg gs.grupo_actual gs.longitud_actual
          gs.grupo_id none,
        grupo_id := gs.grupo_id + 1 }
    { gs1 with grupo_actual := [e], longitud_actual := e.longitud_m }

/-- Lines 232-245: the frames pushed while visiting `n`.  The source
pushes the unvisited neighbors in reversed adjacency order onto a stack
popped from the top, so the net pop order is original adjacency order;
with the stack embedded head-first this is the frame list in adjacency
order, prepended to the rest of the stack.  (`visitados.add` at line 230
precedes the pushes, so `vis` here already contains `n`.) -/
def pushFrames (red : RedElectrica) (vis : List Nat) (n : Nat) :
    List Frame :=
  ((neighbors red n).filter (fun w => w ∉ vis)).filterMap (fun w =>
    (getEdgeData red.edges n w).map
      (fun e => Frame.viaSeg w n e.id_segmento e.longitud_m))

/-- The `while pila` loop of `dfs_agrupar_segmentos` (lines 182-245),
fuel-indexed.  Every use supplies `linFuel`, which bounds the number of
iterations (each iteration either pops a visited node or visits a new
one), so the `0` case is never reached on actual runs. -/
def dfsLoop (red : RedElectrica) (obj tol : ℚ) :
    Nat → List Frame → List Nat → GState → GState
  | _, [], _, gs => gs
  | 0, _ :: _, _, gs => gs
  | fuel + 1, f :: rest, vis, gs =>
    if f.nodo ∈ vis then dfsLoop red obj tol fuel rest vis gs
    else
      let gs' := match f with
        | .start _ => gs
        | .viaSeg v p sid len => procesarSegmento obj tol gs ⟨sid, len, p, v⟩
      dfsLoop red obj tol fuel
        (pushFrames red (f.nodo :: vis) f.nodo ++ rest) (f.nodo :: vis) gs'

/-- Traversal skeleton of `dfsLoop`: the consumed segment entries in
consumption order, and the final visited list.  The grouping state of
`dfsLoop` is exactly a fold of `procesarSegmento` over the first
component (proved below); graph reasoning happens on this function. -/
def travLoop (red : RedElectrica) :
    Nat → List Frame → List Nat → List SegEntry × List Nat
  | _, [], vis => ([], vis)
  | 0, _ :: _, vis => ([], vis)
  | fuel + 1, f :: rest, vis =>
    if f.nodo ∈ vis then travLoop red fuel rest vis
    else
      let r := travLoop red fuel
        (pushFrames red (f.nodo :: vis) f.nodo ++ rest) (f.nodo :: vis)
      match f with
      | .start _ => r
      | .viaSeg v p sid len => (⟨sid, len, p, v⟩ :: r.1, r.2)

/-- All node names the DFS can ever see: declared nodes and edge
endpoints. -/
def nodesUniv (red : RedElectrica) : List Nat :=
  nodeIds red ++
    red.edges.foldr (fun e acc => e.nodo_inicio :: e.nodo_fin :: acc) []

/-- Fuel provably exceeding the DFS iteration count. -/
def linFuel (red : RedElectrica) : Nat :=
  ((nodesUniv red).length + 1) * (red.edges.length + 1) + 1

/-- `dfs_agrupar_segmentos` (lines 158-251).  The instance registry the
run starts from is `reg0`: the method never clears `self.grupos` or
`self.segmentos_por_grupo`, it only writes into them.  The root lookup
can raise (empty graph), which propagates. -/
def dfs_agrupar_segmentos (red : RedElectrica)
    (longitud_objetivo_m tolerancia_km : ℚ) (reg0 : Registry) :
    Except PyError Registry :=
  match encontrar_subestacion_principal red with
  | Except.error e => Except.error e
  | Except.ok root =>
    let gs := dfsLoop red longitud_objetivo_m tolerancia_km (linFuel red)
      [Frame.start root] [] ⟨reg0, [], 0, 1⟩
    if gs.grupo_actual = [] then Except.ok gs.reg
    else Except.ok (cerrarGrupoReg gs.reg gs.grupo_actual
      gs.longitud_actual gs.grupo_id none)

/-! ## The per-branch grouper `_agrupar_segmentos_rama` (lines 420-475) -/

/-- A group as returned by `_agrupar_segmentos_rama`
(`{'segmentos', 'longitud_total'}`). -/
structure GrupoRama where
  segmentos : List SegEntry
  longitud_total : ℚ
deriving DecidableEq, Repr

/-- The `for segmento in segmentos` loop of `_agrupar_segmentos_rama`
(lines 441-473), with the groups emitted in closing order.  Adding a
segment that would exceed `sup` first closes a non-empty open group;
the segment is then appended unconditionally, and the group closes
immediately once `inf` is reached.  The trailing open group is closed
as-is. -/
def agruparRamaLoop (sup inf : ℚ) (grupo_actual : List SegEntry)
    (longitud_actual : ℚ) : List SegEntry → List GrupoRama
  | [] => if grupo_actual = [] then [] else [⟨grupo_actual, longitud_actual⟩]
  | s :: rest =>
    if longitud_actual + s.longitud_m > sup ∧ grupo_actual ≠ [] then
      if s.longitud_m ≥ inf then
        ⟨grupo_actual, longitud_actual⟩ :: ⟨[s], s.longitud_m⟩ ::
          agruparRamaLoop sup inf [] 0 rest
      else
        ⟨grupo_actual, longitud_actual⟩ ::
          agruparRamaLoop sup inf [s] s.longitud_m rest
    else
      if longitud_actual + s.longitud_m ≥ inf then
        ⟨grupo_actual ++ [s], longitud_actual + s.longitud_m⟩ ::
          agruparRamaLoop sup inf [] 0 rest
      else
        agruparRamaLoop sup inf (grupo_actual ++ [s])
          (longitud_actual + s.longitud_m) rest

/-- `_agrupar_segmentos_rama(segmentos, objetivo, tolerancia, rama_id)`
(the `rama_id` parameter is only printed and is dropped). -/
def agrupar_segmentos_rama (segmentos : List SegEntry)
    (longitud_objetivo_m tolerancia_km : ℚ) : List GrupoRama :=
  agruparRamaLoop (longitud_objetivo_m * (1 + tolerancia_km))
    (longitud_objetivo_m * (1 - tolerancia_km)) [] 0 segmentos

/-! ## Branch identification `_identificar_ramas` (lines 345-418) -/

/-- A BFS queue entry `(nodo_actual, nodo_previo, segmentos_camino)`. -/
structure ColaEntry where
  nodo_actual : Nat
  nodo_previo : Option Nat
  camino : List SegEntry
deriving DecidableEq, Repr

/-- Membership in `puntos_derivacion` (degree ≥ 3, lines 283-287, plus
the root, line 293). -/
def esDerivacion (red : RedElectrica) (root n : Nat) : Prop :=
  3 ≤ degree red n ∨ n = root

/-- Membership in `nodos_terminales` (degree 1, lines 288-290). -/
def esTerminal (red : RedElectrica) (n : Nat) : Prop :=
  degree red n = 1

instance (red : RedElectrica) (root n : Nat) :
    Decidable (esDerivacion red root n) := by
  unfold esDerivacion; infer_instance

instance (red : RedElectrica) (n : Nat) :
    Decidable (esTerminal red n) := by
  unfold esTerminal; infer_instance

/-- `segmentos_camino[0]['nodo_inicio'] if segmentos_camino else
nodo_previo` (line 384; the `[]`/`None` combination never reaches a
recorded branch). -/
def caminoInicio (cam : List SegEntry) (previo : Option Nat) : Nat :=
  match cam with
  | e :: _ => e.nodo_inicio
  | [] => previo.getD 0

/-- The `for vecino in self.G.neighbors(nodo_actual)` loop
(lines 395-416): threads the global edge-visited set and collects the
queue entries appended, in order.  The `none` branch of `get_edge_data`
is unreachable (a neighbor always has an incident edge). -/
def explorar (red : RedElectrica) (v : Nat) (previo : Option Nat)
    (cam : List SegEntry) :
    List Nat → List (Nat × Nat) → List (Nat × Nat) × List ColaEntry
  | [], visE => (visE, [])
  | w :: ws, visE =>
    if some w = previo then explorar red v previo cam ws visE
    else if sortPair v w ∈ visE then explorar red v previo cam ws visE
    else
      let visE' := sortPair v w :: visE
      match getEdgeData red.edges v w with
      | none => explorar red v previo cam ws visE'
      | some e =>
        let r := explorar red v previo cam ws visE'
        (r.1, ⟨w, some v, cam ++ [⟨e.id_segmento, e.longitud_m, v, w⟩]⟩
          :: r.2)

/-- The `while cola` loop of `_identificar_ramas` (lines 369-416),
fuel-indexed; every use supplies `bfsFuel`, which bounds the iteration
count.  A branch closes at a terminal, or at a derivation point reached
over a non-empty path; closing at a derivation point restarts the path
accumulator and keeps exploring, closing at a terminal stops that
direction. -/
def ramasLoop (red : RedElectrica) (root : Nat) :
    Nat → List ColaEntry → List (Nat × Nat) → List Rama
  | _, [], _ => []
  | 0, _ :: _, _ => []
  | fuel + 1, c :: rest, visE =>
    let esFin := esTerminal red c.nodo_actual ∨
      (esDerivacion red root c.nodo_actual ∧ 0 < c.camino.length)
    if esFin ∧ c.camino ≠ [] then
      let rama : Rama := ⟨c.camino, caminoInicio c.camino c.nodo_previo,
        c.nodo_actual⟩
      if esDerivacion red root c.nodo_actual then
        let r := explorar red c.nodo_actual c.nodo_previo []
          (neighbors red c.nodo_actual) visE
        rama :: ramasLoop red root fuel (rest ++ r.2) r.1
      else
        rama :: ramasLoop red root fuel rest visE
    else
      let r := explorar red c.nodo_actual c.nodo_previo c.camino
        (neighbors red c.nodo_actual) visE
      ramasLoop red root fuel (rest ++ r.2) r.1

/-- Fuel provably exceeding the BFS iteration count (each iteration
pops one entry; entries are pushed only together with a newly claimed
edge). -/
def bfsFuel (red : RedElectrica) : Nat := 2 * red.edges.length + 2

/-- `_identificar_ramas(nodo_inicio, ...)` (lines 345-418). -/
def identificar_ramas (red : RedElectrica) (root : Nat) : List Rama :=
  ramasLoop red root (bfsFuel red) [⟨root, none, []⟩] []

/-! ## Branch-mode grouping `dfs_por_ramas` (lines 253-343) -/

/-- Lines 322-341: store the groups of one branch into the registry
with branch provenance, threading the global `grupo_id`. -/
def almacenarRama (obj tol : ℚ) (acc : Registry × Nat)
    (rama_id : Nat) (rama : Rama) : Registry × Nat :=
  (agrupar_segmentos_rama rama.segmentos obj tol).foldl
    (fun (a : Registry × Nat) g =>
      (cerrarGrupoReg a.1 g.segmentos g.longitud_total a.2
        (some ⟨rama_id, rama.nodo_inicio, rama.nodo_fin⟩), a.2 + 1))
    acc

/-- `dfs_por_ramas` (lines 253-343).  Unlike the linear mode, the
registry is reset at lines 309-310, so the instance state `reg0` the
invocation starts from is discarded. -/
def dfs_por_ramas (red : RedElectrica)
    (longitud_objetivo_m tolerancia_km : ℚ) (reg0 : Registry) :
    Except PyError Registry :=
  match encontrar_subestacion_principal red with
  | Except.error e => Except.error e
  | Except.ok root =>
    let ramas := identificar_ramas red root
    let r := ramas.enum.foldl
      (fun a p => almacenarRama longitud_objetivo_m tolerancia_km a
        (p.1 + 1) p.2)
      ((⟨[], []⟩ : Registry), 1)
    Except.ok r.1

/-! ## Concrete graphs used by scenarios, witnesses and counterexamples -/

/-- A simple chain `1 —400— 2 —400— 3 —400— 4` rooted at the
`Subestacion` node 1 (scenario A of the specification). -/
def redCadena : RedElectrica := cargar_datos
  [⟨1, 1, 2, 400⟩, ⟨2, 2, 3, 400⟩, ⟨3, 3, 4, 400⟩]
  [⟨1, "Subestacion"⟩, ⟨2, "Apoyo"⟩, ⟨3, "Apoyo"⟩, ⟨4, "Transformador"⟩]

/-- A chain `1 —700— 2 —600— 3`: with target 1000 and tolerance 0.2 the
first group is force-closed at length 700, below the lower bound. -/
def redCorta : RedElectrica := cargar_datos
  [⟨1, 1, 2, 700⟩, ⟨2, 2, 3, 600⟩]
  [⟨1, "Subestacion"⟩, ⟨2, "Apoyo"⟩, ⟨3, "Apoyo"⟩]

/-- A star: three segments of 100 m from the `Subestacion` node 1.
Branch mode yields three groups, linear mode one. -/
def redEstrella : RedElectrica := cargar_datos
  [⟨1, 1, 2, 100⟩, ⟨2, 1, 3, 100⟩, ⟨3, 1, 4, 100⟩]
  [⟨1, "Subestacion"⟩, ⟨2, "Apoyo"⟩, ⟨3, "Apoyo"⟩, ⟨4, "Apoyo"⟩]

/-- A 4-cycle with no `Subestacion` node: all degrees are 2, so root
selection falls back to the first node of maximum degree. -/
def redCiclo : RedElectrica := cargar_datos
  [⟨1, 1, 2, 100⟩, ⟨2, 2, 3, 100⟩, ⟨3, 3, 4, 100⟩, ⟨4, 4, 1, 100⟩]
  [⟨1, "Apoyo"⟩, ⟨2, "Apoyo"⟩, ⟨3, "Apoyo"⟩, ⟨4, "Apoyo"⟩]

/-- The segment-table row whose `nodo_fin` (node 2) is absent from the
node table: the input the specification says must fail to load. -/
def segDesconocido : Segmento := ⟨7, 1, 2, 100⟩

/-- The oversized lone segment of scenario B (length 1500). -/
def segGrande : SegEntry := ⟨1, 1500, 10, 11⟩

/-! ## C4: graph construction and validation -/

/-- Helper: `addNode` preserves the edge list and only extends or
relabels the node list. -/
theorem nodeIds_addNode (red : RedElectrica) (n : Nat) (t : String) :
    nodeIds (addNode red n t) =
      if n ∈ nodeIds red then nodeIds red else nodeIds red ++ [n] := by
  unfold addNode nodeIds
  split
  · simp only [List.map_map]
    congr 1
    funext p
    by_cases h : p.1 = n <;> simp [h]
  · simp

/-- Helper: membership in `nodeIds` is monotone under `addEndpoint`, and
the added endpoint is present afterwards. -/
theorem mem_nodeIds_addEndpoint (red : RedElectrica) (n m : Nat)
    (h : m ∈ nodeIds red ∨ m = n) :
    m ∈ nodeIds (addEndpoint red n) := by
  unfold addEndpoint
  split
  · rcases h with h | h
    · exact h
    · subst h; assumption
  · rcases h with h | h
    · simp [nodeIds] at h ⊢; tauto
    · subst h; simp [nodeIds]

/-- Helper: `addEndpoint` keeps the edge list. -/
theorem edges_addEndpoint (red : RedElectrica) (n : Nat) :
    (addEndpoint red n).edges = red.edges := by
  unfold addEndpoint; split <;> rfl

/-- Helper: after `addEdge red s`, both endpoints of `s` are nodes,
previous nodes remain nodes, and the edge list is extended by `s`. -/
theorem addEdge_spec (red : RedElectrica) (s : Segmento) :
    (∀ m, m ∈ nodeIds red ∨ m = s.nodo_inicio ∨ m = s.nodo_fin →
      m ∈ nodeIds (addEdge red s)) ∧
    (addEdge red s).edges = red.edges ++ [s] := by
  refine ⟨fun m hm => ?_,
    by show (addEndpoint (addEndpoint red s.nodo_inicio) s.nodo_fin).edges
         ++ [s] = red.edges ++ [s]
       rw [edges_addEndpoint, edges_addEndpoint]⟩
  show m ∈ nodeIds (addEndpoint (addEndpoint red s.nodo_inicio) s.nodo_fin)
  rcases hm with hm | hm | hm
  · exact mem_nodeIds_addEndpoint _ _ _
      (Or.inl (mem_nodeIds_addEndpoint _ _ _ (Or.inl hm)))
  · exact mem_nodeIds_addEndpoint _ _ _
      (Or.inl (mem_nodeIds_addEndpoint _ _ _ (Or.inr hm)))
  · exact mem_nodeIds_addEndpoint _ _ _ (Or.inr hm)

/-- Helper: folding `addEdge` keeps earlier nodes and edges, and appends
all the segments. -/
theorem foldl_addEdge_spec (segs : List Segmento) :
    ∀ red : RedElectrica,
      (∀ m, m ∈ nodeIds red → m ∈ nodeIds (segs.foldl addEdge red)) ∧
      (segs.foldl addEdge red).edges = red.edges ++ segs ∧
      (∀ s ∈ segs,
        s.nodo_inicio ∈ nodeIds (segs.foldl addEdge red) ∧
        s.nodo_fin ∈ nodeIds (segs.foldl addEdge red)) := by
  induction segs with
  | nil => intro red; simp
  | cons s rest ih =>
    intro red
    obtain ⟨ihmono, ihedges, ihall⟩ := ih (addEdge red s)
    refine ⟨fun m hm => ihmono m ((addEdge_spec red s).1 m (Or.inl hm)),
      ?_, ?_⟩
    · simp only [List.foldl_cons, ihedges, (addEdge_spec red s).2,
        List.append_assoc, List.cons_append, List.nil_append]
    · intro t ht
      rcases List.mem_cons.mp ht with ht | ht
      · subst ht
        exact ⟨ihmono _ ((addEdge_spec red t).1 _ (Or.inr (Or.inl rfl))),
          ihmono _ ((addEdge_spec red t).1 _ (Or.inr (Or.inr rfl)))⟩
      · exact ihall t ht

/-- C4, the claim as stated is false: loading a segment table in which
segment 7 references node 2, absent from the node table, raises nothing
and produces a graph — networkx auto-creates the unknown endpoint (with
no attributes).  Likewise a duplicated segment id on two distinct
endpoint pairs is not rejected (nor merged): both rows are stored,
since edges are keyed by their node pair, not by segment id.  No
`DataError` (nor any other failure path) exists in `cargar_datos`. -/
theorem c4_counterexample :
    cargar_datos [segDesconocido] [⟨1, "Subestacion"⟩] =
      ⟨[(1, some "Subestacion"), (2, none)], [segDesconocido]⟩ ∧
    2 ∈ nodeIds (cargar_datos [segDesconocido] [⟨1, "Subestacion"⟩]) ∧
    cargar_datos [⟨7, 1, 2, 100⟩, ⟨7, 3, 4, 50⟩] [] =
      ⟨[(1, none), (2, none), (3, none), (4, none)],
       [⟨7, 1, 2, 100⟩, ⟨7, 3, 4, 50⟩]⟩ := by
  exact ⟨rfl, by decide, rfl⟩

/-- C4 as amended: graph construction is total.  For every node and
segment table it produces a graph; every loaded segment row — however
its ids relate to earlier rows — appears in the edge list, and both of
its endpoints, declared or not, appear among the nodes (unknown
references are auto-created rather than rejected, and duplicated ids
are accepted rather than rejected). -/
theorem c4_construccion_total (segs : List Segmento) (nodos : List Nodo)
    (s : Segmento) (hs : s ∈ segs) :
    s ∈ (cargar_datos segs nodos).edges ∧
    s.nodo_inicio ∈ nodeIds (cargar_datos segs nodos) ∧
    s.nodo_fin ∈ nodeIds (cargar_datos segs nodos) := by
  unfold cargar_datos
  obtain ⟨-, hedges, hall⟩ := foldl_addEdge_spec segs
    (nodos.foldl (fun r n => addNode r n.id_nodo n.tipo) ⟨[], []⟩)
  exact ⟨by rw [hedges]; exact List.mem_append_right _ hs,
    (hall s hs).1, (hall s hs).2⟩

/-- Witness for `c4_construccion_total` at the counterexample input. -/
theorem c4_construccion_total_witness :
    segDesconocido ∈
      (cargar_datos [segDesconocido] [⟨1, "Subestacion"⟩]).edges ∧
    segDesconocido.nodo_inicio ∈
      nodeIds (cargar_datos [segDesconocido] [⟨1, "Subestacion"⟩]) ∧
    segDesconocido.nodo_fin ∈
      nodeIds (cargar_datos [segDesconocido] [⟨1, "Subestacion"⟩]) :=
  c4_construccion_total [segDesconocido] [⟨1, "Subestacion"⟩]
    segDesconocido (List.mem_singleton.mpr rfl)

/-! ## C9: empty node set -/

/-- C9, the claim as stated is false: on an empty node set root
selection does fail, but with the generic `ValueError` that Python's
`max()` raises on an empty sequence — the code contains no explicit
"no root available" error. -/
theorem c9_counterexample :
    encontrar_subestacion_principal (cargar_datos [] []) =
      Except.error PyError.valueErrorMaxEmpty ∧
    PyError.valueErrorMaxEmpty ≠ PyError.noRootAvailable := by
  exact ⟨rfl, by decide⟩

/-- C9 as amended: on every graph with an empty node set, root selection
fails — with the generic `ValueError` of `max()` on an empty sequence,
not an explicit "no root available" error — and both grouping modes
propagate that failure, so no groups are produced. -/
theorem c9_conjunto_vacio (red : RedElectrica) (h : red.nodos = [])
    (obj tol : ℚ) (reg0 : Registry) :
    encontrar_subestacion_principal red =
      Except.error PyError.valueErrorMaxEmpty ∧
    dfs_agrupar_segmentos red obj tol reg0 =
      Except.error PyError.valueErrorMaxEmpty ∧
    dfs_por_ramas red obj tol reg0 =
      Except.error PyError.valueErrorMaxEmpty := by
  have hroot : encontrar_subestacion_principal red =
      Except.error PyError.valueErrorMaxEmpty := by
    unfold encontrar_subestacion_principal nodeIds
    rw [h]
    rfl
  refine ⟨hroot, ?_, ?_⟩
  · unfold dfs_agrupar_segmentos
    rw [hroot]
  · unfold dfs_por_ramas
    rw [hroot]

/-- Witness for `c9_conjunto_vacio` on the graph loaded from empty
tables. -/
theorem c9_conjunto_vacio_witness :
    encontrar_subestacion_principal (cargar_datos [] []) =
      Except.error PyError.valueErrorMaxEmpty ∧
    dfs_agrupar_segmentos (cargar_datos [] []) 1000 (1/5) ⟨[], []⟩ =
      Except.error PyError.valueErrorMaxEmpty ∧
    dfs_por_ramas (cargar_datos [] []) 1000 (1/5) ⟨[], []⟩ =
      Except.error PyError.valueErrorMaxEmpty :=
  c9_conjunto_vacio (cargar_datos [] []) rfl 1000 (1/5) ⟨[], []⟩

/-! ## C8: scenario A, lower-bound close on the 400/400/400 chain -/

/-- C8: on the chain of three 400 m segments with target 1000 and
tolerance 0.2, the linear run yields exactly two groups: group 1 holds
segments 1 and 2 with total 800 (closed on reaching the lower bound) and
group 2 holds segment 3 with total 400 (closed only at traversal end).
The registry equality below exhibits the full result, reverse index
included. -/
theorem c8_escenario_a :
    dfs_agrupar_segmentos redCadena 1000 (1/5) ⟨[], []⟩ =
      Except.ok
        ⟨[(1, ⟨[⟨1, 400, 1, 2⟩, ⟨2, 400, 2, 3⟩], 800, 2, 4/5, none⟩),
          (2, ⟨[⟨3, 400, 3, 4⟩], 400, 1, 2/5, none⟩)],
         [(1, 1), (2, 1), (3, 2)]⟩ := by
  norm_num [redCadena, cargar_datos, addEdge, addEndpoint, addNode, nodeIds,
    dfs_agrupar_segmentos, encontrar_subestacion_principal, buscarSubestacion,
    dfsLoop, linFuel, nodesUniv, procesarSegmento, cerrarGrupoReg, dictSet,
    pushFrames, neighbors, incidentes, dedupFirst, getEdgeData, sortPair,
    Frame.nodo]

/-! ## C2: the tolerance-band property and its failure -/

/-- C2, the claim as stated is false.  On the chain 700/600 with target
1000 and tolerance 0.2 (band [800, 1200]) the linear run closes group 1
holding only the 700 m segment: appending the 600 m segment would
overflow the upper bound, so the open group is finalized as-is.  That
group is closed, is not the final trailing group (group 2 follows it),
its total 700 is below the lower bound 800, and it is not an oversized
singleton (700 does not exceed the upper bound 1200) — so it meets
neither exception of the claim. -/
theorem c2_counterexample :
    dfs_agrupar_segmentos redCorta 1000 (1/5) ⟨[], []⟩ =
      Except.ok
        ⟨[(1, ⟨[⟨1, 700, 1, 2⟩], 700, 1, 7/10, none⟩),
          (2, ⟨[⟨2, 600, 2, 3⟩], 600, 1, 3/5, none⟩)],
         [(1, 1), (2, 2)]⟩ ∧
    ¬ (1000 * (1 - 1/5) ≤ (700 : ℚ)) ∧
    ¬ (1000 * (1 + 1/5) < (700 : ℚ)) := by
  refine ⟨?_, by norm_num, by norm_num⟩
  norm_num [redCorta, cargar_datos, addEdge, addEndpoint, addNode, nodeIds,
    dfs_agrupar_segmentos, encontrar_subestacion_principal, buscarSubestacion,
    dfsLoop, linFuel, nodesUniv, procesarSegmento, cerrarGrupoReg, dictSet,
    pushFrames, neighbors, incidentes, dedupFirst, getEdgeData, sortPair,
    Frame.nodo]

/-! ## C3: registry freshness and its failure -/

/-- The registry `dfs_por_ramas` produces on the star graph: one group
per branch. -/
def regRamasEstrella : Registry :=
  ⟨[(1, ⟨[⟨1, 100, 1, 2⟩], 100, 1, 1/10, some ⟨1, 1, 2⟩⟩),
    (2, ⟨[⟨2, 100, 1, 3⟩], 100, 1, 1/10, some ⟨2, 1, 3⟩⟩),
    (3, ⟨[⟨3, 100, 1, 4⟩], 100, 1, 1/10, some ⟨3, 1, 4⟩⟩)],
   [(1, 1), (2, 2), (3, 3)]⟩

/-- The single group a fresh linear run forms on the star graph. -/
def grupoLinealEstrella : Grupo :=
  ⟨[⟨1, 100, 1, 2⟩, ⟨2, 100, 1, 3⟩, ⟨3, 100, 1, 4⟩], 300, 3, 3/10, none⟩

/-- What the linear run returns when the instance still holds the
branch-mode registry: group 1 is overwritten, but the stale branch-mode
groups 2 and 3 remain in the returned registry. -/
def regLinealSucia : Registry :=
  ⟨[(1, grupoLinealEstrella),
    (2, ⟨[⟨2, 100, 1, 3⟩], 100, 1, 1/10, some ⟨2, 1, 3⟩⟩),
    (3, ⟨[⟨3, 100, 1, 4⟩], 100, 1, 1/10, some ⟨3, 1, 4⟩⟩)],
   [(1, 1), (2, 1), (3, 1)]⟩

/-- The registry of a linear run from a fresh instance. -/
def regLinealLimpia : Registry :=
  ⟨[(1, grupoLinealEstrella)], [(1, 1), (2, 1), (3, 1)]⟩

/-- C3, the claim as stated is false.  `dfs_agrupar_segmentos` does not
start from a fresh registry: run after a branch-mode invocation on the
same instance, it returns a registry that still contains the stale
branch-mode groups 2 and 3 (which that linear invocation did not
produce), and which differs from the registry the same invocation
returns on a fresh instance. -/
theorem c3_counterexample :
    dfs_por_ramas redEstrella 1000 (1/5) ⟨[], []⟩ =
      Except.ok regRamasEstrella ∧
    dfs_agrupar_segmentos redEstrella 1000 (1/5) regRamasEstrella =
      Except.ok regLinealSucia ∧
    dfs_agrupar_segmentos redEstrella 1000 (1/5) ⟨[], []⟩ =
      Except.ok regLinealLimpia ∧
    regLinealSucia.grupos.length = 3 ∧
    regLinealLimpia.grupos.length = 1 ∧
    (dictGet regLinealSucia.grupos 3).isSome = true ∧
    (dictGet regLinealLimpia.grupos 3).isSome = false := by
  refine ⟨?_, ?_, ?_, rfl, rfl, rfl, rfl⟩
  · norm_num [redEstrella, cargar_datos, addEdge, addEndpoint, addNode,
      nodeIds, dfs_por_ramas, encontrar_subestacion_principal,
      buscarSubestacion, identificar_ramas, ramasLoop, bfsFuel, explorar,
      esDerivacion, esTerminal, degree, caminoInicio, almacenarRama,
      agrupar_segmentos_rama, agruparRamaLoop, cerrarGrupoReg, dictSet,
      neighbors, incidentes, dedupFirst, getEdgeData, sortPair,
      regRamasEstrella, List.enum]
  · norm_num [redEstrella, cargar_datos, addEdge, addEndpoint, addNode,
      nodeIds, dfs_agrupar_segmentos, encontrar_subestacion_principal,
      buscarSubestacion, dfsLoop, linFuel, nodesUniv, procesarSegmento,
      cerrarGrupoReg, dictSet, pushFrames, neighbors, incidentes,
      dedupFirst, getEdgeData, sortPair, Frame.nodo, regRamasEstrella,
      regLinealSucia, grupoLinealEstrella] <;> simp
  · norm_num [redEstrella, cargar_datos, addEdge, addEndpoint, addNode,
      nodeIds, dfs_agrupar_segmentos, encontrar_subestacion_principal,
      buscarSubestacion, dfsLoop, linFuel, nodesUniv, procesarSegmento,
      cerrarGrupoReg, dictSet, pushFrames, neighbors, incidentes,
      dedupFirst, getEdgeData, sortPair, Frame.nodo, regLinealLimpia,
      grupoLinealEstrella] <;> simp

/-! ## C7: oversized segments in branch mode -/

/-- Helper: a sum of nonnegative lengths is nonnegative. -/
theorem sum_longitud_nonneg (l : List SegEntry)
    (h : ∀ s ∈ l, 0 ≤ s.longitud_m) :
    0 ≤ (l.map SegEntry.longitud_m).sum := by
  induction l with
  | nil => simp
  | cons a l ih =>
    simp only [List.map_cons, List.sum_cons]
    have h1 := h a (List.mem_cons_self a l)
    have h2 := ih (fun s hs => h s (List.mem_cons_of_mem a hs))
    linarith

/-- Helper: in every group `agruparRamaLoop` emits, a member segment
longer than `sup` is the group's only member and its whole total.  The
invariant carried: the accumulator is the open group's length sum, and
every open member is a nonnegative length not exceeding `sup`. -/
theorem agruparRamaLoop_grande (sup inf : ℚ) (hsi : inf ≤ sup) :
    ∀ (l actual : List SegEntry) (acc : ℚ),
      acc = (actual.map SegEntry.longitud_m).sum →
      (∀ s ∈ actual, 0 ≤ s.longitud_m ∧ s.longitud_m ≤ sup) →
      (∀ s ∈ l, 0 ≤ s.longitud_m) →
      ∀ g ∈ agruparRamaLoop sup inf actual acc l, ∀ s ∈ g.segmentos,
        sup < s.longitud_m →
        g.segmentos = [s] ∧ g.longitud_total = s.longitud_m := by
  intro l
  induction l with
  | nil =>
    intro actual acc hacc hact _ g hg s hs hbig
    simp only [agruparRamaLoop] at hg
    split at hg
    · simp at hg
    · rcases List.mem_singleton.mp hg with rfl
      exact absurd (hact s hs).2 (not_le.mpr hbig)
  | cons a l ih =>
    intro actual acc hacc hact hl g hg s hs hbig
    have hla : 0 ≤ a.longitud_m := hl a (List.mem_cons_self a l)
    have hlrest : ∀ s ∈ l, 0 ≤ s.longitud_m :=
      fun s hs => hl s (List.mem_cons_of_mem a hs)
    have haccnn : 0 ≤ acc := by
      rw [hacc]
      exact sum_longitud_nonneg actual (fun s hs => (hact s hs).1)
    simp only [agruparRamaLoop] at hg
    split at hg
    case isTrue h1 =>
      split at hg
      case isTrue h2 =>
        rcases List.mem_cons.mp hg with rfl | hg
        · exact absurd ((hact s hs).2) (not_le.mpr hbig)
        rcases List.mem_cons.mp hg with rfl | hg
        · rcases List.mem_singleton.mp hs with rfl
          exact ⟨rfl, rfl⟩
        · exact ih [] 0 (by simp) (by simp) hlrest g hg s hs hbig
      case isFalse h2 =>
        rcases List.mem_cons.mp hg with rfl | hg
        · exact absurd ((hact s hs).2) (not_le.mpr hbig)
        · refine ih [a] a.longitud_m (by simp) ?_ hlrest g hg s hs hbig
          intro t ht
          rcases List.mem_singleton.mp ht with rfl
          exact ⟨hla, le_trans (le_of_not_le h2) hsi⟩
    case isFalse h1 =>
      split at hg
      case isTrue h3 =>
        rcases List.mem_cons.mp hg with rfl | hg
        · rcases List.mem_append.mp hs with hs | hs
          · exact absurd ((hact s hs).2) (not_le.mpr hbig)
          · rcases List.mem_singleton.mp hs with rfl
            have hover : acc + s.longitud_m > sup := by linarith
            have hempty : actual = [] := by
              by_contra hne
              exact h1 ⟨hover, hne⟩
            subst hempty
            simp only [List.map_nil, List.sum_nil] at hacc
            subst hacc
            exact ⟨by simp, by simp⟩
        · exact ih [] 0 (by simp) (by simp) hlrest g hg s hs hbig
      case isFalse h3 =>
        refine ih (actual ++ [a]) (acc + a.longitud_m) (by simp [hacc]) ?_
          hlrest g hg s hs hbig
        intro t ht
        rcases List.mem_append.mp ht with ht | ht
        · exact hact t ht
        · rcases List.mem_singleton.mp ht with rfl
          refine ⟨hla, ?_⟩
          by_contra hbig2
          push_neg at hbig2
          have hover : acc + t.longitud_m > sup := by linarith
          have hempty : actual = [] := by
            by_contra hne
            exact h1 ⟨hover, hne⟩
          subst hempty
          simp only [List.map_nil, List.sum_nil] at hacc
          subst hacc
      -- with an empty open group the close-at-lower-bound test applies
          have : inf ≤ 0 + t.longitud_m := by linarith
          exact h3 this

/-- C7: scenario B concretely — a branch holding one 1500 m segment,
target 1000 and tolerance 0.2 (upper bound 1200), yields exactly one
group with exactly that segment and total 1500, exceeding the upper
bound — and in general, under nonnegative lengths and tolerance, every
group member whose length alone exceeds the upper bound is the sole
member of its group in branch mode. -/
theorem c7_sobredimensionado :
    (agrupar_segmentos_rama [segGrande] 1000 (1/5) =
        [⟨[segGrande], 1500⟩] ∧
      1000 * (1 + (1/5 : ℚ)) < 1500) ∧
    ∀ (segmentos : List SegEntry) (obj tol : ℚ), 0 ≤ obj → 0 ≤ tol →
      (∀ s ∈ segmentos, 0 ≤ s.longitud_m) →
      ∀ g ∈ agrupar_segmentos_rama segmentos obj tol, ∀ s ∈ g.segmentos,
        obj * (1 + tol) < s.longitud_m →
        g.segmentos = [s] ∧ g.longitud_total = s.longitud_m := by
  constructor
  · constructor
    · norm_num [agrupar_segmentos_rama, agruparRamaLoop, segGrande]
    · norm_num
  · intro segmentos obj tol hobj htol hlen g hg s hs hbig
    have hsi : obj * (1 - tol) ≤ obj * (1 + tol) := by nlinarith
    simp only [agrupar_segmentos_rama] at hg
    exact agruparRamaLoop_grande _ _ hsi segmentos [] 0 (by simp)
      (by simp) hlen g hg s hs hbig

/-- Witness for `c7_sobredimensionado` on scenario B itself. -/
theorem c7_sobredimensionado_witness :
    ([segGrande] : List SegEntry) = [segGrande] ∧
    (1500 : ℚ) = segGrande.longitud_m := by
  have hmem : (⟨[segGrande], 1500⟩ : GrupoRama) ∈
      agrupar_segmentos_rama [segGrande] 1000 (1/5) := by
    norm_num [agrupar_segmentos_rama, agruparRamaLoop, segGrande]
  have h := c7_sobredimensionado.2 [segGrande] 1000 (1/5) (by norm_num)
    (by norm_num) (by intro s hs; rcases List.mem_singleton.mp hs with rfl
                      norm_num [segGrande])
    ⟨[segGrande], 1500⟩ hmem segGrande (List.mem_singleton.mpr rfl)
    (by norm_num [segGrande])
  exact ⟨h.1, h.2.symm⟩

/-! ## C6: root selection -/

/-- Helper: when every node carries a `tipo` attribute, the substation
scan agrees with `find?` on the node list. -/
theorem buscarSubestacion_find (nodos : List (Nat × Option String))
    (hattr : ∀ p ∈ nodos, p.2 ≠ none) :
    (∀ q, nodos.find? (fun p => p.2 = some "Subestacion") = some q →
      buscarSubestacion nodos = some (Except.ok q.1)) ∧
    (nodos.find? (fun p => p.2 = some "Subestacion") = none →
      buscarSubestacion nodos = none) := by
  induction nodos with
  | nil => exact ⟨fun q h => by simp at h, fun _ => rfl⟩
  | cons p rest ih =>
    obtain ⟨n, t⟩ := p
    match htt : t with
    | none => exact absurd rfl (hattr (n, none) (List.mem_cons_self _ _))
    | some tipo =>
      have ih' := ih (fun q hq => hattr q (List.mem_cons_of_mem _ hq))
      by_cases hs : tipo = "Subestacion"
      · subst hs
        constructor
        · intro q hq
          rw [List.find?_cons_of_pos _ (by simp)] at hq
          cases hq
          rfl
        · intro hq
          rw [List.find?_cons_of_pos _ (by simp)] at hq
          cases hq
      · constructor
        · intro q hq
          rw [List.find?_cons_of_neg _ (by simp [hs])] at hq
          simpa [buscarSubestacion, hs] using ih'.1 q hq
        · intro hq
          rw [List.find?_cons_of_neg _ (by simp [hs])] at hq
          simpa [buscarSubestacion, hs] using ih'.2 hq

/-- Helper: `maxFirst` returns a member attaining the maximum value,
and it is the first member whose value reaches that maximum. -/
theorem maxFirst_spec (deg : Nat → Nat) :
    ∀ (ks : List Nat) (b : Nat),
      maxFirst deg b ks ∈ b :: ks ∧
      (∀ k ∈ b :: ks, deg k ≤ deg (maxFirst deg b ks)) ∧
      (b :: ks).find? (fun k => deg (maxFirst deg b ks) ≤ deg k) =
        some (maxFirst deg b ks) := by
  intro ks
  induction ks with
  | nil =>
    intro b
    refine ⟨List.mem_cons_self _ _, ?_, ?_⟩
    · intro k hk
      rcases List.mem_singleton.mp hk with rfl
      simp [maxFirst]
    · simp [maxFirst]
  | cons k ks ih =>
    intro b
    by_cases h : deg k > deg b
    · have hik := ih k
      have hm : maxFirst deg b (k :: ks) = maxFirst deg k ks := by
        simp [maxFirst, h]
      rw [hm]
      refine ⟨List.mem_cons_of_mem b hik.1, ?_, ?_⟩
      · intro x hx
        rcases List.mem_cons.mp hx with rfl | hx
        · exact le_trans (le_of_lt h) (hik.2.1 k (List.mem_cons_self _ _))
        · exact hik.2.1 x hx
      · have hb : ¬ (deg (maxFirst deg k ks) ≤ deg b) :=
          not_le.mpr (lt_of_lt_of_le h (hik.2.1 k (List.mem_cons_self _ _)))
        rw [List.find?_cons_of_neg _ (by simpa using hb)]
        exact hik.2.2
    · have hib := ih b
      have hm : maxFirst deg b (k :: ks) = maxFirst deg b ks := by
        simp [maxFirst, h]
      rw [hm]
      have hkb : deg k ≤ deg b := not_lt.mp h
      have hbm : deg b ≤ deg (maxFirst deg b ks) :=
        hib.2.1 b (List.mem_cons_self _ _)
      refine ⟨?_, ?_, ?_⟩
      · rcases List.mem_cons.mp hib.1 with hh | hh
        · rw [hh]; exact List.mem_cons_self _ _
        · exact List.mem_cons_of_mem _ (List.mem_cons_of_mem _ hh)
      · intro x hx
        rcases List.mem_cons.mp hx with rfl | hx
        · exact hbm
        rcases List.mem_cons.mp hx with rfl | hx
        · exact le_trans hkb hbm
        · exact hib.2.1 x (List.mem_cons_of_mem _ hx)
      · by_cases hfb : deg (maxFirst deg b ks) ≤ deg b
        · have h1 : (b :: ks).find? (fun x => deg (maxFirst deg b ks) ≤ deg x)
              = some b := List.find?_cons_of_pos _ (by simpa using hfb)
          have h2 := hib.2.2
          rw [h1] at h2
          have hb2 : b = maxFirst deg b ks := by injection h2
          rw [List.find?_cons_of_pos _ (by simpa using hfb), ← hb2]
        · have h2 := hib.2.2
          rw [List.find?_cons_of_neg _ (by simpa using hfb)] at h2
          have hfk : ¬ (deg (maxFirst deg b ks) ≤ deg k) :=
            fun hc => hfb (le_trans hc hkb)
          rw [List.find?_cons_of_neg _ (by simpa using hfb),
            List.find?_cons_of_neg _ (by simpa using hfk)]
          exact h2

/-- Helper: `find?` only depends on the predicate's values on the
list. -/
theorem find?_congr_mem {p q : Nat → Bool} :
    ∀ l : List Nat, (∀ x ∈ l, p x = q x) → l.find? p = l.find? q := by
  intro l
  induction l with
  | nil => intro _; rfl
  | cons a l ih =>
    intro h
    have ha := h a (List.mem_cons_self _ _)
    by_cases hpa : p a = true
    · rw [List.find?_cons_of_pos _ hpa, List.find?_cons_of_pos _ (ha ▸ hpa)]
    · have hqa : ¬ q a = true := fun hc => hpa (ha ▸ hc)
      rw [List.find?_cons_of_neg _ hpa, List.find?_cons_of_neg _ hqa]
      exact ih (fun x hx => h x (List.mem_cons_of_mem _ hx))

/-- C6: on a non-empty node table whose nodes all carry a type, root
selection returns the first node (in insertion order) of type
`Subestacion`; when there is none, it returns a node of maximum degree,
and among the nodes sharing that maximum degree it is the earliest in
insertion order (the first node whose degree equals the root's degree
is the root itself). -/
theorem c6_seleccion_raiz (red : RedElectrica)
    (hne : red.nodos ≠ [])
    (hattr : ∀ p ∈ red.nodos, p.2 ≠ none) :
    (∀ q, red.nodos.find? (fun p => p.2 = some "Subestacion") = some q →
      encontrar_subestacion_principal red = Except.ok q.1) ∧
    (red.nodos.find? (fun p => p.2 = some "Subestacion") = none →
      ∃ m, encontrar_subestacion_principal red = Except.ok m ∧
        m ∈ nodeIds red ∧
        (∀ k ∈ nodeIds red, degree red k ≤ degree red m) ∧
        (nodeIds red).find?
          (fun k => degree red k = degree red m) = some m) := by
  constructor
  · intro q hq
    unfold encontrar_subestacion_principal
    rw [(buscarSubestacion_find red.nodos hattr).1 q hq]
  · intro hq
    unfold encontrar_subestacion_principal
    rw [(buscarSubestacion_find red.nodos hattr).2 hq]
    match hids : nodeIds red with
    | [] =>
      exact absurd (by simpa [nodeIds] using congrArg List.length hids)
        (fun hlen => hne (List.length_eq_zero.mp hlen))
    | i :: irest =>
      obtain ⟨hmem, hmax, hfind⟩ := maxFirst_spec (degree red) irest i
      refine ⟨maxFirst (degree red) i irest, rfl, hids ▸ hmem,
        fun k hk => hmax k (hids ▸ hk), ?_⟩
      rw [← hfind]
      apply find?_congr_mem
      intro x hx
      have hle := hmax x hx
      simp only [decide_eq_decide]
      exact ⟨fun hh => le_of_eq hh.symm, fun hh => le_antisymm hle hh⟩

/-- Witness for `c6_seleccion_raiz` on the 4-cycle with no substation:
the fallback picks node 1, the first of the four degree-2 nodes. -/
theorem c6_seleccion_raiz_witness :
    encontrar_subestacion_principal redCiclo = Except.ok 1 := by
  obtain ⟨m, hm, -, -, -⟩ :=
    (c6_seleccion_raiz redCiclo (by decide) (by decide)).2 (by decide)
  have h1 : encontrar_subestacion_principal redCiclo = Except.ok 1 := rfl
  exact h1

/-! ## Registry write analysis

Both grouping modes write the registry exclusively through
`cerrarGrupoReg`.  The following proof-layer machinery records each run
as its list of close events and re-derives the registry from it: this
factors every registry property (C1, C2, C3, C10) through list lemmas.
-/

/-- One close event: the group id written, the member segments, the
total length, and the branch provenance (linear mode: `none`). -/
structure Cierre where
  gid : Nat
  segmentos : List SegEntry
  total : ℚ
  rama : Option RamaInfo
deriving DecidableEq, Repr

/-- Replaying a list of close events over a registry. -/
def applyCierres (reg : Registry) (l : List Cierre) : Registry :=
  l.foldl (fun r c => cerrarGrupoReg r c.segmentos c.total c.gid c.rama) reg

/-- The `Grupo` a close event stores. -/
def Cierre.grupo (c : Cierre) : Grupo :=
  ⟨c.segmentos, c.total, c.segmentos.length, c.total / 1000, c.rama⟩

/-- The gids of a close list are consecutive starting at `g0`. -/
def gidsConsecutivos : Nat → List Cierre → Prop
  | _, [] => True
  | g0, c :: rest => c.gid = g0 ∧ gidsConsecutivos (g0 + 1) rest

/-- Sum of the lengths of a list of segment entries. -/
def sumLen (l : List SegEntry) : ℚ := (l.map SegEntry.longitud_m).sum

/-! ### Dictionary lemmas -/

theorem dictGet_dictSet_self {α : Type} (m : List (Nat × α)) (k : Nat)
    (v : α) : dictGet (dictSet m k v) k = some v := by
  unfold dictSet dictGet
  split
  case isTrue h =>
    induction m with
    | nil => simp at h
    | cons p rest ih =>
      by_cases hp : p.1 = k
      · simp [List.find?_cons_of_pos, hp]
      · simp only [List.map_cons, List.mem_cons] at h
        rcases h with h | h
        · exact absurd h.symm hp
        · simpa [List.find?_cons_of_neg, hp] using ih h
  case isFalse h =>
    induction m with
    | nil => simp
    | cons p rest ih =>
      simp only [List.map_cons, List.mem_cons, not_or] at h
      have hp : ¬ (p.1 = k) := fun hc => h.1 hc.symm
      simp only [List.cons_append]
      rw [List.find?_cons_of_neg _ (by simpa using hp)]
      exact ih h.2

/-- Helper for `dictGet_dictSet_ne`: in-place replacement of key `k`
does not change lookups for another key. -/
theorem find?_map_replace {α : Type} (k k' : Nat) (v : α) (h : k' ≠ k) :
    ∀ m : List (Nat × α),
      (m.map (fun p => if p.1 = k then (k, v) else p)).find?
        (fun p => p.1 = k') = m.find? (fun p => p.1 = k') := by
  intro m
  induction m with
  | nil => rfl
  | cons p rest ih =>
    rw [List.map_cons]
    by_cases hp : p.1 = k
    · rw [if_pos hp,
        List.find?_cons_of_neg _ (by simpa using Ne.symm h),
        List.find?_cons_of_neg _ (by rw [hp]; simpa using Ne.symm h)]
      exact ih
    · rw [if_neg hp]
      by_cases hq : p.1 = k'
      · rw [List.find?_cons_of_pos _ (by simpa using hq),
          List.find?_cons_of_pos _ (by simpa using hq)]
      · rw [List.find?_cons_of_neg _ (by simpa using hq),
          List.find?_cons_of_neg _ (by simpa using hq)]
        exact ih

/-- Helper for `dictGet_dictSet_ne`: appending an entry with key `k`
does not change lookups for another key. -/
theorem find?_append_ne {α : Type} (k k' : Nat) (v : α) (h : k' ≠ k) :
    ∀ m : List (Nat × α),
      (m ++ [(k, v)]).find? (fun p => p.1 = k') =
        m.find? (fun p => p.1 = k') := by
  intro m
  induction m with
  | nil =>
    rw [List.nil_append,
      List.find?_cons_of_neg _ (by simpa using Ne.symm h)]
  | cons p rest ih =>
    rw [List.cons_append]
    by_cases hq : p.1 = k'
    · rw [List.find?_cons_of_pos _ (by simpa using hq),
        List.find?_cons_of_pos _ (by simpa using hq)]
    · rw [List.find?_cons_of_neg _ (by simpa using hq),
        List.find?_cons_of_neg _ (by simpa using hq)]
      exact ih

theorem dictGet_dictSet_ne {α : Type} (m : List (Nat × α)) (k k' : Nat)
    (v : α) (h : k' ≠ k) : dictGet (dictSet m k v) k' = dictGet m k' := by
  unfold dictSet dictGet
  split
  · rw [find?_map_replace k k' v h]
  · rw [find?_append_ne k k' v h]

/-- A write with a key absent from the dict appends. -/
theorem dictSet_fresh {α : Type} (m : List (Nat × α)) (k : Nat) (v : α)
    (h : k ∉ m.map Prod.fst) : dictSet m k v = m ++ [(k, v)] := by
  unfold dictSet
  rw [if_neg h]

/-- The reverse-index writes of one close: value lookup afterwards. -/
theorem dictGet_foldWrite (gid : Nat) :
    ∀ (segs : List SegEntry) (idx : List (Nat × Nat)) (sid : Nat),
      dictGet (segs.foldl (fun m s => dictSet m s.segmento_id gid) idx) sid =
        if sid ∈ segs.map SegEntry.segmento_id then some gid
        else dictGet idx sid := by
  intro segs
  induction segs with
  | nil => intro idx sid; simp
  | cons s rest ih =>
    intro idx sid
    simp only [List.foldl_cons, List.map_cons, List.mem_cons]
    rw [ih]
    by_cases hmem : sid ∈ rest.map SegEntry.segmento_id
    · rw [if_pos hmem, if_pos (Or.inr hmem)]
    · rw [if_neg hmem]
      by_cases hs : sid = s.segmento_id
      · rw [if_pos (Or.inl hs), hs, dictGet_dictSet_self]
      · rw [if_neg (by simpa [hs] using hmem), dictGet_dictSet_ne _ _ _ _ hs]

/-! ### Registry shape after replaying fresh consecutive closes -/

/-- With all existing group keys below `g0` and consecutive gids from
`g0`, replaying appends the closes in order. -/
theorem applyCierres_grupos :
    ∀ (l : List Cierre) (reg : Registry) (g0 : Nat),
      gidsConsecutivos g0 l →
      (∀ k ∈ reg.grupos.map Prod.fst, k < g0) →
      (applyCierres reg l).grupos =
        reg.grupos ++ l.map (fun c => (c.gid, c.grupo)) := by
  intro l
  induction l with
  | nil => intro reg g0 _ _; simp [applyCierres]
  | cons c rest ih =>
    intro reg g0 hg hk
    obtain ⟨hc, hrest⟩ := hg
    have hfresh : c.gid ∉ reg.grupos.map Prod.fst := by
      intro hmem
      exact absurd (hc ▸ hk _ hmem) (lt_irrefl g0)
    have hstep : (cerrarGrupoReg reg c.segmentos c.total c.gid c.rama).grupos
        = reg.grupos ++ [(c.gid, c.grupo)] := by
      show dictSet reg.grupos c.gid _ = _
      rw [dictSet_fresh _ _ _ hfresh]
      rfl
    have hk' : ∀ k ∈ (cerrarGrupoReg reg c.segmentos c.total c.gid
        c.rama).grupos.map Prod.fst, k < g0 + 1 := by
      rw [hstep]
      intro k hk2
      simp only [List.map_append, List.mem_append, List.map_cons,
        List.map_nil, List.mem_singleton] at hk2
      rcases hk2 with hk2 | hk2
      · exact lt_trans (hk _ hk2) (Nat.lt_succ_self _)
      · rw [hk2, hc]; exact Nat.lt_succ_self _
    show (applyCierres (cerrarGrupoReg reg c.segmentos c.total c.gid
      c.rama) rest).grupos = _
    rw [ih _ (g0 + 1) hrest hk', hstep]
    simp

/-- The C10 registry invariant: every stored group is correctly indexed
— each of its member segments is mapped by the reverse index to a group
that contains that member's id. -/
def indiceCorrecto (reg : Registry) : Prop :=
  ∀ p ∈ reg.grupos, ∀ s ∈ p.2.segmentos,
    ∃ k g, dictGet reg.segmentos_por_grupo s.segmento_id = some k ∧
      dictGet reg.grupos k = some g ∧
      s.segmento_id ∈ g.segmentos.map SegEntry.segmento_id

/-- The values of a dict after one write are old values or the written
one. -/
theorem dictSet_values {α : Type} (m : List (Nat × α)) (k : Nat) (v : α) :
    ∀ w ∈ (dictSet m k v).map Prod.snd,
      w ∈ m.map Prod.snd ∨ w = v := by
  intro w hw
  unfold dictSet at hw
  split at hw
  · obtain ⟨p, hp, hpe⟩ := List.mem_map.mp hw
    obtain ⟨q, hq, hqe⟩ := List.mem_map.mp hp
    by_cases hqk : q.1 = k
    · right; rw [← hpe, ← hqe]; simp [hqk]
    · left
      rw [← hpe, ← hqe]
      simp only [hqk, if_neg, ite_false]
      exact List.mem_map_of_mem _ hq
  · simp only [List.map_append, List.mem_append, List.map_cons,
      List.map_nil, List.mem_singleton] at hw
    exact hw

/-- The values of the reverse index after one close's writes. -/
theorem foldWrite_values (gid : Nat) :
    ∀ (segs : List SegEntry) (idx : List (Nat × Nat)),
      ∀ v ∈ (segs.foldl (fun m s => dictSet m s.segmento_id gid)
        idx).map Prod.snd, v ∈ idx.map Prod.snd ∨ v = gid := by
  intro segs
  induction segs with
  | nil => intro idx v hv; exact Or.inl hv
  | cons s rest ih =>
    intro idx v hv
    simp only [List.foldl_cons] at hv
    rcases ih _ v hv with hv | hv
    · exact dictSet_values _ _ _ _ hv
    · exact Or.inr hv

/-- A successful lookup returns a stored value. -/
theorem dictGet_mem_values {α : Type} (m : List (Nat × α)) (k : Nat)
    (v : α) (h : dictGet m k = some v) : v ∈ m.map Prod.snd := by
  unfold dictGet at h
  match hf : m.find? (fun p => p.1 = k) with
  | none => rw [hf] at h; cases h
  | some p =>
    rw [hf] at h
    cases h
    exact List.mem_map_of_mem _ (List.mem_of_find?_eq_some hf)

/-- One fresh close preserves the index invariant. -/
theorem cerrar_indiceCorrecto (reg : Registry) (c : Cierre)
    (hkg : ∀ k ∈ reg.grupos.map Prod.fst, k < c.gid)
    (hkv : ∀ v ∈ reg.segmentos_por_grupo.map Prod.snd, v < c.gid)
    (hic : indiceCorrecto reg) :
    indiceCorrecto (cerrarGrupoReg reg c.segmentos c.total c.gid c.rama)
    := by
  have hgr : (cerrarGrupoReg reg c.segmentos c.total c.gid c.rama).grupos
      = dictSet reg.grupos c.gid c.grupo := rfl
  have hidx : (cerrarGrupoReg reg c.segmentos c.total c.gid
      c.rama).segmentos_por_grupo =
      c.segmentos.foldl (fun m s => dictSet m s.segmento_id c.gid)
        reg.segmentos_por_grupo := rfl
  have hfresh : c.gid ∉ reg.grupos.map Prod.fst := by
    intro hmem
    exact absurd (hkg _ hmem) (lt_irrefl c.gid)
  intro p hp s hs
  rw [hgr, dictSet_fresh _ _ _ hfresh] at hp
  rw [hgr, hidx]
  rcases List.mem_append.mp hp with hp | hp
  · -- a pre-existing group
    obtain ⟨k, g, h1, h2, h3⟩ := hic p hp s hs
    by_cases hmem : s.segmento_id ∈ c.segmentos.map SegEntry.segmento_id
    · refine ⟨c.gid, c.grupo, ?_, ?_, hmem⟩
      · rw [dictGet_foldWrite, if_pos hmem]
      · exact dictGet_dictSet_self _ _ _
    · refine ⟨k, g, ?_, ?_, h3⟩
      · rw [dictGet_foldWrite, if_neg hmem]
        exact h1
      · have hklt : k < c.gid := hkv _ (dictGet_mem_values _ _ _ h1)
        rw [dictGet_dictSet_ne _ _ _ _ (Nat.ne_of_lt hklt)]
        exact h2
  · -- the group just closed
    rcases List.mem_singleton.mp hp with rfl
    have hmem : s.segmento_id ∈ c.segmentos.map SegEntry.segmento_id :=
      List.mem_map_of_mem _ hs
    refine ⟨c.gid, c.grupo, ?_, dictGet_dictSet_self _ _ _, hmem⟩
    rw [dictGet_foldWrite, if_pos hmem]

/-- Replaying fresh consecutive closes preserves the index invariant
(the bounds say every pre-existing key and index value is below the
fresh gids). -/
theorem applyCierres_indiceCorrecto :
    ∀ (l : List Cierre) (reg : Registry) (g0 : Nat),
      gidsConsecutivos g0 l →
      (∀ k ∈ reg.grupos.map Prod.fst, k < g0) →
      (∀ v ∈ reg.segmentos_por_grupo.map Prod.snd, v < g0) →
      indiceCorrecto reg →
      indiceCorrecto (applyCierres reg l) := by
  intro l
  induction l with
  | nil => intro reg g0 _ _ _ h; exact h
  | cons c rest ih =>
    intro reg g0 hg hkg hkv hic
    obtain ⟨hc, hrest⟩ := hg
    subst hc
    refine ih (cerrarGrupoReg reg c.segmentos c.total c.gid c.rama)
      (c.gid + 1) hrest ?_ ?_
      (cerrar_indiceCorrecto reg c hkg hkv hic)
    · show ∀ k ∈ (dictSet reg.grupos c.gid c.grupo).map Prod.fst, _
      have hfresh : c.gid ∉ reg.grupos.map Prod.fst := by
        intro hmem
        exact absurd (hkg _ hmem) (lt_irrefl c.gid)
      rw [dictSet_fresh _ _ _ hfresh]
      intro k hk2
      simp only [List.map_append, List.mem_append, List.map_cons,
        List.map_nil, List.mem_singleton] at hk2
      rcases hk2 with hk2 | hk2
      · exact lt_trans (hkg _ hk2) (Nat.lt_succ_self _)
      · rw [hk2]; exact Nat.lt_succ_self _
    · intro v hv
      rcases foldWrite_values c.gid c.segmentos reg.segmentos_por_grupo
        v hv with hv | hv
      · exact lt_trans (hkv _ hv) (Nat.lt_succ_self _)
      · rw [hv]; exact Nat.lt_succ_self _

/-! ### The linear run as a close list -/

/-- Proof-layer replay of the linear grouping decisions of
`procesarSegmento` over a consumption sequence: the closes emitted (in
order) and the final open group, accumulator and group id. -/
def cierresLin (obj tol : ℚ) :
    List SegEntry → List SegEntry → ℚ → Nat →
      List Cierre × List SegEntry × ℚ × Nat
  | [], actual, acc, gid => ([], actual, acc, gid)
  | e :: rest, actual, acc, gid =>
    if acc + e.longitud_m ≤ obj * (1 + tol) then
      if acc + e.longitud_m ≥ obj * (1 - tol) then
        (⟨gid, actual ++ [e], acc + e.longitud_m, none⟩ ::
            (cierresLin obj tol rest [] 0 (gid + 1)).1,
          (cierresLin obj tol rest [] 0 (gid + 1)).2)
      else cierresLin obj tol rest (actual ++ [e]) (acc + e.longitud_m) gid
    else
      if actual = [] then cierresLin obj tol rest [e] e.longitud_m gid
      else
        (⟨gid, actual, acc, none⟩ ::
            (cierresLin obj tol rest [e] e.longitud_m (gid + 1)).1,
          (cierresLin obj tol rest [e] e.longitud_m (gid + 1)).2)

/-- Folding `procesarSegmento` is replaying the closes of `cierresLin`
over the starting registry: the grouping decisions never read the
registry, they only write closes into it. -/
theorem foldl_procesar_como_cierres (obj tol : ℚ) :
    ∀ (entries : List SegEntry) (gs : GState),
      entries.foldl (procesarSegmento obj tol) gs =
        ⟨applyCierres gs.reg (cierresLin obj tol entries gs.grupo_actual
            gs.longitud_actual gs.grupo_id).1,
          (cierresLin obj tol entries gs.grupo_actual gs.longitud_actual
            gs.grupo_id).2.1,
          (cierresLin obj tol entries gs.grupo_actual gs.longitud_actual
            gs.grupo_id).2.2.1,
          (cierresLin obj tol entries gs.grupo_actual gs.longitud_actual
            gs.grupo_id).2.2.2⟩ := by
  intro entries
  induction entries with
  | nil => intro gs; rfl
  | cons e rest ih =>
    intro gs
    rw [List.foldl_cons]
    show rest.foldl (procesarSegmento obj tol)
      (procesarSegmento obj tol gs e) = _
    unfold procesarSegmento cierresLin
    by_cases h1 : gs.longitud_actual + e.longitud_m ≤ obj * (1 + tol)
    · rw [if_pos h1, if_pos h1]
      by_cases h2 : gs.longitud_actual + e.longitud_m ≥ obj * (1 - tol)
      · rw [if_pos h2, if_pos h2]
        exact ih ⟨cerrarGrupoReg gs.reg (gs.grupo_actual ++ [e])
          (gs.longitud_actual + e.longitud_m) gs.grupo_id none,
          [], 0, gs.grupo_id + 1⟩
      · rw [if_neg h2, if_neg h2]
        exact ih ⟨gs.reg, gs.grupo_actual ++ [e],
          gs.longitud_actual + e.longitud_m, gs.grupo_id⟩
    · rw [if_neg h1, if_neg h1]
      by_cases h3 : gs.grupo_actual = []
      · rw [if_pos h3, if_pos h3]
        exact ih ⟨gs.reg, [e], e.longitud_m, gs.grupo_id⟩
      · rw [if_neg h3, if_neg h3]
        exact ih ⟨cerrarGrupoReg gs.reg gs.grupo_actual gs.longitud_actual
          gs.grupo_id none, [e], e.longitud_m, gs.grupo_id + 1⟩

/-- The recorded closes of `cierresLin`: consecutive gids, non-empty
members, totals equal to member length sums, no branch provenance, the
final accumulator is the open group's sum, the final gid advances by one
per close, and the closes' members followed by the final open group are
exactly the consumed entries in order. -/
theorem cierresLin_spec (obj tol : ℚ) :
    ∀ (entries actual : List SegEntry) (acc : ℚ) (gid : Nat),
      acc = sumLen actual →
      gidsConsecutivos gid
        (cierresLin obj tol entries actual acc gid).1 ∧
      (∀ c ∈ (cierresLin obj tol entries actual acc gid).1,
        c.segmentos ≠ [] ∧ c.total = sumLen c.segmentos ∧ c.rama = none) ∧
      (cierresLin obj tol entries actual acc gid).2.2.1 =
        sumLen (cierresLin obj tol entries actual acc gid).2.1 ∧
      (cierresLin obj tol entries actual acc gid).2.2.2 =
        gid + (cierresLin obj tol entries actual acc gid).1.length ∧
      ((cierresLin obj tol entries actual acc gid).1.map
          Cierre.segmentos).flatten ++
        (cierresLin obj tol entries actual acc gid).2.1 =
        actual ++ entries := by
  intro entries
  induction entries with
  | nil =>
    intro actual acc gid hacc
    exact ⟨trivial, by simp [cierresLin], by simpa [cierresLin] using hacc,
      by simp [cierresLin], by simp [cierresLin]⟩
  | cons e rest ih =>
    intro actual acc gid hacc
    unfold cierresLin
    by_cases h1 : acc + e.longitud_m ≤ obj * (1 + tol)
    · rw [if_pos h1]
      by_cases h2 : acc + e.longitud_m ≥ obj * (1 - tol)
      · rw [if_pos h2]
        obtain ⟨ha, hb, hc, hd, he⟩ := ih [] 0 (gid + 1) (by simp [sumLen])
        refine ⟨⟨rfl, ha⟩, ?_, hc, ?_, ?_⟩
        · intro c hcm
          rcases List.mem_cons.mp hcm with rfl | hcm
          · refine ⟨by simp, ?_, rfl⟩
            simp only [sumLen, List.map_append, List.sum_append,
              List.map_cons, List.map_nil, List.sum_cons, List.sum_nil]
            rw [hacc]
            simp [sumLen]
          · exact hb c hcm
        · simp only [List.length_cons, hd]
          omega
        · simp only [List.nil_append] at he
          simp only [List.map_cons, List.flatten_cons, List.append_assoc, he]
          simp
      · rw [if_neg h2]
        obtain ⟨ha, hb, hc, hd, he⟩ := ih (actual ++ [e])
          (acc + e.longitud_m) gid
          (by simp [sumLen, hacc, List.map_append])
        exact ⟨ha, hb, hc, hd, by rw [he]; simp⟩
    · rw [if_neg h1]
      by_cases h3 : actual = []
      · rw [if_pos h3]
        obtain ⟨ha, hb, hc, hd, he⟩ := ih [e] e.longitud_m gid
          (by simp [sumLen])
        exact ⟨ha, hb, hc, hd, by rw [he, h3]; simp⟩
      · rw [if_neg h3]
        obtain ⟨ha, hb, hc, hd, he⟩ := ih [e] e.longitud_m (gid + 1)
          (by simp [sumLen])
        refine ⟨⟨rfl, ha⟩, ?_, hc, ?_, ?_⟩
        · intro c hcm
          rcases List.mem_cons.mp hcm with rfl | hcm
          · exact ⟨h3, hacc, rfl⟩
          · exact hb c hcm
        · simp only [List.length_cons, hd]
          omega
        · simp only [List.map_cons, List.flatten_cons, List.append_assoc, he]
          simp

/-- `dfsLoop` is `travLoop` (the traversal) followed by the grouping
fold: the traversal decisions never read the grouping state, and the
grouping state advances only when a segment is consumed. -/
theorem dfsLoop_como_trav (red : RedElectrica) (obj tol : ℚ) :
    ∀ (fuel : Nat) (pila : List Frame) (vis : List Nat) (gs : GState),
      dfsLoop red obj tol fuel pila vis gs =
        (travLoop red fuel pila vis).1.foldl (procesarSegmento obj tol)
          gs := by
  intro fuel
  induction fuel with
  | zero =>
    intro pila vis gs
    cases pila <;> rfl
  | succ fuel ih =>
    intro pila vis gs
    cases pila with
    | nil => rfl
    | cons f rest =>
      cases f with
      | start n =>
        by_cases hv : n ∈ vis
        · simp only [dfsLoop, travLoop, Frame.nodo, if_pos hv]
          exact ih rest vis gs
        · simp only [dfsLoop, travLoop, Frame.nodo, if_neg hv]
          exact ih _ _ gs
      | viaSeg v p sid len =>
        by_cases hv : v ∈ vis
        · simp only [dfsLoop, travLoop, Frame.nodo, if_pos hv]
          exact ih rest vis gs
        · simp only [dfsLoop, travLoop, Frame.nodo, if_neg hv,
            List.foldl_cons]
          exact ih _ _ _

/-- The consumption order of the linear run from `root`. -/
def travEntries (red : RedElectrica) (root : Nat) : List SegEntry :=
  (travLoop red (linFuel red) [Frame.start root] []).1

/-- All closes of a fresh linear run over a consumption sequence: the
in-run closes followed by the final close of the trailing open group
(when non-empty). -/
def cierresTotales (obj tol : ℚ) (entries : List SegEntry) :
    List Cierre :=
  (cierresLin obj tol entries [] 0 1).1 ++
    (if (cierresLin obj tol entries [] 0 1).2.1 = [] then []
     else [⟨(cierresLin obj tol entries [] 0 1).2.2.2,
       (cierresLin obj tol entries [] 0 1).2.1,
       (cierresLin obj tol entries [] 0 1).2.2.1, none⟩])

/-- `dfs_agrupar_segmentos` replays `cierresTotales` over the starting
registry. -/
theorem dfs_agrupar_como_cierres (red : RedElectrica) (obj tol : ℚ)
    (reg0 : Registry) (root : Nat)
    (h : encontrar_subestacion_principal red = Except.ok root) :
    dfs_agrupar_segmentos red obj tol reg0 =
      Except.ok (applyCierres reg0
        (cierresTotales obj tol (travEntries red root))) := by
  unfold dfs_agrupar_segmentos
  rw [h]
  dsimp only
  rw [dfsLoop_como_trav, foldl_procesar_como_cierres]
  dsimp only
  unfold cierresTotales travEntries applyCierres
  rw [List.foldl_append]
  by_cases hfin : (cierresLin obj tol
      (travLoop red (linFuel red) [Frame.start root] []).1 [] 0 1).2.1 = []
  · rw [if_pos hfin, if_pos hfin]
    rfl
  · rw [if_neg hfin, if_neg hfin]
    rfl

/-! ### The branch-mode run as a close list -/

/-- The closes of one branch's bins, gids counting from `g0`. -/
def envolver (info : RamaInfo) : List GrupoRama → Nat → List Cierre
  | [], _ => []
  | g :: rest, g0 =>
    ⟨g0, g.segmentos, g.longitud_total, some info⟩ ::
      envolver info rest (g0 + 1)

/-- All closes of a branch-mode run: the branches in discovery order,
each contributing its bins, with branch ids counting from `rid + 1` and
gids threaded through. -/
def cierresRamas (obj tol : ℚ) : List Rama → Nat → Nat → List Cierre
  | [], _, _ => []
  | rama :: rest, rid, g0 =>
    envolver ⟨rid + 1, rama.nodo_inicio, rama.nodo_fin⟩
        (agrupar_segmentos_rama rama.segmentos obj tol) g0 ++
      cierresRamas obj tol rest (rid + 1)
        (g0 + (agrupar_segmentos_rama rama.segmentos obj tol).length)

/-- The number of closes of one branch equals its number of bins. -/
theorem envolver_length (info : RamaInfo) :
    ∀ (gl : List GrupoRama) (g0 : Nat),
      (envolver info gl g0).length = gl.length := by
  intro gl
  induction gl with
  | nil => intro g0; rfl
  | cons g rest ih =>
    intro g0
    simp [envolver, ih]

/-- Storing one branch's bins is replaying their closes. -/
theorem foldAlmacenar (info : RamaInfo) :
    ∀ (gl : List GrupoRama) (reg : Registry) (gid : Nat),
      gl.foldl (fun (a : Registry × Nat) g =>
          (cerrarGrupoReg a.1 g.segmentos g.longitud_total a.2 (some info),
            a.2 + 1)) (reg, gid) =
        (applyCierres reg (envolver info gl gid), gid + gl.length) := by
  intro gl
  induction gl with
  | nil => intro reg gid; simp [envolver, applyCierres]
  | cons g rest ih =>
    intro reg gid
    rw [List.foldl_cons]
    rw [ih (cerrarGrupoReg reg g.segmentos g.longitud_total gid
      (some info)) (gid + 1)]
    simp only [envolver, applyCierres, List.foldl_cons, List.length_cons,
      Prod.mk.injEq]
    refine ⟨?_, ?_⟩
    · trivial
    · omega

/-- Storing all branches is replaying all their closes. -/
theorem foldRamas (obj tol : ℚ) :
    ∀ (ramas : List Rama) (rid : Nat) (reg : Registry) (gid : Nat),
      (ramas.enumFrom rid).foldl
          (fun a p => almacenarRama obj tol a (p.1 + 1) p.2) (reg, gid) =
        (applyCierres reg (cierresRamas obj tol ramas rid gid),
          gid + (cierresRamas obj tol ramas rid gid).length) := by
  intro ramas
  induction ramas with
  | nil => intro rid reg gid; simp [cierresRamas, applyCierres]
  | cons rama rest ih =>
    intro rid reg gid
    show (((rid, rama) :: rest.enumFrom (rid + 1)).foldl
      (fun a p => almacenarRama obj tol a (p.1 + 1) p.2) (reg, gid)) = _
    rw [List.foldl_cons]
    show (rest.enumFrom (rid + 1)).foldl _
      (almacenarRama obj tol (reg, gid) (rid + 1) rama) = _
    have h1 : almacenarRama obj tol (reg, gid) (rid + 1) rama =
        (applyCierres reg (envolver
          ⟨rid + 1, rama.nodo_inicio, rama.nodo_fin⟩
          (agrupar_segmentos_rama rama.segmentos obj tol) gid),
         gid + (agrupar_segmentos_rama rama.segmentos obj tol).length) :=
      foldAlmacenar _ _ reg gid
    rw [h1, ih (rid + 1)]
    rw [show cierresRamas obj tol (rama :: rest) rid gid =
      envolver ⟨rid + 1, rama.nodo_inicio, rama.nodo_fin⟩
          (agrupar_segmentos_rama rama.segmentos obj tol) gid ++
        cierresRamas obj tol rest (rid + 1)
          (gid + (agrupar_segmentos_rama rama.segmentos obj tol).length)
      from rfl]
    simp only [applyCierres, List.foldl_append, List.length_append,
      Prod.mk.injEq]
    refine ⟨?_, ?_⟩
    · trivial
    · rw [envolver_length]
      omega

/-- `dfs_por_ramas` replays the branch closes over the empty registry —
whatever registry the instance held before. -/
theorem dfs_por_ramas_como_cierres (red : RedElectrica) (obj tol : ℚ)
    (reg0 : Registry) (root : Nat)
    (h : encontrar_subestacion_principal red = Except.ok root) :
    dfs_por_ramas red obj tol reg0 =
      Except.ok (applyCierres ⟨[], []⟩
        (cierresRamas obj tol (identificar_ramas red root) 0 1)) := by
  unfold dfs_por_ramas
  rw [h]
  dsimp only
  rw [show (identificar_ramas red root).enum =
    (identificar_ramas red root).enumFrom 0 from rfl]
  rw [foldRamas]

/-- The bins of one branch partition its segment sequence in order:
every bin is non-empty, its recorded total is its members' length sum,
and the bins' members concatenate to the branch's segment list. -/
theorem agruparRamaLoop_particion (sup inf : ℚ) :
    ∀ (l actual : List SegEntry) (acc : ℚ), acc = sumLen actual →
      (∀ g ∈ agruparRamaLoop sup inf actual acc l,
        g.segmentos ≠ [] ∧ g.longitud_total = sumLen g.segmentos) ∧
      ((agruparRamaLoop sup inf actual acc l).map
        GrupoRama.segmentos).flatten = actual ++ l := by
  intro l
  induction l with
  | nil =>
    intro actual acc hacc
    constructor
    · intro g hg
      simp only [agruparRamaLoop] at hg
      split at hg
      · simp at hg
      case isFalse hne =>
        rcases List.mem_singleton.mp hg with rfl
        exact ⟨hne, hacc⟩
    · simp only [agruparRamaLoop]
      split
      case isTrue he => simp [he]
      case isFalse he => simp
  | cons s rest ih =>
    intro actual acc hacc
    have hsum1 : acc + s.longitud_m = sumLen (actual ++ [s]) := by
      simp [sumLen, hacc, List.map_append]
    have hsum2 : s.longitud_m = sumLen [s] := by simp [sumLen]
    constructor
    · intro g hg
      simp only [agruparRamaLoop] at hg
      split at hg
      case isTrue h1 =>
        split at hg
        case isTrue h2 =>
          rcases List.mem_cons.mp hg with rfl | hg
          · exact ⟨h1.2, hacc⟩
          rcases List.mem_cons.mp hg with rfl | hg
          · exact ⟨by simp, hsum2⟩
          · exact (ih [] 0 (by simp [sumLen])).1 g hg
        case isFalse h2 =>
          rcases List.mem_cons.mp hg with rfl | hg
          · exact ⟨h1.2, hacc⟩
          · exact (ih [s] s.longitud_m hsum2).1 g hg
      case isFalse h1 =>
        split at hg
        case isTrue h3 =>
          rcases List.mem_cons.mp hg with rfl | hg
          · exact ⟨by simp, hsum1⟩
          · exact (ih [] 0 (by simp [sumLen])).1 g hg
        case isFalse h3 =>
          exact (ih (actual ++ [s]) (acc + s.longitud_m) hsum1).1 g hg
    · simp only [agruparRamaLoop]
      split
      case isTrue h1 =>
        split
        case isTrue h2 =>
          simp only [List.map_cons, List.flatten_cons,
            (ih [] 0 (by simp [sumLen])).2, List.nil_append,
            List.append_assoc, List.singleton_append]
        case isFalse h2 =>
          simp only [List.map_cons, List.flatten_cons,
            (ih [s] s.longitud_m hsum2).2, List.append_assoc,
            List.singleton_append]
      case isFalse h1 =>
        split
        case isTrue h3 =>
          simp only [List.map_cons, List.flatten_cons,
            (ih [] 0 (by simp [sumLen])).2, List.nil_append,
            List.append_assoc, List.singleton_append]
        case isFalse h3 =>
          rw [(ih (actual ++ [s]) (acc + s.longitud_m) hsum1).2]
          simp

/-- Concatenation of consecutive close blocks. -/
theorem gidsConsecutivos_append :
    ∀ (l1 l2 : List Cierre) (g0 : Nat),
      gidsConsecutivos g0 l1 → gidsConsecutivos (g0 + l1.length) l2 →
      gidsConsecutivos g0 (l1 ++ l2) := by
  intro l1
  induction l1 with
  | nil => intro l2 g0 _ h2; simpa using h2
  | cons c rest ih =>
    intro l2 g0 h1 h2
    obtain ⟨hc, hrest⟩ := h1
    refine ⟨hc, ih l2 (g0 + 1) hrest ?_⟩
    have : g0 + 1 + rest.length = g0 + (rest.length + 1) := by omega
    rw [this]
    exact h2

/-- One branch's closes are consecutive. -/
theorem envolver_gids (info : RamaInfo) :
    ∀ (gl : List GrupoRama) (g0 : Nat),
      gidsConsecutivos g0 (envolver info gl g0) := by
  intro gl
  induction gl with
  | nil => intro g0; trivial
  | cons g rest ih => intro g0; exact ⟨rfl, ih (g0 + 1)⟩

/-- The branch-mode closes are consecutive from their starting gid. -/
theorem cierresRamas_gids (obj tol : ℚ) :
    ∀ (ramas : List Rama) (rid g0 : Nat),
      gidsConsecutivos g0 (cierresRamas obj tol ramas rid g0) := by
  intro ramas
  induction ramas with
  | nil => intro rid g0; trivial
  | cons rama rest ih =>
    intro rid g0
    refine gidsConsecutivos_append _ _ _ (envolver_gids _ _ _) ?_
    rw [envolver_length]
    exact ih (rid + 1) _

/-- Every branch-mode close is a non-empty bin whose total is its
members' length sum, carrying branch provenance. -/
theorem cierresRamas_spec (obj tol : ℚ) :
    ∀ (ramas : List Rama) (rid g0 : Nat),
      ∀ c ∈ cierresRamas obj tol ramas rid g0,
        c.segmentos ≠ [] ∧ c.total = sumLen c.segmentos ∧ c.rama ≠ none
    := by
  intro ramas
  induction ramas with
  | nil => intro rid g0 c hc; simp [cierresRamas] at hc
  | cons rama rest ih =>
    intro rid g0 c hc
    rw [show cierresRamas obj tol (rama :: rest) rid g0 =
      envolver ⟨rid + 1, rama.nodo_inicio, rama.nodo_fin⟩
          (agrupar_segmentos_rama rama.segmentos obj tol) g0 ++
        cierresRamas obj tol rest (rid + 1)
          (g0 + (agrupar_segmentos_rama rama.segmentos obj tol).length)
      from rfl] at hc
    rcases List.mem_append.mp hc with hc | hc
    · -- a close of this branch: transfer the bin properties
      have hbin : ∀ (gl : List GrupoRama) (g1 : Nat) (info : RamaInfo),
          (∀ g ∈ gl, g.segmentos ≠ [] ∧
            g.longitud_total = sumLen g.segmentos) →
          ∀ c ∈ envolver info gl g1, c.segmentos ≠ [] ∧
            c.total = sumLen c.segmentos ∧ c.rama ≠ none := by
        intro gl
        induction gl with
        | nil => intro g1 info _ c hc; simp [envolver] at hc
        | cons g grest ihg =>
          intro g1 info hprops c hc
          rcases List.mem_cons.mp hc with rfl | hc
          · obtain ⟨h1, h2⟩ := hprops g (List.mem_cons_self _ _)
            exact ⟨h1, h2, by simp⟩
          · exact ihg (g1 + 1) info
              (fun g' hg' => hprops g' (List.mem_cons_of_mem _ hg')) c hc
      refine hbin _ _ _ ?_ c hc
      intro g hg
      exact (agruparRamaLoop_particion
        (obj * (1 + tol)) (obj * (1 - tol)) rama.segmentos [] 0
        (by simp [sumLen])).1 g hg
    · exact ih (rid + 1) _ c hc

/-- The complete close list of a fresh linear run: consecutive gids
from 1, non-empty members, totals equal to member sums, no branch
provenance, and members concatenating to the consumption sequence. -/
theorem cierresTotales_spec (obj tol : ℚ) (entries : List SegEntry) :
    gidsConsecutivos 1 (cierresTotales obj tol entries) ∧
    (∀ c ∈ cierresTotales obj tol entries,
      c.segmentos ≠ [] ∧ c.total = sumLen c.segmentos ∧ c.rama = none) ∧
    ((cierresTotales obj tol entries).map Cierre.segmentos).flatten =
      entries := by
  obtain ⟨ha, hb, hc, hd, he⟩ :=
    cierresLin_spec obj tol entries [] 0 1 (by simp [sumLen])
  unfold cierresTotales
  by_cases hfin : (cierresLin obj tol entries [] 0 1).2.1 = []
  · rw [if_pos hfin]
    refine ⟨by simpa using ha, by simpa using hb, ?_⟩
    rw [hfin, List.append_nil] at he
    simpa using he
  · rw [if_neg hfin]
    refine ⟨?_, ?_, ?_⟩
    · refine gidsConsecutivos_append _ _ _ ha ?_
      exact ⟨by simpa using hd, trivial⟩
    · intro c hcm
      rcases List.mem_append.mp hcm with hcm | hcm
      · exact hb c hcm
      · rcases List.mem_singleton.mp hcm with rfl
        exact ⟨hfin, hc, rfl⟩
    · simp only [List.map_append, List.flatten_append, List.map_cons,
        List.map_nil, List.flatten_cons, List.flatten_nil,
        List.append_nil]
      simpa using he

/-- From any list of fresh consecutive well-formed closes, the replayed
registry has non-empty groups with correct totals and payload fields,
and a correct reverse index. -/
theorem registro_desde_cierres (l : List Cierre)
    (hg : gidsConsecutivos 1 l)
    (hp : ∀ c ∈ l, c.segmentos ≠ [] ∧ c.total = sumLen c.segmentos) :
    (∀ p ∈ (applyCierres ⟨[], []⟩ l).grupos,
      p.2.segmentos ≠ [] ∧
      p.2.longitud_total_m = sumLen p.2.segmentos ∧
      p.2.num_segmentos = p.2.segmentos.length ∧
      p.2.longitud_km = p.2.longitud_total_m / 1000) ∧
    indiceCorrecto (applyCierres ⟨[], []⟩ l) := by
  constructor
  · intro p hpm
    rw [applyCierres_grupos l ⟨[], []⟩ 1 hg (by simp)] at hpm
    simp only [List.nil_append] at hpm
    obtain ⟨c, hcm, hce⟩ := List.mem_map.mp hpm
    obtain ⟨h1, h2⟩ := hp c hcm
    rw [← hce]
    exact ⟨h1, h2, rfl, rfl⟩
  · exact applyCierres_indiceCorrecto l ⟨[], []⟩ 1 hg (by simp) (by simp)
      (fun p hpm => absurd hpm (List.not_mem_nil p))

/-! ## C10: group and index invariants of both modes -/

/-- C10: on any graph, a fresh run of either mode yields a registry in
which every stored group is non-empty, its recorded total is exactly
the sum of its members' lengths (and its count and km fields match),
and every member segment of every group is mapped by the reverse index
to a group containing that segment id. -/
theorem c10_invariantes (red : RedElectrica) (obj tol : ℚ) :
    (∀ reg, dfs_agrupar_segmentos red obj tol ⟨[], []⟩ = Except.ok reg →
      (∀ p ∈ reg.grupos, p.2.segmentos ≠ [] ∧
        p.2.longitud_total_m = sumLen p.2.segmentos ∧
        p.2.num_segmentos = p.2.segmentos.length ∧
        p.2.longitud_km = p.2.longitud_total_m / 1000) ∧
      indiceCorrecto reg) ∧
    (∀ reg, dfs_por_ramas red obj tol ⟨[], []⟩ = Except.ok reg →
      (∀ p ∈ reg.grupos, p.2.segmentos ≠ [] ∧
        p.2.longitud_total_m = sumLen p.2.segmentos ∧
        p.2.num_segmentos = p.2.segmentos.length ∧
        p.2.longitud_km = p.2.longitud_total_m / 1000) ∧
      indiceCorrecto reg) := by
  match hroot : encontrar_subestacion_principal red with
  | Except.error e =>
    constructor
    · intro reg hreg
      unfold dfs_agrupar_segmentos at hreg
      rw [hroot] at hreg
      cases hreg
    · intro reg hreg
      unfold dfs_por_ramas at hreg
      rw [hroot] at hreg
      cases hreg
  | Except.ok root =>
    constructor
    · intro reg hreg
      rw [dfs_agrupar_como_cierres red obj tol ⟨[], []⟩ root hroot]
        at hreg
      injection hreg with hreg
      subst hreg
      obtain ⟨hg, hp, -⟩ := cierresTotales_spec obj tol
        (travEntries red root)
      exact registro_desde_cierres _ hg (fun c hcm => ⟨(hp c hcm).1,
        (hp c hcm).2.1⟩)
    · intro reg hreg
      rw [dfs_por_ramas_como_cierres red obj tol ⟨[], []⟩ root hroot]
        at hreg
      injection hreg with hreg
      subst hreg
      refine registro_desde_cierres _ (cierresRamas_gids obj tol _ 0 1)
        (fun c hcm => ?_)
      obtain ⟨h1, h2, -⟩ := cierresRamas_spec obj tol
        (identificar_ramas red root) 0 1 c hcm
      exact ⟨h1, h2⟩

/-- The registry of the fresh linear run on `redCadena` (computed). -/
def regC10Cadena : Registry :=
  ⟨[(1, ⟨[⟨1, 400, 1, 2⟩, ⟨2, 400, 2, 3⟩], 800, 2, 4/5, none⟩),
    (2, ⟨[⟨3, 400, 3, 4⟩], 400, 1, 2/5, none⟩)],
   [(1, 1), (2, 1), (3, 2)]⟩

/-- The fresh linear run on `redCadena` computes `regC10Cadena`. -/
theorem regC10Cadena_run :
    dfs_agrupar_segmentos redCadena 1000 (1/5) ⟨[], []⟩ =
      Except.ok regC10Cadena := by
  norm_num [redCadena, cargar_datos, addEdge, addEndpoint, addNode, nodeIds,
    dfs_agrupar_segmentos, encontrar_subestacion_principal, buscarSubestacion,
    dfsLoop, linFuel, nodesUniv, procesarSegmento, cerrarGrupoReg, dictSet,
    pushFrames, neighbors, incidentes, dedupFirst, getEdgeData, sortPair,
    Frame.nodo, regC10Cadena]

/-- Witness for `c10_invariantes` on the 400/400/400 chain. -/
theorem c10_invariantes_witness :
    (∀ p ∈ regC10Cadena.grupos, p.2.segmentos ≠ [] ∧
      p.2.longitud_total_m = sumLen p.2.segmentos ∧
      p.2.num_segmentos = p.2.segmentos.length ∧
      p.2.longitud_km = p.2.longitud_total_m / 1000) ∧
    indiceCorrecto regC10Cadena :=
  (c10_invariantes redCadena 1000 (1/5)).1 regC10Cadena
    regC10Cadena_run

/-! ## C3: what a run's writes do and do not touch -/

/-- A group key no close writes is untouched by the replay. -/
theorem applyCierres_get_fuera :
    ∀ (l : List Cierre) (reg : Registry) (k : Nat),
      k ∉ l.map Cierre.gid →
      dictGet (applyCierres reg l).grupos k = dictGet reg.grupos k := by
  intro l
  induction l with
  | nil => intro reg k _; rfl
  | cons c rest ih =>
    intro reg k hk
    simp only [List.map_cons, List.mem_cons, not_or] at hk
    show dictGet (applyCierres (cerrarGrupoReg reg c.segmentos c.total
      c.gid c.rama) rest).grupos k = _
    rw [ih _ k hk.2]
    exact dictGet_dictSet_ne _ _ _ _ hk.1

/-- A group key some close writes reads the same after the replay,
whatever registry the replay started from. -/
theorem applyCierres_get_congr :
    ∀ (l : List Cierre) (reg reg' : Registry) (k : Nat),
      k ∈ l.map Cierre.gid →
      dictGet (applyCierres reg l).grupos k =
        dictGet (applyCierres reg' l).grupos k := by
  intro l
  induction l with
  | nil => intro reg reg' k hk; simp at hk
  | cons c rest ih =>
    intro reg reg' k hk
    show dictGet (applyCierres (cerrarGrupoReg reg c.segmentos c.total
        c.gid c.rama) rest).grupos k =
      dictGet (applyCierres (cerrarGrupoReg reg' c.segmentos c.total
        c.gid c.rama) rest).grupos k
    by_cases hrest : k ∈ rest.map Cierre.gid
    · exact ih _ _ k hrest
    · simp only [List.map_cons, List.mem_cons] at hk
      rcases hk with hk | hk
      · subst hk
        rw [applyCierres_get_fuera _ _ _ hrest,
          applyCierres_get_fuera _ _ _ hrest]
        show dictGet (dictSet reg.grupos c.gid c.grupo) c.gid =
          dictGet (dictSet reg'.grupos c.gid c.grupo) c.gid
        rw [dictGet_dictSet_self, dictGet_dictSet_self]
      · exact absurd hk hrest

/-- A written group key reads as `some` after the replay. -/
theorem applyCierres_get_en :
    ∀ (l : List Cierre) (reg : Registry) (k : Nat),
      k ∈ l.map Cierre.gid →
      ∃ g, dictGet (applyCierres reg l).grupos k = some g := by
  intro l
  induction l with
  | nil => intro reg k hk; simp at hk
  | cons c rest ih =>
    intro reg k hk
    show ∃ g, dictGet (applyCierres (cerrarGrupoReg reg c.segmentos
      c.total c.gid c.rama) rest).grupos k = some g
    by_cases hrest : k ∈ rest.map Cierre.gid
    · exact ih _ k hrest
    · simp only [List.map_cons, List.mem_cons] at hk
      rcases hk with hk | hk
      · subst hk
        rw [applyCierres_get_fuera _ _ _ hrest]
        exact ⟨c.grupo, dictGet_dictSet_self _ _ _⟩
      · exact absurd hk hrest

/-- The segment ids a close list writes into the reverse index. -/
def sidsEscritos (l : List Cierre) : List Nat :=
  ((l.map Cierre.segmentos).flatten).map SegEntry.segmento_id

/-- A segment id no close mentions is untouched in the reverse index. -/
theorem applyCierres_idx_fuera :
    ∀ (l : List Cierre) (reg : Registry) (sid : Nat),
      sid ∉ sidsEscritos l →
      dictGet (applyCierres reg l).segmentos_por_grupo sid =
        dictGet reg.segmentos_por_grupo sid := by
  intro l
  induction l with
  | nil => intro reg sid _; rfl
  | cons c rest ih =>
    intro reg sid hs
    have hsplit : sid ∉ c.segmentos.map SegEntry.segmento_id ∧
        sid ∉ sidsEscritos rest := by
      unfold sidsEscritos at hs ⊢
      simp only [List.map_cons, List.flatten_cons, List.map_append,
        List.mem_append, not_or] at hs
      exact hs
    show dictGet (applyCierres (cerrarGrupoReg reg c.segmentos c.total
      c.gid c.rama) rest).segmentos_por_grupo sid = _
    rw [ih _ sid hsplit.2]
    show dictGet (c.segmentos.foldl
      (fun m s => dictSet m s.segmento_id c.gid)
      reg.segmentos_por_grupo) sid = _
    rw [dictGet_foldWrite, if_neg hsplit.1]

/-- A segment id some close mentions reads the same after the replay,
whatever registry the replay started from. -/
theorem applyCierres_idx_congr :
    ∀ (l : List Cierre) (reg reg' : Registry) (sid : Nat),
      sid ∈ sidsEscritos l →
      dictGet (applyCierres reg l).segmentos_por_grupo sid =
        dictGet (applyCierres reg' l).segmentos_por_grupo sid := by
  intro l
  induction l with
  | nil => intro reg reg' sid hs; simp [sidsEscritos] at hs
  | cons c rest ih =>
    intro reg reg' sid hs
    show dictGet (applyCierres (cerrarGrupoReg reg c.segmentos c.total
        c.gid c.rama) rest).segmentos_por_grupo sid =
      dictGet (applyCierres (cerrarGrupoReg reg' c.segmentos c.total
        c.gid c.rama) rest).segmentos_por_grupo sid
    by_cases hrest : sid ∈ sidsEscritos rest
    · exact ih _ _ sid hrest
    · have hc : sid ∈ c.segmentos.map SegEntry.segmento_id := by
        unfold sidsEscritos at hs
        simp only [List.map_cons, List.flatten_cons, List.map_append,
          List.mem_append] at hs
        rcases hs with hs | hs
        · exact hs
        · exact absurd hs hrest
      rw [applyCierres_idx_fuera _ _ _ hrest,
        applyCierres_idx_fuera _ _ _ hrest]
      show dictGet (c.segmentos.foldl
          (fun m s => dictSet m s.segmento_id c.gid)
          reg.segmentos_por_grupo) sid =
        dictGet (c.segmentos.foldl
          (fun m s => dictSet m s.segmento_id c.gid)
          reg'.segmentos_por_grupo) sid
      rw [dictGet_foldWrite, dictGet_foldWrite, if_pos hc, if_pos hc]

/-- A written segment id reads as `some` after the replay. -/
theorem applyCierres_idx_en :
    ∀ (l : List Cierre) (reg : Registry) (sid : Nat),
      sid ∈ sidsEscritos l →
      ∃ v, dictGet (applyCierres reg l).segmentos_por_grupo sid =
        some v := by
  intro l
  induction l with
  | nil => intro reg sid hs; simp [sidsEscritos] at hs
  | cons c rest ih =>
    intro reg sid hs
    show ∃ v, dictGet (applyCierres (cerrarGrupoReg reg c.segmentos
      c.total c.gid c.rama) rest).segmentos_por_grupo sid = some v
    by_cases hrest : sid ∈ sidsEscritos rest
    · exact ih _ sid hrest
    · have hc : sid ∈ c.segmentos.map SegEntry.segmento_id := by
        unfold sidsEscritos at hs
        simp only [List.map_cons, List.flatten_cons, List.map_append,
          List.mem_append] at hs
        rcases hs with hs | hs
        · exact hs
        · exact absurd hs hrest
      rw [applyCierres_idx_fuera _ _ _ hrest]
      refine ⟨c.gid, ?_⟩
      show dictGet (c.segmentos.foldl
        (fun m s => dictSet m s.segmento_id c.gid)
        reg.segmentos_por_grupo) sid = some c.gid
      rw [dictGet_foldWrite, if_pos hc]

/-- C3 as amended: branch-mode grouping resets the registry, so its
result is the same whatever the instance held before; linear-mode
grouping merges into the held registry — every group and index entry
the fresh run produces is present unchanged in the merged result, and
every key the fresh run does not write retains the pre-existing
registry's value (so stale groups from an earlier invocation survive
in the returned registry). -/
theorem c3_registro (red : RedElectrica) (obj tol : ℚ)
    (reg0 : Registry) :
    dfs_por_ramas red obj tol reg0 = dfs_por_ramas red obj tol ⟨[], []⟩ ∧
    ∀ regS regF,
      dfs_agrupar_segmentos red obj tol reg0 = Except.ok regS →
      dfs_agrupar_segmentos red obj tol ⟨[], []⟩ = Except.ok regF →
      (∀ k g, dictGet regF.grupos k = some g →
        dictGet regS.grupos k = some g) ∧
      (∀ k, dictGet regF.grupos k = none →
        dictGet regS.grupos k = dictGet reg0.grupos k) ∧
      (∀ sid v, dictGet regF.segmentos_por_grupo sid = some v →
        dictGet regS.segmentos_por_grupo sid = some v) ∧
      (∀ sid, dictGet regF.segmentos_por_grupo sid = none →
        dictGet regS.segmentos_por_grupo sid =
          dictGet reg0.segmentos_por_grupo sid) := by
  match hroot : encontrar_subestacion_principal red with
  | Except.error e =>
    constructor
    · unfold dfs_por_ramas
      rw [hroot]
    · intro regS regF hS hF
      unfold dfs_agrupar_segmentos at hS
      rw [hroot] at hS
      cases hS
  | Except.ok root =>
    constructor
    · rw [dfs_por_ramas_como_cierres red obj tol reg0 root hroot,
        dfs_por_ramas_como_cierres red obj tol ⟨[], []⟩ root hroot]
    · intro regS regF hS hF
      rw [dfs_agrupar_como_cierres red obj tol reg0 root hroot] at hS
      rw [dfs_agrupar_como_cierres red obj tol ⟨[], []⟩ root hroot] at hF
      injection hS with hS
      injection hF with hF
      subst hS
      subst hF
      refine ⟨?_, ?_, ?_, ?_⟩
      · intro k g hkF
        by_cases hk : k ∈ (cierresTotales obj tol
            (travEntries red root)).map Cierre.gid
        · rw [applyCierres_get_congr _ _ ⟨[], []⟩ k hk]
          exact hkF
        · rw [applyCierres_get_fuera _ _ _ hk] at hkF
          cases hkF
      · intro k hkF
        by_cases hk : k ∈ (cierresTotales obj tol
            (travEntries red root)).map Cierre.gid
        · obtain ⟨g, hg⟩ := applyCierres_get_en _ (⟨[], []⟩ : Registry)
            k hk
          rw [hg] at hkF
          cases hkF
        · exact applyCierres_get_fuera _ _ _ hk
      · intro sid v hsF
        by_cases hsid : sid ∈ sidsEscritos (cierresTotales obj tol
            (travEntries red root))
        · rw [applyCierres_idx_congr _ _ ⟨[], []⟩ sid hsid]
          exact hsF
        · rw [applyCierres_idx_fuera _ _ _ hsid] at hsF
          cases hsF
      · intro sid hsF
        by_cases hsid : sid ∈ sidsEscritos (cierresTotales obj tol
            (travEntries red root))
        · obtain ⟨v, hv⟩ := applyCierres_idx_en _ (⟨[], []⟩ : Registry)
            sid hsid
          rw [hv] at hsF
          cases hsF
        · exact applyCierres_idx_fuera _ _ _ hsid

/-! ## C2: the amended tolerance-band property -/

/-- Upper-bound side of the amended band property for one close: the
total does not exceed the upper bound unless the group is a singleton
whose lone segment itself does. -/
def topeCierre (sup : ℚ) (c : Cierre) : Prop :=
  c.total ≤ sup ∨ ∃ s, c.segmentos = [s] ∧ sup < s.longitud_m

/-- Lower-bound side for one adjacent pair of closes: the earlier group
reaches the lower bound, or it was closed because appending the next
group's first segment would have exceeded the upper bound. -/
def parejaCierre (sup inf : ℚ) (c1 c2 : Cierre) : Prop :=
  inf ≤ c1.total ∨
    ∃ s t, c2.segmentos = s :: t ∧ sup < c1.total + s.longitud_m

/-- `cierresTotales` generalized to an arbitrary in-run state. -/
def cierresCon (obj tol : ℚ) (entries actual : List SegEntry)
    (acc : ℚ) (gid : Nat) : List Cierre :=
  (cierresLin obj tol entries actual acc gid).1 ++
    (if (cierresLin obj tol entries actual acc gid).2.1 = [] then []
     else [⟨(cierresLin obj tol entries actual acc gid).2.2.2,
       (cierresLin obj tol entries actual acc gid).2.1,
       (cierresLin obj tol entries actual acc gid).2.2.1, none⟩])

theorem cierresTotales_eq_con (obj tol : ℚ) (entries : List SegEntry) :
    cierresTotales obj tol entries = cierresCon obj tol entries [] 0 1 :=
  rfl

/-- The linear close sequence satisfies the amended band property: each
close obeys the upper-bound side, adjacent closes obey the pair side,
and (for the induction) when the open group is non-empty the first
close extends it. -/
theorem cierresCon_cadena (obj tol : ℚ)
    (hsup0 : 0 ≤ obj * (1 + tol)) :
    ∀ (entries actual : List SegEntry) (acc : ℚ) (gid : Nat),
      acc = sumLen actual →
      (acc ≤ obj * (1 + tol) ∨
        ∃ s, actual = [s] ∧ obj * (1 + tol) < s.longitud_m) →
      List.Chain' (parejaCierre (obj * (1 + tol)) (obj * (1 - tol)))
        (cierresCon obj tol entries actual acc gid) ∧
      (∀ c ∈ cierresCon obj tol entries actual acc gid,
        topeCierre (obj * (1 + tol)) c) ∧
      (actual ≠ [] →
        ∃ c l', cierresCon obj tol entries actual acc gid = c :: l' ∧
          ∃ t, c.segmentos = actual ++ t) := by
  intro entries
  induction entries with
  | nil =>
    intro actual acc gid hacc hup
    unfold cierresCon cierresLin
    by_cases hact : actual = []
    · rw [if_pos hact]
      exact ⟨List.chain'_nil, by simp, fun hne => absurd hact hne⟩
    · rw [if_neg hact]
      refine ⟨List.chain'_singleton _, ?_, ?_⟩
      · intro c hcm
        rcases List.mem_singleton.mp hcm with rfl
        exact hup
      · intro _
        exact ⟨_, [], rfl, [], (List.append_nil actual).symm⟩
  | cons e rest ih =>
    intro actual acc gid hacc hup
    have hstep : ∀ (a' : List SegEntry) (q' : ℚ) (g' : Nat),
        cierresCon obj tol rest a' q' g' =
          (cierresLin obj tol rest a' q' g').1 ++
            (if (cierresLin obj tol rest a' q' g').2.1 = [] then []
             else [⟨(cierresLin obj tol rest a' q' g').2.2.2,
               (cierresLin obj tol rest a' q' g').2.1,
               (cierresLin obj tol rest a' q' g').2.2.1, none⟩]) :=
      fun _ _ _ => rfl
    unfold cierresCon
    by_cases h1 : acc + e.longitud_m ≤ obj * (1 + tol)
    · by_cases h2 : acc + e.longitud_m ≥ obj * (1 - tol)
      · -- append and close at the lower bound
        have hrw : cierresLin obj tol (e :: rest) actual acc gid =
            (⟨gid, actual ++ [e], acc + e.longitud_m, none⟩ ::
                (cierresLin obj tol rest [] 0 (gid + 1)).1,
              (cierresLin obj tol rest [] 0 (gid + 1)).2) := by
          rw [cierresLin]
          rw [if_pos h1, if_pos h2]
        rw [hrw]
        dsimp only
        rw [List.cons_append, ← hstep]
        obtain ⟨ihc, iht, -⟩ := ih [] 0 (gid + 1) (by simp [sumLen])
          (Or.inl hsup0)
        refine ⟨?_, ?_, ?_⟩
        · rw [List.chain'_cons']
          exact ⟨fun b _ => Or.inl h2, ihc⟩
        · intro c hcm
          rcases List.mem_cons.mp hcm with rfl | hcm
          · exact Or.inl h1
          · exact iht c hcm
        · intro _
          exact ⟨_, _, rfl, [e], rfl⟩
      · -- plain append
        have hrw : cierresLin obj tol (e :: rest) actual acc gid =
            cierresLin obj tol rest (actual ++ [e])
              (acc + e.longitud_m) gid := by
          rw [cierresLin]
          rw [if_pos h1, if_neg h2]
        rw [hrw, ← hstep]
        obtain ⟨ihc, iht, ihp⟩ := ih (actual ++ [e])
          (acc + e.longitud_m) gid
          (by simp [sumLen, hacc, List.map_append]) (Or.inl h1)
        refine ⟨ihc, iht, fun _ => ?_⟩
        obtain ⟨c, l', he, t, hct⟩ := ihp (by simp)
        exact ⟨c, l', he, [e] ++ t, by rw [hct, List.append_assoc]⟩
    · by_cases h3 : actual = []
      · -- overflow with an empty open group: start fresh with e
        have hrw : cierresLin obj tol (e :: rest) actual acc gid =
            cierresLin obj tol rest [e] e.longitud_m gid := by
          rw [cierresLin]
          rw [if_neg h1, if_pos h3]
        rw [hrw, ← hstep]
        obtain ⟨ihc, iht, -⟩ := ih [e] e.longitud_m gid (by simp [sumLen])
          (by rcases le_or_lt e.longitud_m (obj * (1 + tol)) with h | h
              · exact Or.inl h
              · exact Or.inr ⟨e, rfl, h⟩)
        exact ⟨ihc, iht, fun hne => absurd h3 hne⟩
      · -- overflow with a non-empty open group: force-close it
        have hrw : cierresLin obj tol (e :: rest) actual acc gid =
            (⟨gid, actual, acc, none⟩ ::
                (cierresLin obj tol rest [e] e.longitud_m (gid + 1)).1,
              (cierresLin obj tol rest [e] e.longitud_m (gid + 1)).2)
            := by
          rw [cierresLin]
          rw [if_neg h1, if_neg h3]
        rw [hrw]
        dsimp only
        rw [List.cons_append, ← hstep]
        obtain ⟨ihc, iht, ihp⟩ := ih [e] e.longitud_m (gid + 1)
          (by simp [sumLen])
          (by rcases le_or_lt e.longitud_m (obj * (1 + tol)) with h | h
              · exact Or.inl h
              · exact Or.inr ⟨e, rfl, h⟩)
        obtain ⟨c2, l2, he2, t2, hct2⟩ := ihp (by simp)
        refine ⟨?_, ?_, ?_⟩
        · rw [List.chain'_cons']
          refine ⟨?_, ihc⟩
          intro b hb
          rw [he2, List.head?_cons, Option.mem_some_iff] at hb
          subst hb
          exact Or.inr ⟨e, t2, by simpa using hct2, not_le.mp h1⟩
        · intro c hcm
          rcases List.mem_cons.mp hcm with rfl | hcm
          · exact hup
          · exact iht c hcm
        · intro _
          exact ⟨_, _, rfl, [], (List.append_nil actual).symm⟩

/-- Upper-bound side for one branch bin. -/
def topeRama (sup : ℚ) (g : GrupoRama) : Prop :=
  g.longitud_total ≤ sup ∨ ∃ s, g.segmentos = [s] ∧ sup < s.longitud_m

/-- Lower-bound side for one adjacent pair of branch bins. -/
def parejaRama (sup inf : ℚ) (g1 g2 : GrupoRama) : Prop :=
  inf ≤ g1.longitud_total ∨
    ∃ s t, g2.segmentos = s :: t ∧ sup < g1.longitud_total + s.longitud_m

/-- The bins of one branch satisfy the amended band property.  The
open-group invariant: a non-empty open bin is still below the lower
bound (branch mode closes a bin the moment it reaches it). -/
theorem agruparRamaLoop_cadena (sup inf : ℚ) (hsi : inf ≤ sup) :
    ∀ (l actual : List SegEntry) (acc : ℚ),
      acc = sumLen actual →
      (actual ≠ [] → acc < inf) →
      List.Chain' (parejaRama sup inf)
        (agruparRamaLoop sup inf actual acc l) ∧
      (∀ g ∈ agruparRamaLoop sup inf actual acc l, topeRama sup g) ∧
      (actual ≠ [] →
        ∃ g l', agruparRamaLoop sup inf actual acc l = g :: l' ∧
          ∃ t, g.segmentos = actual ++ t) := by
  intro l
  induction l with
  | nil =>
    intro actual acc hacc hinv
    rw [show agruparRamaLoop sup inf actual acc [] =
      (if actual = [] then [] else [⟨actual, acc⟩]) from rfl]
    by_cases hact : actual = []
    · rw [if_pos hact]
      exact ⟨List.chain'_nil, by simp, fun hne => absurd hact hne⟩
    · rw [if_neg hact]
      refine ⟨List.chain'_singleton _, ?_, ?_⟩
      · intro g hgm
        rcases List.mem_singleton.mp hgm with rfl
        exact Or.inl (le_trans (le_of_lt (hinv hact)) hsi)
      · intro _
        exact ⟨_, [], rfl, [], (List.append_nil actual).symm⟩
  | cons s rest ih =>
    intro actual acc hacc hinv
    by_cases h1 : acc + s.longitud_m > sup ∧ actual ≠ []
    · have htopeAct : topeRama sup ⟨actual, acc⟩ :=
        Or.inl (le_trans (le_of_lt (hinv h1.2)) hsi)
      by_cases h2 : s.longitud_m ≥ inf
      · have hrw : agruparRamaLoop sup inf actual acc (s :: rest) =
            ⟨actual, acc⟩ :: ⟨[s], s.longitud_m⟩ ::
              agruparRamaLoop sup inf [] 0 rest := by
          rw [agruparRamaLoop]
          rw [if_pos h1, if_pos h2]
        rw [hrw]
        obtain ⟨ihc, iht, -⟩ := ih [] 0 (by simp [sumLen]) (by simp)
        refine ⟨?_, ?_, ?_⟩
        · rw [List.chain'_cons']
          refine ⟨?_, ?_⟩
          · intro b hb
            rw [List.head?_cons, Option.mem_some_iff] at hb
            subst hb
            exact Or.inr ⟨s, [], rfl, h1.1⟩
          · rw [List.chain'_cons']
            exact ⟨fun b _ => Or.inl h2, ihc⟩
        · intro g hgm
          rcases List.mem_cons.mp hgm with rfl | hgm
          · exact htopeAct
          rcases List.mem_cons.mp hgm with rfl | hgm
          · rcases le_or_lt s.longitud_m sup with h | h
            · exact Or.inl h
            · exact Or.inr ⟨s, rfl, h⟩
          · exact iht g hgm
        · intro _
          exact ⟨_, _, rfl, [], (List.append_nil actual).symm⟩
      · have hrw : agruparRamaLoop sup inf actual acc (s :: rest) =
            ⟨actual, acc⟩ ::
              agruparRamaLoop sup inf [s] s.longitud_m rest := by
          rw [agruparRamaLoop]
          rw [if_pos h1, if_neg h2]
        rw [hrw]
        obtain ⟨ihc, iht, ihp⟩ := ih [s] s.longitud_m (by simp [sumLen])
          (fun _ => not_le.mp h2)
        obtain ⟨g2, l2, he2, t2, hct2⟩ := ihp (by simp)
        refine ⟨?_, ?_, ?_⟩
        · rw [List.chain'_cons']
          refine ⟨?_, ihc⟩
          intro b hb
          rw [he2, List.head?_cons, Option.mem_some_iff] at hb
          subst hb
          exact Or.inr ⟨s, t2, by simpa using hct2, h1.1⟩
        · intro g hgm
          rcases List.mem_cons.mp hgm with rfl | hgm
          · exact htopeAct
          · exact iht g hgm
        · intro _
          exact ⟨_, _, rfl, [], (List.append_nil actual).symm⟩
    · by_cases h3 : acc + s.longitud_m ≥ inf
      · have hrw : agruparRamaLoop sup inf actual acc (s :: rest) =
            ⟨actual ++ [s], acc + s.longitud_m⟩ ::
              agruparRamaLoop sup inf [] 0 rest := by
          rw [agruparRamaLoop]
          rw [if_neg h1, if_pos h3]
        rw [hrw]
        obtain ⟨ihc, iht, -⟩ := ih [] 0 (by simp [sumLen]) (by simp)
        refine ⟨?_, ?_, ?_⟩
        · rw [List.chain'_cons']
          exact ⟨fun b _ => Or.inl h3, ihc⟩
        · intro g hgm
          rcases List.mem_cons.mp hgm with rfl | hgm
          · by_cases hne : actual = []
            · subst hne
              simp only [sumLen, List.map_nil, List.sum_nil] at hacc
              subst hacc
              rcases le_or_lt s.longitud_m sup with h | h
              · exact Or.inl (by simpa using h)
              · exact Or.inr ⟨s, by simp, h⟩
            · refine Or.inl ?_
              by_contra hc
              exact h1 ⟨lt_of_not_le hc, hne⟩
          · exact iht g hgm
        · intro _
          exact ⟨_, _, rfl, [s], rfl⟩
      · have hrw : agruparRamaLoop sup inf actual acc (s :: rest) =
            agruparRamaLoop sup inf (actual ++ [s])
              (acc + s.longitud_m) rest := by
          rw [agruparRamaLoop]
          rw [if_neg h1, if_neg h3]
        rw [hrw]
        obtain ⟨ihc, iht, ihp⟩ := ih (actual ++ [s])
          (acc + s.longitud_m)
          (by simp [sumLen, hacc, List.map_append])
          (fun _ => not_le.mp h3)
        refine ⟨ihc, iht, fun _ => ?_⟩
        obtain ⟨g, l', he, t, hct⟩ := ihp (by simp)
        exact ⟨g, l', he, [s] ++ t, by rw [hct, List.append_assoc]⟩

/-- Every close of one branch block carries that branch's provenance. -/
theorem envolver_rama (info : RamaInfo) :
    ∀ (gl : List GrupoRama) (g0 : Nat),
      ∀ c ∈ envolver info gl g0, c.rama = some info := by
  intro gl
  induction gl with
  | nil => intro g0 c hc; simp [envolver] at hc
  | cons g rest ih =>
    intro g0 c hc
    rcases List.mem_cons.mp hc with rfl | hc
    · rfl
    · exact ih (g0 + 1) c hc

/-- Wrapping a branch's bins preserves the pair chain. -/
theorem envolver_cadena (sup inf : ℚ) (info : RamaInfo) :
    ∀ (gl : List GrupoRama) (g0 : Nat),
      List.Chain' (parejaRama sup inf) gl →
      List.Chain' (parejaCierre sup inf) (envolver info gl g0) := by
  intro gl
  induction gl with
  | nil => intro g0 _; exact List.chain'_nil
  | cons g rest ih =>
    intro g0 h
    cases rest with
    | nil => exact List.chain'_singleton _
    | cons g2 r2 =>
      rw [List.chain'_cons] at h
      show List.Chain' (parejaCierre sup inf)
        (⟨g0, g.segmentos, g.longitud_total, some info⟩ ::
          ⟨g0 + 1, g2.segmentos, g2.longitud_total, some info⟩ ::
          envolver info r2 (g0 + 1 + 1))
      rw [List.chain'_cons]
      exact ⟨h.1, ih (g0 + 1) h.2⟩

/-- Wrapping a branch's bins preserves the upper-bound side. -/
theorem envolver_tope (sup : ℚ) (info : RamaInfo) :
    ∀ (gl : List GrupoRama) (g0 : Nat),
      (∀ g ∈ gl, topeRama sup g) →
      ∀ c ∈ envolver info gl g0, topeCierre sup c := by
  intro gl
  induction gl with
  | nil => intro g0 _ c hc; simp [envolver] at hc
  | cons g rest ih =>
    intro g0 h c hc
    rcases List.mem_cons.mp hc with rfl | hc
    · exact h g (List.mem_cons_self _ _)
    · exact ih (g0 + 1) (fun g' hg' => h g' (List.mem_cons_of_mem _ hg'))
        c hc

/-- The pair side restricted to adjacent closes of the same branch. -/
def parejaMismaRama (sup inf : ℚ) (c1 c2 : Cierre) : Prop :=
  c1.rama = c2.rama → parejaCierre sup inf c1 c2

/-- The branch-mode close list satisfies the amended band property:
every close obeys the upper-bound side, and adjacent closes of the same
branch obey the pair side (the last close of each branch — the trailing
bin — is exempt, since its successor belongs to the next branch). -/
theorem cierresRamas_cadena (obj tol : ℚ)
    (hsi : obj * (1 - tol) ≤ obj * (1 + tol)) :
    ∀ (ramas : List Rama) (rid g0 : Nat),
      List.Chain' (parejaMismaRama (obj * (1 + tol)) (obj * (1 - tol)))
        (cierresRamas obj tol ramas rid g0) ∧
      (∀ c ∈ cierresRamas obj tol ramas rid g0,
        topeCierre (obj * (1 + tol)) c) ∧
      (∀ c ∈ cierresRamas obj tol ramas rid g0,
        ∃ info, c.rama = some info ∧ rid + 1 ≤ info.rama_id) := by
  intro ramas
  induction ramas with
  | nil => intro rid g0; exact ⟨List.chain'_nil, by simp [cierresRamas],
      by simp [cierresRamas]⟩
  | cons rama rest ih =>
    intro rid g0
    obtain ⟨ihc, iht, ihr⟩ := ih (rid + 1)
      (g0 + (agrupar_segmentos_rama rama.segmentos obj tol).length)
    obtain ⟨hlc, hlt, -⟩ := agruparRamaLoop_cadena (obj * (1 + tol))
      (obj * (1 - tol)) hsi rama.segmentos [] 0 (by simp [sumLen])
      (by simp)
    have hbins : List.Chain' (parejaRama (obj * (1 + tol))
        (obj * (1 - tol))) (agrupar_segmentos_rama rama.segmentos obj tol)
        := hlc
    have hbint : ∀ g ∈ agrupar_segmentos_rama rama.segmentos obj tol,
        topeRama (obj * (1 + tol)) g := hlt
    rw [show cierresRamas obj tol (rama :: rest) rid g0 =
      envolver ⟨rid + 1, rama.nodo_inicio, rama.nodo_fin⟩
          (agrupar_segmentos_rama rama.segmentos obj tol) g0 ++
        cierresRamas obj tol rest (rid + 1)
          (g0 + (agrupar_segmentos_rama rama.segmentos obj tol).length)
      from rfl]
    refine ⟨?_, ?_, ?_⟩
    · rw [List.chain'_append]
      refine ⟨?_, ihc, ?_⟩
      · refine (envolver_cadena (obj * (1 + tol)) (obj * (1 - tol))
          ⟨rid + 1, rama.nodo_inicio, rama.nodo_fin⟩ _ g0 hbins).imp ?_
        intro a b h _
        exact h
      · intro x hx y hy
        intro hxy
        have hxr := envolver_rama _ _ _ x (List.mem_of_mem_getLast? hx)
        obtain ⟨info', hyr, hid⟩ := ihr y (List.mem_of_mem_head? hy)
        rw [hxr, hyr] at hxy
        injection hxy with hxy
        rw [← hxy] at hid
        simp at hid
    · intro c hc
      rcases List.mem_append.mp hc with hc | hc
      · exact envolver_tope _ _ _ _ hbint c hc
      · exact iht c hc
    · intro c hc
      rcases List.mem_append.mp hc with hc | hc
      · exact ⟨⟨rid + 1, rama.nodo_inicio, rama.nodo_fin⟩,
          envolver_rama _ _ _ c hc, le_refl _⟩
      · obtain ⟨info', h1, h2⟩ := ihr c hc
        exact ⟨info', h1, by omega⟩

/-- Upper-bound side of the amended band property for a stored group:
within the upper bound, or a singleton whose lone segment exceeds it. -/
def topeGrupo (sup : ℚ) (g : Grupo) : Prop :=
  g.longitud_total_m ≤ sup ∨ ∃ s, g.segmentos = [s] ∧ sup < s.longitud_m

/-- Pair side of the amended band property for adjacent stored groups:
the earlier one reaches the lower bound, or appending the later one's
first segment would have exceeded the upper bound. -/
def parejaGrupo (sup inf : ℚ) (g1 g2 : Grupo) : Prop :=
  inf ≤ g1.longitud_total_m ∨
    ∃ s t, g2.segmentos = s :: t ∧
      sup < g1.longitud_total_m + s.longitud_m

/-- C2 as amended, both modes, fresh runs, nonnegative target and
tolerance.  Every stored group obeys the upper-bound side (at most
`target*(1+tol)` unless a singleton whose lone segment exceeds it); and
every group except the final one — in branch mode, except the final
group of each branch — either reaches the lower bound
`target*(1-tol)` or was force-closed because its successor's first
segment would have overflowed the upper bound. -/
theorem c2_banda (red : RedElectrica) (obj tol : ℚ)
    (hobj : 0 ≤ obj) (htol : 0 ≤ tol) :
    (∀ reg, dfs_agrupar_segmentos red obj tol ⟨[], []⟩ = Except.ok reg →
      (∀ p ∈ reg.grupos, topeGrupo (obj * (1 + tol)) p.2) ∧
      List.Chain' (parejaGrupo (obj * (1 + tol)) (obj * (1 - tol)))
        (reg.grupos.map Prod.snd)) ∧
    (∀ reg, dfs_por_ramas red obj tol ⟨[], []⟩ = Except.ok reg →
      (∀ p ∈ reg.grupos, topeGrupo (obj * (1 + tol)) p.2) ∧
      List.Chain' (fun g1 g2 => g1.rama = g2.rama →
          parejaGrupo (obj * (1 + tol)) (obj * (1 - tol)) g1 g2)
        (reg.grupos.map Prod.snd)) := by
  have hsup0 : 0 ≤ obj * (1 + tol) := mul_nonneg hobj (by linarith)
  have hsi : obj * (1 - tol) ≤ obj * (1 + tol) := by nlinarith
  match hroot : encontrar_subestacion_principal red with
  | Except.error e =>
    constructor
    · intro reg hreg
      unfold dfs_agrupar_segmentos at hreg
      rw [hroot] at hreg
      cases hreg
    · intro reg hreg
      unfold dfs_por_ramas at hreg
      rw [hroot] at hreg
      cases hreg
  | Except.ok root =>
    constructor
    · intro reg hreg
      rw [dfs_agrupar_como_cierres red obj tol ⟨[], []⟩ root hroot]
        at hreg
      injection hreg with hreg
      subst hreg
      obtain ⟨hg, -, -⟩ := cierresTotales_spec obj tol
        (travEntries red root)
      obtain ⟨hcad, htop, -⟩ := cierresCon_cadena obj tol hsup0
        (travEntries red root) [] 0 1 (by simp [sumLen])
        (Or.inl hsup0)
      rw [← cierresTotales_eq_con] at hcad htop
      rw [applyCierres_grupos _ ⟨[], []⟩ 1 hg (by simp)]
      constructor
      · intro p hp
        simp only [List.nil_append] at hp
        obtain ⟨c, hcm, hce⟩ := List.mem_map.mp hp
        rw [← hce]
        exact htop c hcm
      · simp only [List.nil_append, List.map_map]
        rw [List.chain'_map]
        refine hcad.imp ?_
        intro a b h
        exact h
    · intro reg hreg
      rw [dfs_por_ramas_como_cierres red obj tol ⟨[], []⟩ root hroot]
        at hreg
      injection hreg with hreg
      subst hreg
      obtain ⟨hcad, htop, -⟩ := cierresRamas_cadena obj tol hsi
        (identificar_ramas red root) 0 1
      rw [applyCierres_grupos _ ⟨[], []⟩ 1
        (cierresRamas_gids obj tol _ 0 1) (by simp)]
      constructor
      · intro p hp
        simp only [List.nil_append] at hp
        obtain ⟨c, hcm, hce⟩ := List.mem_map.mp hp
        rw [← hce]
        exact htop c hcm
      · simp only [List.nil_append, List.map_map]
        rw [List.chain'_map]
        refine hcad.imp ?_
        intro a b h
        exact h

/-- The registry of the fresh linear run on `redCorta` (computed). -/
def regCortaLineal : Registry :=
  ⟨[(1, ⟨[⟨1, 700, 1, 2⟩], 700, 1, 7/10, none⟩),
    (2, ⟨[⟨2, 600, 2, 3⟩], 600, 1, 3/5, none⟩)],
   [(1, 1), (2, 2)]⟩

/-- The fresh linear run on `redCorta` computes `regCortaLineal`. -/
theorem regCortaLineal_run :
    dfs_agrupar_segmentos redCorta 1000 (1/5) ⟨[], []⟩ =
      Except.ok regCortaLineal := by
  norm_num [redCorta, cargar_datos, addEdge, addEndpoint, addNode, nodeIds,
    dfs_agrupar_segmentos, encontrar_subestacion_principal, buscarSubestacion,
    dfsLoop, linFuel, nodesUniv, procesarSegmento, cerrarGrupoReg, dictSet,
    pushFrames, neighbors, incidentes, dedupFirst, getEdgeData, sortPair,
    Frame.nodo, regCortaLineal]

/-- Witness for `c2_banda` on the 700/600 chain: the force-closed group
1 satisfies the amended upper-bound side. -/
theorem c2_banda_witness :
    topeGrupo (1000 * (1 + (1/5 : ℚ)))
      (⟨[⟨1, 700, 1, 2⟩], 700, 1, 7/10, none⟩ : Grupo) := by
  have h := (c2_banda redCorta 1000 (1/5) (by norm_num) (by norm_num)).1
    regCortaLineal regCortaLineal_run
  exact h.1 (1, ⟨[⟨1, 700, 1, 2⟩], 700, 1, 7/10, none⟩)
    (List.mem_cons_self _ _)

/-! ## Graph-primitive lemmas for the traversal proofs -/

theorem sortPair_eq_iff (a b c d : Nat) :
    sortPair a b = sortPair c d ↔ (a = c ∧ b = d) ∨ (a = d ∧ b = c) := by
  unfold sortPair
  rw [Prod.mk.injEq]
  omega

theorem sortPair_comm (a b : Nat) : sortPair a b = sortPair b a := by
  unfold sortPair
  rw [Prod.mk.injEq]
  omega

theorem dedupFirst_subset :
    ∀ (seen l : List Nat) (x : Nat), x ∈ dedupFirst seen l → x ∈ l := by
  intro seen l
  induction l generalizing seen with
  | nil => intro x hx; simp [dedupFirst] at hx
  | cons a rest ih =>
    intro x hx
    unfold dedupFirst at hx
    split at hx
    · exact List.mem_cons_of_mem _ (ih _ x hx)
    · rcases List.mem_cons.mp hx with rfl | hx
      · exact List.mem_cons_self _ _
      · exact List.mem_cons_of_mem _ (ih _ x hx)

theorem mem_dedupFirst :
    ∀ (seen l : List Nat) (x : Nat),
      x ∈ l → x ∉ seen → x ∈ dedupFirst seen l := by
  intro seen l
  induction l generalizing seen with
  | nil => intro x hx _; cases hx
  | cons a rest ih =>
    intro x hx hseen
    unfold dedupFirst
    split
    case isTrue hmem =>
      rcases List.mem_cons.mp hx with rfl | hx
      · exact absurd hmem hseen
      · exact ih _ x hx hseen
    case isFalse hmem =>
      rcases List.mem_cons.mp hx with rfl | hx
      · exact List.mem_cons_self _ _
      · by_cases hax : x = a
        · subst hax; exact List.mem_cons_self _ _
        · exact List.mem_cons_of_mem _
            (ih _ x hx (by simp [hseen, hax]))

/-- A neighbor is the far endpoint of some incident edge. -/
theorem neighbors_mem_edge (red : RedElectrica) (n u : Nat)
    (h : u ∈ neighbors red n) :
    ∃ e ∈ red.edges,
      sortPair n u = sortPair e.nodo_inicio e.nodo_fin := by
  have h2 : u ∈ incidentes red.edges n := dedupFirst_subset _ _ _ h
  unfold incidentes at h2
  obtain ⟨e, he, hu⟩ := List.mem_filterMap.mp h2
  refine ⟨e, he, ?_⟩
  by_cases h1 : e.nodo_inicio = n
  · rw [if_pos h1] at hu
    cases hu
    rw [h1]
  · rw [if_neg h1] at hu
    by_cases hf : e.nodo_fin = n
    · rw [if_pos hf] at hu
      cases hu
      rw [hf, sortPair_comm]
    · rw [if_neg hf] at hu
      cases hu

/-- The far endpoint of an incident edge is a neighbor. -/
theorem edge_mem_neighbors (red : RedElectrica) (n u : Nat) (hnu : n ≠ u)
    (e : Segmento) (he : e ∈ red.edges)
    (hp : sortPair n u = sortPair e.nodo_inicio e.nodo_fin) :
    u ∈ neighbors red n := by
  have hinc : u ∈ incidentes red.edges n := by
    unfold incidentes
    refine List.mem_filterMap.mpr ⟨e, he, ?_⟩
    rcases (sortPair_eq_iff _ _ _ _).mp hp with ⟨h1, h2⟩ | ⟨h1, h2⟩
    · rw [if_pos h1.symm, h2]
    · have hne : e.nodo_inicio ≠ n := by
        rw [← h2]; exact fun hc => hnu hc.symm
      rw [if_neg hne, if_pos h1.symm, h2]
  exact mem_dedupFirst [] _ u hinc (by simp)

/-- A `get_edge_data` hit is a stored edge for that pair. -/
theorem getEdgeData_mem (edges : List Segmento) (u v : Nat)
    (e : Segmento) (h : getEdgeData edges u v = some e) :
    e ∈ edges ∧ sortPair e.nodo_inicio e.nodo_fin = sortPair u v := by
  unfold getEdgeData at h
  have hmem := List.mem_of_mem_getLast? h
  have hfil := List.of_mem_filter hmem
  exact ⟨List.mem_of_mem_filter hmem, by simpa using hfil⟩

/-- `get_edge_data` hits whenever an edge with the pair exists. -/
theorem getEdgeData_isSome (edges : List Segmento) (u v : Nat)
    (e : Segmento) (he : e ∈ edges)
    (hp : sortPair e.nodo_inicio e.nodo_fin = sortPair u v) :
    ∃ e', getEdgeData edges u v = some e' := by
  unfold getEdgeData
  have hmem : e ∈ edges.filter (fun e' =>
      sortPair e'.nodo_inicio e'.nodo_fin = sortPair u v) :=
    List.mem_filter.mpr ⟨he, by simpa using hp⟩
  have hne : edges.filter (fun e' =>
      sortPair e'.nodo_inicio e'.nodo_fin = sortPair u v) ≠ [] :=
    List.ne_nil_of_mem hmem
  exact ⟨_, List.getLast?_eq_getLast_of_ne_nil hne⟩

/-- Membership in the pushed frames. -/
theorem mem_pushFrames (red : RedElectrica) (vis : List Nat) (n : Nat)
    (f : Frame) (h : f ∈ pushFrames red vis n) :
    ∃ w e, w ∈ neighbors red n ∧ w ∉ vis ∧
      e ∈ red.edges ∧
      sortPair e.nodo_inicio e.nodo_fin = sortPair n w ∧
      f = Frame.viaSeg w n e.id_segmento e.longitud_m := by
  unfold pushFrames at h
  obtain ⟨w, hw, hf⟩ := List.mem_filterMap.mp h
  obtain ⟨hwn, hwv⟩ := List.mem_filter.mp hw
  match hd : getEdgeData red.edges n w with
  | none => rw [hd] at hf; cases hf
  | some e =>
    rw [hd] at hf
    cases hf
    obtain ⟨he, hp⟩ := getEdgeData_mem red.edges n w e hd
    exact ⟨w, e, hwn, by simpa using hwv, he, hp, rfl⟩

/-- Every unvisited neighbor gets a frame pushed. -/
theorem pushFrames_completo (red : RedElectrica) (vis : List Nat)
    (n u : Nat) (hu : u ∈ neighbors red n) (hv : u ∉ vis) :
    ∃ f ∈ pushFrames red vis n, f.nodo = u := by
  obtain ⟨e, he, hp⟩ := neighbors_mem_edge red n u hu
  obtain ⟨e', hd⟩ := getEdgeData_isSome red.edges n u e he hp.symm
  refine ⟨Frame.viaSeg u n e'.id_segmento e'.longitud_m, ?_, rfl⟩
  unfold pushFrames
  refine List.mem_filterMap.mpr ⟨u, List.mem_filter.mpr ⟨hu, ?_⟩, ?_⟩
  · simpa using hv
  · rw [hd]
    rfl

/-- Pushed frames are no more numerous than the edges. -/
theorem pushFrames_length (red : RedElectrica) (vis : List Nat)
    (n : Nat) : (pushFrames red vis n).length ≤ red.edges.length := by
  have h1 : (pushFrames red vis n).length ≤
      ((neighbors red n).filter (fun w => w ∉ vis)).length :=
    List.length_filterMap_le _ _
  have h2 : ((neighbors red n).filter (fun w => w ∉ vis)).length ≤
      (neighbors red n).length := List.length_filter_le _ _
  have h3 : (neighbors red n).length ≤ (incidentes red.edges n).length
      := by
    unfold neighbors
    generalize (incidentes red.edges n) = l
    generalize hseen : ([] : List Nat) = seen
    clear hseen
    induction l generalizing seen with
    | nil => simp [dedupFirst]
    | cons a rest ih =>
      unfold dedupFirst
      split
      · exact Nat.le_trans (ih _) (by simp)
      · simpa using ih (a :: seen)
  have h4 : (incidentes red.edges n).length ≤ red.edges.length :=
    List.length_filterMap_le _ _
  omega

/-- Endpoints of a stored edge appear in the endpoint list. -/
theorem mem_endpoints (edges : List Segmento) (e : Segmento)
    (he : e ∈ edges) :
    e.nodo_inicio ∈ edges.foldr
      (fun e acc => e.nodo_inicio :: e.nodo_fin :: acc) [] ∧
    e.nodo_fin ∈ edges.foldr
      (fun e acc => e.nodo_inicio :: e.nodo_fin :: acc) [] := by
  induction edges with
  | nil => cases he
  | cons a rest ih =>
    rcases List.mem_cons.mp he with rfl | he'
    · exact ⟨List.mem_cons_self _ _,
        List.mem_cons_of_mem _ (List.mem_cons_self _ _)⟩
    · exact ⟨List.mem_cons_of_mem _
          (List.mem_cons_of_mem _ (ih he').1),
        List.mem_cons_of_mem _
          (List.mem_cons_of_mem _ (ih he').2)⟩

/-- A node with no incident edge has no neighbors. -/
theorem neighbors_fuera (red : RedElectrica) (n : Nat)
    (h : n ∉ nodesUniv red) : neighbors red n = [] := by
  have hinc : incidentes red.edges n = [] := by
    unfold incidentes
    rw [List.filterMap_eq_nil_iff]
    intro e he
    have h1 : e.nodo_inicio ≠ n := by
      intro hc
      refine h ?_
      unfold nodesUniv
      refine List.mem_append_right _ ?_
      rw [← hc]
      exact (mem_endpoints red.edges e he).1
    have h2 : e.nodo_fin ≠ n := by
      intro hc
      refine h ?_
      unfold nodesUniv
      refine List.mem_append_right _ ?_
      rw [← hc]
      exact (mem_endpoints red.edges e he).2
    rw [if_neg h1, if_neg h2]
  unfold neighbors
  rw [hinc]
  rfl

/-- Declared node ids sit inside `nodesUniv`. -/
theorem nodeIds_subset_univ (red : RedElectrica) (n : Nat)
    (h : n ∈ nodeIds red) : n ∈ nodesUniv red := by
  unfold nodesUniv
  exact List.mem_append_left _ h

/-! ## Rooted trees: the hypothesis of the partition claims -/

/-- A rooted spanning-tree presentation of the graph: `par` names each
non-root node's parent, `dep` its depth, and the edge list realizes
exactly the parent links, one edge per non-root node, with distinct
unordered endpoint pairs and distinct segment ids.  A finite graph
admits such data for a chosen root exactly when it is connected and
acyclic. -/
structure EsArbol (red : RedElectrica) (root : Nat)
    (par dep : Nat → Nat) : Prop where
  root_mem : root ∈ nodeIds red
  par_mem : ∀ v ∈ nodeIds red, v ≠ root → par v ∈ nodeIds red
  dep_par : ∀ v ∈ nodeIds red, v ≠ root → dep v = dep (par v) + 1
  edge_hijo : ∀ e ∈ red.edges, ∃ v, v ∈ nodeIds red ∧ v ≠ root ∧
    sortPair e.nodo_inicio e.nodo_fin = sortPair v (par v)
  hijo_edge : ∀ v ∈ nodeIds red, v ≠ root →
    ∃ e ∈ red.edges,
      sortPair e.nodo_inicio e.nodo_fin = sortPair v (par v)
  pares_nodup : (red.edges.map
    (fun e => sortPair e.nodo_inicio e.nodo_fin)).Nodup
  sids_nodup : (red.edges.map Segmento.id_segmento).Nodup

/-- A child never coincides with its parent (its depth is one larger). -/
theorem EsArbol.par_ne {red : RedElectrica} {root : Nat}
    {par dep : Nat → Nat} (T : EsArbol red root par dep)
    (v : Nat) (hv : v ∈ nodeIds red) (hr : v ≠ root) : par v ≠ v := by
  intro hc
  have hd := T.dep_par v hv hr
  rw [hc] at hd
  omega

/-- Two stored edges with the same unordered pair are equal. -/
theorem EsArbol.par_inj {red : RedElectrica} {root : Nat}
    {par dep : Nat → Nat} (T : EsArbol red root par dep)
    (e e' : Segmento) (he : e ∈ red.edges) (he' : e' ∈ red.edges)
    (hp : sortPair e.nodo_inicio e.nodo_fin =
      sortPair e'.nodo_inicio e'.nodo_fin) : e = e' :=
  List.inj_on_of_nodup_map T.pares_nodup he he' hp

/-- Two stored edges with the same segment id are equal. -/
theorem EsArbol.sid_inj {red : RedElectrica} {root : Nat}
    {par dep : Nat → Nat} (T : EsArbol red root par dep)
    (e e' : Segmento) (he : e ∈ red.edges) (he' : e' ∈ red.edges)
    (hp : e.id_segmento = e'.id_segmento) : e = e' :=
  List.inj_on_of_nodup_map T.sids_nodup he he' hp

/-- Distinct non-root nodes have distinct parent pairs. -/
theorem EsArbol.pareja_inj {red : RedElectrica} {root : Nat}
    {par dep : Nat → Nat} (T : EsArbol red root par dep)
    (v w : Nat) (hv : v ∈ nodeIds red) (hw : w ∈ nodeIds red)
    (hvr : v ≠ root) (hwr : w ≠ root)
    (hp : sortPair v (par v) = sortPair w (par w)) : v = w := by
  rcases (sortPair_eq_iff _ _ _ _).mp hp with ⟨h1, _⟩ | ⟨h1, h2⟩
  · exact h1
  · exfalso
    have hdv := T.dep_par v hv hvr
    have hdw := T.dep_par w hw hwr
    rw [← h1, ← h2] at hdw
    omega

/-- In a tree, every non-root node is a neighbor of its parent. -/
theorem EsArbol.hijo_vecino {red : RedElectrica} {root : Nat}
    {par dep : Nat → Nat} (T : EsArbol red root par dep)
    (v : Nat) (hv : v ∈ nodeIds red) (hr : v ≠ root) :
    v ∈ neighbors red (par v) := by
  obtain ⟨e, he, hpair⟩ := T.hijo_edge v hv hr
  refine edge_mem_neighbors red (par v) v (T.par_ne v hv hr) e he ?_
  rw [sortPair_comm]
  exact hpair.symm

/-- Any visited set containing the root and closed under adjacency
contains every node of a tree. -/
theorem arbol_alcanzable (red : RedElectrica) (root : Nat)
    (par dep : Nat → Nat) (T : EsArbol red root par dep)
    (vis : List Nat) (hroot : root ∈ vis)
    (hcl : ∀ x ∈ vis, ∀ u ∈ neighbors red x, u ∈ vis) :
    ∀ x ∈ nodeIds red, x ∈ vis := by
  have key : ∀ n, ∀ x ∈ nodeIds red, dep x ≤ n → x ∈ vis := by
    intro n
    induction n with
    | zero =>
      intro x hx hd
      by_cases hxr : x = root
      · subst hxr; exact hroot
      · have := T.dep_par x hx hxr
        omega
    | succ n ih =>
      intro x hx hd
      by_cases hxr : x = root
      · subst hxr; exact hroot
      · have hpx := T.par_mem x hx hxr
        have hdx := T.dep_par x hx hxr
        have hp_vis : par x ∈ vis := ih (par x) hpx (by omega)
        exact hcl (par x) hp_vis x (T.hijo_vecino x hx hxr)
  intro x hx
  exact key (dep x) x hx (Nat.le_refl _)

/-! ## The DFS terminates with fuel `linFuel`: measure and invariants -/

/-- The termination measure of the DFS loop: unvisited universe nodes,
weighted enough to absorb the pushed frames, plus the stack size. -/
def medidaTrav (red : RedElectrica) (pila : List Frame)
    (vis : List Nat) : Nat :=
  (nodesUniv red).countP (fun x => decide (x ∉ vis)) *
    (red.edges.length + 1) + pila.length

/-- Visiting a new node splits the unvisited count. -/
theorem countP_visita (univ vis : List Nat) (n : Nat) (hv : n ∉ vis) :
    univ.countP (fun x => decide (x ∉ vis)) =
      univ.countP (fun x => decide (x ∉ n :: vis)) + univ.count n := by
  induction univ with
  | nil => rfl
  | cons a rest ih =>
    rw [List.countP_cons, List.countP_cons, List.count_cons, ih]
    by_cases ha : a = n
    · subst ha
      simp [hv]
      omega
    · by_cases hav : a ∈ vis
      · simp [ha, hav]
      · simp [ha, hav]
        omega

/-- Loop invariant of the DFS traversal (after the seed frame has been
consumed): every frame records an edge from a visited node, the visited
set is a parent-closed set of tree nodes containing the root, and every
neighbor of a visited node is visited or pending on the stack. -/
structure InvTrav (red : RedElectrica) (root : Nat) (par : Nat → Nat)
    (pila : List Frame) (vis : List Nat) : Prop where
  frames : ∀ f ∈ pila, ∃ v p sid len,
    f = Frame.viaSeg v p sid len ∧ p ∈ vis ∧
    ∃ e ∈ red.edges,
      sortPair p v = sortPair e.nodo_inicio e.nodo_fin ∧
      sid = e.id_segmento ∧ len = e.longitud_m
  visSub : ∀ x ∈ vis, x ∈ nodeIds red
  visRoot : root ∈ vis
  visPar : ∀ x ∈ vis, x ≠ root → par x ∈ vis
  visNodup : vis.Nodup
  cobertura : ∀ x ∈ vis, ∀ u ∈ neighbors red x,
    u ∈ vis ∨ ∃ f ∈ pila, f.nodo = u

/-- What the rest of the traversal produces from a state satisfying
`InvTrav`: each consumed entry is a tree edge oriented away from the
root toward a newly visited node, newly visited nodes are exactly the
entry endpoints, and the final visited set is adjacency-closed. -/
structure ResTrav (red : RedElectrica) (root : Nat) (par : Nat → Nat)
    (es : List SegEntry) (vis vis' : List Nat) : Prop where
  visMono : ∀ x ∈ vis, x ∈ vis'
  visSub : ∀ x ∈ vis', x ∈ nodeIds red
  visNodup : vis'.Nodup
  entradas : ∀ s ∈ es, s.nodo_fin ∈ nodeIds red ∧ s.nodo_fin ≠ root ∧
    s.nodo_inicio = par s.nodo_fin ∧
    ∃ e ∈ red.edges,
      sortPair s.nodo_inicio s.nodo_fin =
        sortPair e.nodo_inicio e.nodo_fin ∧
      s.segmento_id = e.id_segmento ∧ s.longitud_m = e.longitud_m
  finsNodup : (es.map SegEntry.nodo_fin).Nodup
  finsNuevos : ∀ s ∈ es, s.nodo_fin ∉ vis
  visNuevos : ∀ x, x ∈ vis' ↔ x ∈ vis ∨ x ∈ es.map SegEntry.nodo_fin
  cerrado : ∀ x ∈ vis', ∀ u ∈ neighbors red x, u ∈ vis'

/-- An empty stack ends the traversal: nothing is consumed and the
visited set, now adjacency-closed, is final. -/
theorem resTrav_base (red : RedElectrica) (root : Nat) (par : Nat → Nat)
    (vis : List Nat) (inv : InvTrav red root par [] vis) :
    ResTrav red root par [] vis vis := by
  refine ⟨fun x hx => hx, inv.visSub, inv.visNodup, ?_, ?_, ?_, ?_, ?_⟩
  · intro s hs; cases hs
  · simp
  · intro s hs; cases hs
  · intro x; simp
  · intro x hx u hu
    rcases inv.cobertura x hx u hu with h | ⟨f, hf, _⟩
    · exact h
    · cases hf

/-- The master traversal lemma: with enough fuel, from any state
satisfying the loop invariant the traversal consumes tree edges exactly
once per newly visited node and ends adjacency-closed. -/
theorem travLoop_arbol (red : RedElectrica) (root : Nat)
    (par dep : Nat → Nat) (T : EsArbol red root par dep) :
    ∀ (fuel : Nat) (pila : List Frame) (vis : List Nat),
      medidaTrav red pila vis ≤ fuel →
      InvTrav red root par pila vis →
      ResTrav red root par (travLoop red fuel pila vis).1 vis
        (travLoop red fuel pila vis).2 := by
  intro fuel
  induction fuel with
  | zero =>
    intro pila vis hfu inv
    match pila with
    | [] => exact resTrav_base red root par vis inv
    | f :: rest =>
      exfalso
      unfold medidaTrav at hfu
      simp only [List.length_cons] at hfu
      omega
  | succ fuel ih =>
    intro pila vis hfu inv
    match pila with
    | [] => exact resTrav_base red root par vis inv
    | f :: rest =>
      obtain ⟨v, p, sid, len, hf, hp, e, he, hpair, hsid, hlen⟩ :=
        inv.frames f (List.mem_cons_self _ _)
      subst hf
      by_cases hv : v ∈ vis
      · -- skip a visited node: pop the frame
        simp only [travLoop, Frame.nodo, if_pos hv]
        refine ih rest vis ?_ ?_
        · unfold medidaTrav at hfu ⊢
          simp only [List.length_cons] at hfu
          omega
        · refine ⟨?_, inv.visSub, inv.visRoot, inv.visPar,
            inv.visNodup, ?_⟩
          · intro f' hf'
            exact inv.frames f' (List.mem_cons_of_mem _ hf')
          · intro x hx u hu
            rcases inv.cobertura x hx u hu with h | ⟨f', hf', hn⟩
            · exact Or.inl h
            · rcases List.mem_cons.mp hf' with rfl | hf'
              · rw [Frame.nodo] at hn
                exact Or.inl (hn ▸ hv)
              · exact Or.inr ⟨f', hf', hn⟩
      · -- visit a new node, consuming its incoming tree edge
        obtain ⟨w, hw, hwr, hwpair⟩ := T.edge_hijo e he
        have hvw : v = w ∧ p = par w := by
          have h2 : sortPair p v = sortPair w (par w) := by
            rw [hpair, hwpair]
          rcases (sortPair_eq_iff _ _ _ _).mp h2 with ⟨h3, h4⟩ | ⟨h3, h4⟩
          · exfalso
            rw [← h3] at hwr
            have hpv := inv.visPar p hp hwr
            rw [← h3] at h4
            rw [← h4] at hpv
            exact hv hpv
          · exact ⟨h4, h3⟩
        obtain ⟨rfl, hppar⟩ := hvw
        have hvuniv : v ∈ nodesUniv red := by
          refine List.mem_append_right _ ?_
          rcases (sortPair_eq_iff _ _ _ _).mp hpair with ⟨_, h4⟩ | ⟨_, h4⟩
          · rw [h4]
            exact (mem_endpoints red.edges e he).2
          · rw [h4]
            exact (mem_endpoints red.edges e he).1
        have hinv1 : InvTrav red root par
            (pushFrames red (v :: vis) v ++ rest) (v :: vis) := by
          refine ⟨?_, ?_, ?_, ?_, ?_, ?_⟩
          · intro f' hf'
            rcases List.mem_append.mp hf' with hpf | hrf
            · obtain ⟨w', e', hw'n, hw'v, he', hp', rfl⟩ :=
                mem_pushFrames red (v :: vis) v f' hpf
              exact ⟨w', v, e'.id_segmento, e'.longitud_m, rfl,
                List.mem_cons_self _ _, e', he', hp'.symm, rfl, rfl⟩
            · obtain ⟨v', p', sid', len', hfe, hp'v, e', he', hp', h1,
                h2⟩ := inv.frames f' (List.mem_cons_of_mem _ hrf)
              exact ⟨v', p', sid', len', hfe,
                List.mem_cons_of_mem _ hp'v, e', he', hp', h1, h2⟩
          · intro x hx
            rcases List.mem_cons.mp hx with rfl | hx
            · exact hw
            · exact inv.visSub x hx
          · exact List.mem_cons_of_mem _ inv.visRoot
          · intro x hx hxr
            rcases List.mem_cons.mp hx with rfl | hx
            · rw [← hppar]
              exact List.mem_cons_of_mem _ hp
            · exact List.mem_cons_of_mem _ (inv.visPar x hx hxr)
          · exact List.nodup_cons.mpr ⟨hv, inv.visNodup⟩
          · intro x hx u hu
            rcases List.mem_cons.mp hx with rfl | hx
            · by_cases hu2 : u ∈ x :: vis
              · exact Or.inl hu2
              · obtain ⟨f', hfp, hn⟩ :=
                  pushFrames_completo red (x :: vis) x u hu hu2
                exact Or.inr ⟨f', List.mem_append_left _ hfp, hn⟩
            · rcases inv.cobertura x hx u hu with h | ⟨f', hf', hn⟩
              · exact Or.inl (List.mem_cons_of_mem _ h)
              · rcases List.mem_cons.mp hf' with rfl | hf'
                · rw [Frame.nodo] at hn
                  rw [← hn]
                  exact Or.inl (List.mem_cons_self _ _)
                · exact Or.inr ⟨f', List.mem_append_right _ hf', hn⟩
        have hfu1 : medidaTrav red
            (pushFrames red (v :: vis) v ++ rest) (v :: vis) ≤ fuel := by
          unfold medidaTrav at hfu ⊢
          have hcnt := countP_visita (nodesUniv red) vis v hv
          have hpos : 1 ≤ (nodesUniv red).count v :=
            List.count_pos_iff_mem.mpr hvuniv
          have hmul : (nodesUniv red).countP
                (fun x => decide (x ∉ vis)) * (red.edges.length + 1) =
              (nodesUniv red).countP (fun x => decide (x ∉ v :: vis)) *
                (red.edges.length + 1) +
              (nodesUniv red).count v * (red.edges.length + 1) := by
            rw [hcnt]
            ring
          have hmul2 : red.edges.length + 1 ≤
              (nodesUniv red).count v * (red.edges.length + 1) :=
            Nat.le_mul_of_pos_left _ hpos
          have hlen2 : (pushFrames red (v :: vis) v ++ rest).length =
              (pushFrames red (v :: vis) v).length + rest.length :=
            List.length_append _ _
          have hpush := pushFrames_length red (v :: vis) v
          simp only [List.length_cons] at hfu
          omega
        have r := ih _ _ hfu1 hinv1
        simp only [travLoop, Frame.nodo, if_neg hv]
        refine ⟨?_, r.visSub, r.visNodup, ?_, ?_, ?_, ?_, r.cerrado⟩
        · intro x hx
          exact r.visMono x (List.mem_cons_of_mem _ hx)
        · intro s hs
          rcases List.mem_cons.mp hs with rfl | hs
          · exact ⟨hw, hwr, hppar, e, he, hpair, hsid, hlen⟩
          · exact r.entradas s hs
        · rw [List.map_cons]
          refine List.nodup_cons.mpr ⟨?_, r.finsNodup⟩
          intro hmem
          obtain ⟨s, hs, hfin⟩ := List.mem_map.mp hmem
          exact r.finsNuevos s hs (hfin ▸ List.mem_cons_self _ _)
        · intro s hs
          rcases List.mem_cons.mp hs with rfl | hs
          · exact hv
          · exact fun hc =>
              r.finsNuevos s hs (List.mem_cons_of_mem _ hc)
        · intro x
          rw [r.visNuevos x]
          simp only [List.map_cons, List.mem_cons]
          tauto

/-- The full linear traversal of a tree: every consumed entry is a tree
edge oriented away from the root, their endpoints are distinct, and
every non-root node is some entry's endpoint. -/
theorem travEntries_arbol (red : RedElectrica) (root : Nat)
    (par dep : Nat → Nat) (T : EsArbol red root par dep) :
    (∀ s ∈ travEntries red root, s.nodo_fin ∈ nodeIds red ∧
      s.nodo_fin ≠ root ∧ s.nodo_inicio = par s.nodo_fin ∧
      ∃ e ∈ red.edges,
        sortPair s.nodo_inicio s.nodo_fin =
          sortPair e.nodo_inicio e.nodo_fin ∧
        s.segmento_id = e.id_segmento ∧ s.longitud_m = e.longitud_m) ∧
    ((travEntries red root).map SegEntry.nodo_fin).Nodup ∧
    (∀ v ∈ nodeIds red, v ≠ root →
      v ∈ (travEntries red root).map SegEntry.nodo_fin) := by
  have hstep : travLoop red (linFuel red) [Frame.start root] [] =
      travLoop red
        (((nodesUniv red).length + 1) * (red.edges.length + 1))
        (pushFrames red [root] root) [root] := by
    rw [show linFuel red =
      ((nodesUniv red).length + 1) * (red.edges.length + 1) + 1
      from rfl]
    simp only [travLoop, Frame.nodo]
    rw [if_neg (List.not_mem_nil root), List.append_nil]
  have hinv : InvTrav red root par (pushFrames red [root] root)
      [root] := by
    refine ⟨?_, ?_, ?_, ?_, ?_, ?_⟩
    · intro f hf
      obtain ⟨w', e', hw'n, hw'v, he', hp', rfl⟩ :=
        mem_pushFrames red [root] root f hf
      exact ⟨w', root, e'.id_segmento, e'.longitud_m, rfl,
        List.mem_cons_self _ _, e', he', hp'.symm, rfl, rfl⟩
    · intro x hx
      rcases List.mem_cons.mp hx with rfl | hx
      · exact T.root_mem
      · cases hx
    · exact List.mem_cons_self _ _
    · intro x hx hxr
      rcases List.mem_cons.mp hx with rfl | hx
      · exact absurd rfl hxr
      · cases hx
    · simp
    · intro x hx u hu
      rcases List.mem_cons.mp hx with rfl | hx
      · by_cases hu2 : u ∈ [x]
        · exact Or.inl hu2
        · obtain ⟨f, hfp, hn⟩ :=
            pushFrames_completo red [x] x u hu hu2
          exact Or.inr ⟨f, hfp, hn⟩
      · cases hx
  have hfu : medidaTrav red (pushFrames red [root] root) [root] ≤
      ((nodesUniv red).length + 1) * (red.edges.length + 1) := by
    unfold medidaTrav
    have h1 : (nodesUniv red).countP
        (fun x => decide (x ∉ [root])) ≤ (nodesUniv red).length :=
      List.countP_le_length _
    have h2 := pushFrames_length red [root] root
    have h3 : (nodesUniv red).countP (fun x => decide (x ∉ [root])) *
        (red.edges.length + 1) ≤
        (nodesUniv red).length * (red.edges.length + 1) :=
      Nat.mul_le_mul_right _ h1
    have h4 : ((nodesUniv red).length + 1) * (red.edges.length + 1) =
        (nodesUniv red).length * (red.edges.length + 1) +
        red.edges.length + 1 := by ring
    omega
  have r := travLoop_arbol red root par dep T
    (((nodesUniv red).length + 1) * (red.edges.length + 1))
    (pushFrames red [root] root) [root] hfu hinv
  rw [travEntries, hstep]
  refine ⟨r.entradas, r.finsNodup, ?_⟩
  intro v hv hvr
  have hroot' : root ∈ (travLoop red
      (((nodesUniv red).length + 1) * (red.edges.length + 1))
      (pushFrames red [root] root) [root]).2 :=
    r.visMono root (List.mem_cons_self _ _)
  have hall := arbol_alcanzable red root par dep T _ hroot' r.cerrado
  have hvv := hall v hv
  rcases (r.visNuevos v).mp hvv with h | h
  · rcases List.mem_cons.mp h with rfl | h
    · exact absurd rfl hvr
    · cases h
  · exact h

/-- Transferring `Nodup` along a map that is coarser on the list. -/
theorem nodup_map_trans {α β γ : Type} (l : List α) (f : α → β)
    (g : α → γ) (hg : (l.map g).Nodup)
    (h : ∀ a ∈ l, ∀ b ∈ l, f a = f b → g a = g b) :
    (l.map f).Nodup := by
  induction l with
  | nil => simp
  | cons a rest ih =>
    simp only [List.map_cons, List.nodup_cons] at hg ⊢
    refine ⟨?_, ih hg.2 (fun x hx y hy =>
      h x (List.mem_cons_of_mem _ hx) y (List.mem_cons_of_mem _ hy))⟩
    intro hmem
    obtain ⟨b, hb, hfb⟩ := List.mem_map.mp hmem
    exact hg.1 (List.mem_map.mpr ⟨b, hb,
      h b (List.mem_cons_of_mem _ hb) a (List.mem_cons_self _ _) hfb⟩)

/-- Entries with the same segment id end at the same node. -/
theorem travEntries_sid_fin (red : RedElectrica) (root : Nat)
    (par dep : Nat → Nat) (T : EsArbol red root par dep) :
    ∀ s1 ∈ travEntries red root, ∀ s2 ∈ travEntries red root,
      s1.segmento_id = s2.segmento_id → s1.nodo_fin = s2.nodo_fin := by
  obtain ⟨hent, _, _⟩ := travEntries_arbol red root par dep T
  intro s1 hs1 s2 hs2 hsid
  obtain ⟨hn1, hr1, hp1, e1, he1, hq1, hid1, _⟩ := hent s1 hs1
  obtain ⟨hn2, hr2, hp2, e2, he2, hq2, hid2, _⟩ := hent s2 hs2
  have he12 : e1 = e2 :=
    T.sid_inj e1 e2 he1 he2 (by rw [← hid1, ← hid2, hsid])
  have hq : sortPair s1.nodo_fin (par s1.nodo_fin) =
      sortPair s2.nodo_fin (par s2.nodo_fin) := by
    rw [← sortPair_comm, ← hp1, hq1, he12, ← hq2, hp2, sortPair_comm]
  exact T.pareja_inj s1.nodo_fin s2.nodo_fin hn1 hn2 hr1 hr2 hq

/-- The id/length pairs consumed by the traversal of a tree are a
permutation of the id/length pairs of the edge list. -/
theorem travEntries_perm (red : RedElectrica) (root : Nat)
    (par dep : Nat → Nat) (T : EsArbol red root par dep) :
    ((travEntries red root).map
        (fun s => (s.segmento_id, s.longitud_m))).Perm
      (red.edges.map (fun e => (e.id_segmento, e.longitud_m))) := by
  obtain ⟨hent, hnodup, hcompl⟩ := travEntries_arbol red root par dep T
  have hsids : ((travEntries red root).map
      SegEntry.segmento_id).Nodup := by
    refine nodup_map_trans _ _ SegEntry.nodo_fin hnodup ?_
    exact travEntries_sid_fin red root par dep T
  have hnodup1 : ((travEntries red root).map
      (fun s => (s.segmento_id, s.longitud_m))).Nodup := by
    refine nodup_map_trans _ _ SegEntry.segmento_id hsids ?_
    intro a _ b _ hab
    exact congrArg Prod.fst hab
  have hnodup2 : (red.edges.map
      (fun e => (e.id_segmento, e.longitud_m))).Nodup := by
    refine nodup_map_trans _ _ Segmento.id_segmento T.sids_nodup ?_
    intro a _ b _ hab
    exact congrArg Prod.fst hab
  have hsub1 : ((travEntries red root).map
      (fun s => (s.segmento_id, s.longitud_m))) ⊆
      red.edges.map (fun e => (e.id_segmento, e.longitud_m)) := by
    intro x hx
    obtain ⟨s, hs, rfl⟩ := List.mem_map.mp hx
    obtain ⟨_, _, _, e, he, _, hid, hlen⟩ := hent s hs
    exact List.mem_map.mpr ⟨e, he, by rw [hid, hlen]⟩
  have hsub2 : red.edges.map
      (fun e => (e.id_segmento, e.longitud_m)) ⊆
      (travEntries red root).map
        (fun s => (s.segmento_id, s.longitud_m)) := by
    intro x hx
    obtain ⟨e, he, rfl⟩ := List.mem_map.mp hx
    obtain ⟨w, hw, hwr, hwpair⟩ := T.edge_hijo e he
    have hwf := hcompl w hw hwr
    obtain ⟨s, hs, hsw⟩ := List.mem_map.mp hwf
    obtain ⟨hn1, hr1, hp1, e1, he1, hq1, hid1, hlen1⟩ := hent s hs
    have he1e : e1 = e := by
      refine T.par_inj e1 e he1 he ?_
      rw [← hq1, hp1, hsw, sortPair_comm, ← hwpair]
    refine List.mem_map.mpr ⟨s, hs, ?_⟩
    rw [hid1, hlen1, he1e]
  exact (List.subperm_of_subset hnodup1 hsub1).antisymm
    (List.subperm_of_subset hnodup2 hsub2)

/-! ## Counting a segment across the stored groups -/

/-- If the members of a group list concatenate to a sequence holding a
segment exactly once, then exactly one group holds it. -/
theorem countP_flatten_uno {α : Type} (P : α → Bool) :
    ∀ (gl : List (List α)), gl.flatten.countP P = 1 →
      gl.countP (fun g => g.any P) = 1 := by
  intro gl
  induction gl with
  | nil => intro h; simpa using h
  | cons g rest ih =>
    intro h
    rw [List.flatten_cons, List.countP_append] at h
    rw [List.countP_cons]
    by_cases hg : g.countP P = 0
    · have hany : g.any P = false := by
        rw [Bool.eq_false_iff]
        intro hc
        obtain ⟨a, ha, hpa⟩ := List.any_eq_true.mp hc
        exact absurd hpa (List.countP_eq_zero.mp hg a ha)
      rw [hany]
      have hrest := ih (by omega)
      simpa using hrest
    · have hg1 : 0 < g.countP P := Nat.pos_of_ne_zero hg
      have hany : g.any P = true := by
        obtain ⟨a, ha, hpa⟩ := List.countP_pos_iff.mp hg1
        exact List.any_eq_true.mpr ⟨a, ha, hpa⟩
      have hrest0 : rest.countP (fun g' => g'.any P) = 0 := by
        rw [List.countP_eq_zero]
        intro g' hg' hc
        obtain ⟨a, ha, hpa⟩ := List.any_eq_true.mp hc
        have hmem : a ∈ rest.flatten := List.mem_flatten.mpr ⟨g', hg', ha⟩
        have : 0 < rest.flatten.countP P :=
          List.countP_pos_iff.mpr ⟨a, hmem, hpa⟩
        omega
      rw [hany, hrest0]
      simp

/-- Counting a segment id through the projection to id lists. -/
theorem countP_sid (l : List SegEntry) (a : Nat) :
    l.countP (fun s => s.segmento_id = a) =
      (l.map SegEntry.segmento_id).count a := by
  rw [List.count, List.countP_map]
  refine List.countP_congr ?_
  intro s _
  constructor
  · intro h
    have h2 : s.segmento_id = a := of_decide_eq_true h
    simp [Function.comp, h2]
  · intro h
    have h2 : s.segmento_id = a := by simpa [Function.comp] using h
    simp [h2]

/-- Well-formed totals sum to the length of the concatenation. -/
theorem sum_totales (L : List Cierre)
    (h : ∀ c ∈ L, c.total = sumLen c.segmentos) :
    (L.map Cierre.total).sum =
      sumLen (L.map Cierre.segmentos).flatten := by
  induction L with
  | nil => simp [sumLen]
  | cons c rest ih =>
    rw [List.map_cons, List.map_cons, List.flatten_cons, List.sum_cons]
    rw [h c (List.mem_cons_self _ _),
      ih (fun c' hc' => h c' (List.mem_cons_of_mem _ hc'))]
    unfold sumLen
    rw [List.map_append, List.sum_append]

/-- C1: on a connected acyclic graph — presented as a rooted spanning
tree at the root the code selects — with positive segment lengths, a
fresh linear-mode run (`dfs_agrupar_segmentos`) places every segment in
exactly one stored group, and the stored totals sum to the total length
of all segments. -/
theorem c1_particion_lineal (red : RedElectrica) (root : Nat)
    (par dep : Nat → Nat) (T : EsArbol red root par dep)
    (hroot : encontrar_subestacion_principal red = Except.ok root)
    (hpos : ∀ e ∈ red.edges, 0 < e.longitud_m)
    (obj tol : ℚ) (reg : Registry)
    (hreg : dfs_agrupar_segmentos red obj tol ⟨[], []⟩ =
      Except.ok reg) :
    (∀ e ∈ red.edges, reg.grupos.countP
      (fun p => p.2.segmentos.any
        (fun s => s.segmento_id = e.id_segmento)) = 1) ∧
    (reg.grupos.map (fun p => p.2.longitud_total_m)).sum =
      (red.edges.map Segmento.longitud_m).sum := by
  rw [dfs_agrupar_como_cierres red obj tol ⟨[], []⟩ root hroot] at hreg
  injection hreg with hreg
  obtain ⟨hgids, hprops, hflat⟩ :=
    cierresTotales_spec obj tol (travEntries red root)
  have hgr : reg.grupos =
      (cierresTotales obj tol (travEntries red root)).map
        (fun c => (c.gid, c.grupo)) := by
    rw [← hreg]
    rw [applyCierres_grupos _ ⟨[], []⟩ 1 hgids (by simp)]
    simp
  have hperm := travEntries_perm red root par dep T
  have hperm_sid : ((travEntries red root).map
      SegEntry.segmento_id).Perm
      (red.edges.map Segmento.id_segmento) := by
    have h := hperm.map Prod.fst
    rw [List.map_map, List.map_map] at h
    exact h
  have hperm_len : ((travEntries red root).map
      SegEntry.longitud_m).Perm
      (red.edges.map Segmento.longitud_m) := by
    have h := hperm.map Prod.snd
    rw [List.map_map, List.map_map] at h
    exact h
  constructor
  · intro e he
    have hmem : e.id_segmento ∈ red.edges.map Segmento.id_segmento :=
      List.mem_map.mpr ⟨e, he, rfl⟩
    have hcnt : ((travEntries red root).map
        SegEntry.segmento_id).count e.id_segmento = 1 := by
      rw [hperm_sid.count_eq]
      exact List.count_eq_one_of_mem T.sids_nodup hmem
    have hcountP : (travEntries red root).countP
        (fun s => s.segmento_id = e.id_segmento) = 1 := by
      rw [countP_sid]
      exact hcnt
    have hflat' : ((cierresTotales obj tol (travEntries red root)).map
        Cierre.segmentos).flatten.countP
        (fun s => s.segmento_id = e.id_segmento) = 1 := by
      rw [hflat]
      exact hcountP
    have huno := countP_flatten_uno
      (fun (s : SegEntry) => s.segmento_id = e.id_segmento) _ hflat'
    rw [List.countP_map] at huno
    rw [hgr, List.countP_map]
    exact huno
  · rw [hgr, List.map_map]
    have hsum := sum_totales _ (fun c hc => (hprops c hc).2.1)
    refine Eq.trans (?_ : _ =
      ((cierresTotales obj tol (travEntries red root)).map
        Cierre.total).sum) ?_
    · rfl
    · rw [hsum, hflat]
      unfold sumLen
      exact hperm_len.sum_eq

/-! ## Branch identification on a tree -/

/-- The entry the BFS records when it crosses the parent edge of `w`
(the unique tree edge joining `w` to `par w`), read off through
`get_edge_data`. -/
def entradaArbol (red : RedElectrica) (par : Nat → Nat) (w : Nat) :
    SegEntry :=
  match getEdgeData red.edges (par w) w with
  | some e => ⟨e.id_segmento, e.longitud_m, par w, w⟩
  | none => ⟨0, 0, par w, w⟩

/-- The recorded entry always ends at the child. -/
theorem entradaArbol_fin (red : RedElectrica) (par : Nat → Nat)
    (w : Nat) : (entradaArbol red par w).nodo_fin = w := by
  unfold entradaArbol
  match getEdgeData red.edges (par w) w with
  | some e => rfl
  | none => rfl

/-- On a tree the recorded entry carries the id and length of the
child's unique parent edge. -/
theorem entradaArbol_spec (red : RedElectrica) (root : Nat)
    (par dep : Nat → Nat) (T : EsArbol red root par dep)
    (w : Nat) (hw : w ∈ nodeIds red) (hr : w ≠ root) :
    ∃ e ∈ red.edges,
      sortPair e.nodo_inicio e.nodo_fin = sortPair w (par w) ∧
      entradaArbol red par w =
        ⟨e.id_segmento, e.longitud_m, par w, w⟩ := by
  obtain ⟨e0, he0, hp0⟩ := T.hijo_edge w hw hr
  have hp0' : sortPair e0.nodo_inicio e0.nodo_fin =
      sortPair (par w) w := by
    rw [hp0, sortPair_comm]
  obtain ⟨e, hd⟩ := getEdgeData_isSome red.edges (par w) w e0 he0 hp0'
  obtain ⟨he, hpe⟩ := getEdgeData_mem red.edges (par w) w e hd
  refine ⟨e, he, by rw [hpe, sortPair_comm], ?_⟩
  unfold entradaArbol
  rw [hd]

/-- An unskipped neighbor of a queued node is one of its children. -/
theorem vecino_hijo (red : RedElectrica) (root : Nat)
    (par dep : Nat → Nat) (T : EsArbol red root par dep)
    (v w : Nat) (hv : v ∈ nodeIds red) (hw : w ∈ neighbors red v)
    (hx : v = root ∨ w ≠ par v) :
    w ∈ nodeIds red ∧ w ≠ root ∧ par w = v := by
  obtain ⟨e, he, hp⟩ := neighbors_mem_edge red v w hw
  obtain ⟨c, hc, hcr, hcp⟩ := T.edge_hijo e he
  have hq : sortPair v w = sortPair c (par c) := by rw [hp, hcp]
  rcases (sortPair_eq_iff _ _ _ _).mp hq with ⟨h1, h2⟩ | ⟨h1, h2⟩
  · exfalso
    rcases hx with rfl | hne
    · exact hcr h1.symm
    · rw [← h1] at h2
      exact hne h2
  · subst h2
    exact ⟨hc, hcr, h1.symm⟩

/-- Elements produced by `dedupFirst` avoid the seen set. -/
theorem dedupFirst_not_seen :
    ∀ (seen l : List Nat) (x : Nat), x ∈ dedupFirst seen l →
      x ∉ seen := by
  intro seen l
  induction l generalizing seen with
  | nil => intro x hx; cases hx
  | cons a rest ih =>
    intro x hx
    unfold dedupFirst at hx
    split at hx
    · exact ih _ x hx
    case isFalse hmem =>
      rcases List.mem_cons.mp hx with rfl | hx
      · exact hmem
      · intro hc
        exact ih _ x hx (List.mem_cons_of_mem _ hc)

/-- `dedupFirst` never repeats an element. -/
theorem dedupFirst_nodup :
    ∀ (seen l : List Nat), (dedupFirst seen l).Nodup := by
  intro seen l
  induction l generalizing seen with
  | nil => exact List.nodup_nil
  | cons a rest ih =>
    unfold dedupFirst
    split
    · exact ih _
    · refine List.nodup_cons.mpr ⟨?_, ih _⟩
      intro hc
      exact dedupFirst_not_seen _ _ a hc (List.mem_cons_self _ _)

/-- The adjacency list has no duplicates. -/
theorem neighbors_nodup (red : RedElectrica) (n : Nat) :
    (neighbors red n).Nodup := dedupFirst_nodup _ _

/-- A non-root node's parent is among its neighbors. -/
theorem par_vecino (red : RedElectrica) (root : Nat)
    (par dep : Nat → Nat) (T : EsArbol red root par dep)
    (v : Nat) (hv : v ∈ nodeIds red) (hr : v ≠ root) :
    par v ∈ neighbors red v := by
  obtain ⟨e, he, hp⟩ := T.hijo_edge v hv hr
  refine edge_mem_neighbors red v (par v) ?_ e he hp.symm
  exact fun hc => T.par_ne v hv hr hc.symm

/-- Claiming a fresh pair that names exactly one stored edge removes
one edge from the unclaimed count. -/
theorem claimCuenta (q : Nat × Nat) (visE : List (Nat × Nat))
    (hnew : q ∉ visE) :
    ∀ l : List Segmento,
      (l.map (fun e => sortPair e.nodo_inicio e.nodo_fin)).Nodup →
      (∃ e0 ∈ l, sortPair e0.nodo_inicio e0.nodo_fin = q) →
      l.countP (fun e => sortPair e.nodo_inicio e.nodo_fin ∉ visE) =
        l.countP (fun e =>
          sortPair e.nodo_inicio e.nodo_fin ∉ q :: visE) + 1 := by
  intro l
  induction l with
  | nil =>
    intro _ h
    obtain ⟨e0, he0, _⟩ := h
    cases he0
  | cons a rest ih =>
    intro hnd hex
    rw [List.map_cons, List.nodup_cons] at hnd
    rw [List.countP_cons, List.countP_cons]
    by_cases ha : sortPair a.nodo_inicio a.nodo_fin = q
    · have h1 : rest.countP
          (fun e => sortPair e.nodo_inicio e.nodo_fin ∉ visE) =
          rest.countP (fun e =>
            sortPair e.nodo_inicio e.nodo_fin ∉ q :: visE) := by
        refine List.countP_congr ?_
        intro e hem
        have hne : sortPair e.nodo_inicio e.nodo_fin ≠ q := by
          intro hc
          refine hnd.1 ?_
          rw [ha]
          exact List.mem_map.mpr ⟨e, hem, hc⟩
        simp [List.mem_cons, hne]
      rw [h1, ha]
      simp [hnew]
    · have hex' : ∃ e0 ∈ rest,
          sortPair e0.nodo_inicio e0.nodo_fin = q := by
        obtain ⟨e0, he0, hq0⟩ := hex
        rcases List.mem_cons.mp he0 with rfl | he0
        · exact absurd hq0 ha
        · exact ⟨e0, he0, hq0⟩
      rw [ih hnd.2 hex']
      have h2 : (sortPair a.nodo_inicio a.nodo_fin ∉ q :: visE) ↔
          (sortPair a.nodo_inicio a.nodo_fin ∉ visE) := by
        simp [List.mem_cons, ha]
      by_cases hav : sortPair a.nodo_inicio a.nodo_fin ∈ visE
      · simp [hav, h2.symm, ha]
      · simp only [hav, not_false_eq_true, decide_True,
          h2.mpr hav, if_pos]

/-- Claiming the parent pair of one fresh child. -/
theorem claimUno (red : RedElectrica) (root : Nat)
    (par dep : Nat → Nat) (T : EsArbol red root par dep)
    (visE : List (Nat × Nat)) (w : Nat) (hw : w ∈ nodeIds red)
    (hr : w ≠ root) (hnew : sortPair w (par w) ∉ visE) :
    red.edges.countP
        (fun e => sortPair e.nodo_inicio e.nodo_fin ∉ visE) =
      red.edges.countP (fun e =>
        sortPair e.nodo_inicio e.nodo_fin ∉
          sortPair w (par w) :: visE) + 1 := by
  refine claimCuenta _ visE hnew red.edges T.pares_nodup ?_
  exact T.hijo_edge w hw hr

/-- A non-empty duplicate-free list inside a singleton set is that
singleton. -/
theorem eq_singleton_of {α : Type} (l : List α) (u : α)
    (hne : u ∈ l) (hsub : ∀ x ∈ l, x = u) (hnd : l.Nodup) :
    l = [u] := by
  match l with
  | [] => cases hne
  | a :: t =>
    have ha : a = u := hsub a (List.mem_cons_self _ _)
    subst ha
    have ht : t = [] := by
      match t with
      | [] => rfl
      | b :: t' =>
        exfalso
        have hb : b = a := hsub b
          (List.mem_cons_of_mem _ (List.mem_cons_self _ _))
        rw [List.nodup_cons] at hnd
        exact hnd.1 (hb ▸ List.mem_cons_self _ _)
    rw [ht]

/-- Flattening singleton lists is mapping. -/
theorem flatten_singletons {α β : Type} (f : α → β) :
    ∀ (l : List α), (l.map (fun w => [f w])).flatten = l.map f := by
  intro l
  induction l with
  | nil => rfl
  | cons a rest ih =>
    rw [List.map_cons, List.flatten_cons, List.map_cons, ih]
    rfl

/-- What one neighbor sweep (`explorar`) does on a tree: it claims the
parent pairs of a duplicate-free list of previously unclaimed children
of `v` — including every unclaimed unskipped neighbor — and queues
exactly one entry per claimed child, extending `cam` by that child's
parent-edge record. -/
theorem explorar_spec (red : RedElectrica) (root : Nat)
    (par dep : Nat → Nat) (T : EsArbol red root par dep)
    (v : Nat) (previo : Option Nat) (cam : List SegEntry)
    (hv : v ∈ nodeIds red)
    (hprev : (v = root ∧ previo = none) ∨
      (v ≠ root ∧ previo = some (par v))) :
    ∀ (ws : List Nat) (visE : List (Nat × Nat)),
      (∀ w ∈ ws, w ∈ neighbors red v) →
      ∃ nuevos : List Nat,
        (explorar red v previo cam ws visE).1 =
          (nuevos.map (fun w => sortPair w (par w))).reverse ++ visE ∧
        (explorar red v previo cam ws visE).2 =
          nuevos.map (fun w =>
            ⟨w, some v, cam ++ [entradaArbol red par w]⟩) ∧
        (∀ w ∈ nuevos, w ∈ nodeIds red ∧ w ≠ root ∧ par w = v ∧
          sortPair w (par w) ∉ visE ∧ w ∈ ws ∧ some w ≠ previo) ∧
        nuevos.Nodup ∧
        (∀ w ∈ ws, some w ≠ previo → sortPair v w ∉ visE →
          w ∈ nuevos) := by
  have hhijo : ∀ w, w ∈ neighbors red v → some w ≠ previo →
      w ∈ nodeIds red ∧ w ≠ root ∧ par w = v := by
    intro w hw hp
    refine vecino_hijo red root par dep T v w hv hw ?_
    rcases hprev with ⟨hr, _⟩ | ⟨_, hpe⟩
    · exact Or.inl hr
    · refine Or.inr ?_
      intro hc
      apply hp
      rw [hc, hpe]
  intro ws
  induction ws with
  | nil =>
    intro visE _
    exact ⟨[], rfl, rfl, by simp, by simp, by simp⟩
  | cons w0 ws ih =>
    intro visE hws
    have hwstail : ∀ w ∈ ws, w ∈ neighbors red v :=
      fun w hw => hws w (List.mem_cons_of_mem _ hw)
    by_cases hp0 : some w0 = previo
    · have hstep : explorar red v previo cam (w0 :: ws) visE =
          explorar red v previo cam ws visE := by
        rw [show explorar red v previo cam (w0 :: ws) visE =
          (if some w0 = previo then explorar red v previo cam ws visE
           else if sortPair v w0 ∈ visE then
             explorar red v previo cam ws visE
           else (match getEdgeData red.edges v w0 with
             | none => explorar red v previo cam ws
                 (sortPair v w0 :: visE)
             | some e =>
               ((explorar red v previo cam ws
                   (sortPair v w0 :: visE)).1,
                ⟨w0, some v, cam ++
                    [⟨e.id_segmento, e.longitud_m, v, w0⟩]⟩ ::
                  (explorar red v previo cam ws
                    (sortPair v w0 :: visE)).2)))
          from rfl]
        rw [if_pos hp0]
      obtain ⟨nuevos, h1, h2, h3, h4, h5⟩ := ih visE hwstail
      rw [hstep]
      refine ⟨nuevos, h1, h2, ?_, h4, ?_⟩
      · intro w hw
        obtain ⟨a, b, c, d, e, f⟩ := h3 w hw
        exact ⟨a, b, c, d, List.mem_cons_of_mem _ e, f⟩
      · intro w hw hwp hwv
        rcases List.mem_cons.mp hw with rfl | hw
        · exact absurd hp0 hwp
        · exact h5 w hw hwp hwv
    · by_cases hc0 : sortPair v w0 ∈ visE
      · have hstep : explorar red v previo cam (w0 :: ws) visE =
            explorar red v previo cam ws visE := by
          rw [show explorar red v previo cam (w0 :: ws) visE =
            (if some w0 = previo then explorar red v previo cam ws visE
             else if sortPair v w0 ∈ visE then
               explorar red v previo cam ws visE
             else (match getEdgeData red.edges v w0 with
               | none => explorar red v previo cam ws
                   (sortPair v w0 :: visE)
               | some e =>
                 ((explorar red v previo cam ws
                     (sortPair v w0 :: visE)).1,
                  ⟨w0, some v, cam ++
                      [⟨e.id_segmento, e.longitud_m, v, w0⟩]⟩ ::
                    (explorar red v previo cam ws
                      (sortPair v w0 :: visE)).2)))
            from rfl]
          rw [if_neg hp0, if_pos hc0]
        obtain ⟨nuevos, h1, h2, h3, h4, h5⟩ := ih visE hwstail
        rw [hstep]
        refine ⟨nuevos, h1, h2, ?_, h4, ?_⟩
        · intro w hw
          obtain ⟨a, b, c, d, e, f⟩ := h3 w hw
          exact ⟨a, b, c, d, List.mem_cons_of_mem _ e, f⟩
        · intro w hw hwp hwv
          rcases List.mem_cons.mp hw with rfl | hw
          · exact absurd hc0 hwv
          · exact h5 w hw hwp hwv
      · have hw0n : w0 ∈ neighbors red v :=
          hws w0 (List.mem_cons_self _ _)
        obtain ⟨hw0id, hw0r, hw0par⟩ := hhijo w0 hw0n hp0
        obtain ⟨e1, he1, hpe1⟩ := neighbors_mem_edge red v w0 hw0n
        obtain ⟨e, hd⟩ :=
          getEdgeData_isSome red.edges v w0 e1 he1 hpe1.symm
        have hstep : explorar red v previo cam (w0 :: ws) visE =
            ((explorar red v previo cam ws (sortPair v w0 :: visE)).1,
             ⟨w0, some v, cam ++
                 [⟨e.id_segmento, e.longitud_m, v, w0⟩]⟩ ::
               (explorar red v previo cam ws
                 (sortPair v w0 :: visE)).2) := by
          rw [show explorar red v previo cam (w0 :: ws) visE =
            (if some w0 = previo then explorar red v previo cam ws visE
             else if sortPair v w0 ∈ visE then
               explorar red v previo cam ws visE
             else (match getEdgeData red.edges v w0 with
               | none => explorar red v previo cam ws
                   (sortPair v w0 :: visE)
               | some e =>
                 ((explorar red v previo cam ws
                     (sortPair v w0 :: visE)).1,
                  ⟨w0, some v, cam ++
                      [⟨e.id_segmento, e.longitud_m, v, w0⟩]⟩ ::
                    (explorar red v previo cam ws
                      (sortPair v w0 :: visE)).2)))
            from rfl]
          rw [if_neg hp0, if_neg hc0, hd]
        have hent : (⟨e.id_segmento, e.longitud_m, v, w0⟩ :
            SegEntry) = entradaArbol red par w0 := by
          unfold entradaArbol
          rw [hw0par, hd]
        have hq0 : sortPair w0 (par w0) = sortPair v w0 := by
          rw [hw0par, sortPair_comm]
        obtain ⟨nuevos, h1, h2, h3, h4, h5⟩ :=
          ih (sortPair v w0 :: visE) hwstail
        refine ⟨w0 :: nuevos, ?_, ?_, ?_, ?_, ?_⟩
        · rw [hstep]
          show (explorar red v previo cam ws
            (sortPair v w0 :: visE)).1 = _
          rw [h1, List.map_cons, List.reverse_cons, List.append_assoc]
          rw [hq0]
          rfl
        · rw [hstep]
          show _ :: (explorar red v previo cam ws
            (sortPair v w0 :: visE)).2 = _
          rw [h2, List.map_cons, hent]
        · intro w hw
          rcases List.mem_cons.mp hw with rfl | hw
          · refine ⟨hw0id, hw0r, hw0par, ?_,
              List.mem_cons_self _ _, hp0⟩
            rw [hq0]
            exact hc0
          · obtain ⟨a, b, c, d, e2, f⟩ := h3 w hw
            refine ⟨a, b, c, ?_, List.mem_cons_of_mem _ e2, f⟩
            intro hc
            exact d (List.mem_cons_of_mem _ hc)
        · refine List.nodup_cons.mpr ⟨?_, h4⟩
          intro hc
          obtain ⟨_, _, _, d, _, _⟩ := h3 w0 hc
          rw [hq0] at d
          exact d (List.mem_cons_self _ _)
        · intro w hw hwp hwv
          rcases List.mem_cons.mp hw with rfl | hw
          · exact List.mem_cons_self _ _
          · by_cases hww0 : w = w0
            · rw [hww0]
              exact List.mem_cons_self _ _
            · refine List.mem_cons_of_mem _ (h5 w hw hwp ?_)
              intro hc
              rcases List.mem_cons.mp hc with hc | hc
              · obtain ⟨hwid, hwr, hwpar⟩ :=
                  hhijo w (hwstail w hw) hwp
                refine hww0 (T.pareja_inj w w0 hwid hw0id hwr hw0r ?_)
                rw [hwpar, hw0par, sortPair_comm]
                rw [show sortPair w0 v = sortPair v w0 from
                  sortPair_comm _ _]
                rw [← hc]
              · exact hwv hc

/-! ## The BFS loop invariant and its preservation -/

/-- The iteration measure of the BFS: queue size plus twice the number
of stored edges whose pair is still unclaimed. -/
def medidaRamas (red : RedElectrica) (cola : List ColaEntry)
    (visE : List (Nat × Nat)) : Nat :=
  cola.length + 2 * red.edges.countP
    (fun e => sortPair e.nodo_inicio e.nodo_fin ∉ visE)

/-- Claiming a batch of fresh distinct children shrinks the unclaimed
edge count by the batch size. -/
theorem claimLote (red : RedElectrica) (root : Nat)
    (par dep : Nat → Nat) (T : EsArbol red root par dep) :
    ∀ (nuevos : List Nat) (visE : List (Nat × Nat)),
      (∀ w ∈ nuevos, w ∈ nodeIds red ∧ w ≠ root ∧
        sortPair w (par w) ∉ visE) →
      nuevos.Nodup →
      red.edges.countP (fun e =>
          sortPair e.nodo_inicio e.nodo_fin ∉
            (nuevos.map (fun w => sortPair w (par w))).reverse ++
              visE) + nuevos.length =
        red.edges.countP
          (fun e => sortPair e.nodo_inicio e.nodo_fin ∉ visE) := by
  intro nuevos
  induction nuevos with
  | nil =>
    intro visE _ _
    simp
  | cons w n' ih =>
    intro visE hprops hnd
    obtain ⟨hw, hwr, hwv⟩ := hprops w (List.mem_cons_self _ _)
    have h1 := claimUno red root par dep T visE w hw hwr hwv
    have hlist : ((w :: n').map
          (fun w => sortPair w (par w))).reverse ++ visE =
        (n'.map (fun w => sortPair w (par w))).reverse ++
          (sortPair w (par w) :: visE) := by
      rw [List.map_cons, List.reverse_cons, List.append_assoc]
      rfl
    have hprops' : ∀ u ∈ n', u ∈ nodeIds red ∧ u ≠ root ∧
        sortPair u (par u) ∉ sortPair w (par w) :: visE := by
      intro u hu
      obtain ⟨hu1, hu2, hu3⟩ := hprops u (List.mem_cons_of_mem _ hu)
      refine ⟨hu1, hu2, ?_⟩
      intro hc
      rcases List.mem_cons.mp hc with hc | hc
      · have huw : u = w :=
          T.pareja_inj u w hu1 hw hu2 hwr hc
        exact (List.nodup_cons.mp hnd).1 (huw ▸ hu)
      · exact hu3 hc
    have h2 := ih (sortPair w (par w) :: visE) hprops'
      (List.nodup_cons.mp hnd).2
    simp only [hlist, List.length_cons]
    omega

/-- Counting a child's record in a batch of child records. -/
theorem count_entrada (red : RedElectrica) (par : Nat → Nat)
    (nuevos : List Nat) (hnd : nuevos.Nodup) (w1 : Nat) :
    (nuevos.map (entradaArbol red par)).count
        (entradaArbol red par w1) =
      if w1 ∈ nuevos then 1 else 0 := by
  have hinj : ∀ a b, entradaArbol red par a = entradaArbol red par b →
      a = b := by
    intro a b hab
    have := congrArg SegEntry.nodo_fin hab
    rwa [entradaArbol_fin, entradaArbol_fin] at this
  split
  case isTrue hmem =>
    refine List.count_eq_one_of_mem ?_ (List.mem_map.mpr
      ⟨w1, hmem, rfl⟩)
    refine nodup_map_trans nuevos _ (fun w => w) (by simpa using hnd)
      ?_
    intro a _ b _ hab
    exact hinj a b hab
  case isFalse hmem =>
    refine List.count_eq_zero.mpr ?_
    intro hc
    obtain ⟨w, hwm, hwe⟩ := List.mem_map.mp hc
    exact hmem ((hinj w w1 hwe) ▸ hwm)

/-- The queued entries produced from a batch of children sit at those
children. -/
theorem map_nodo_entries (red : RedElectrica) (par : Nat → Nat)
    (v : Nat) (cam : List SegEntry) :
    ∀ (nuevos : List Nat),
      (nuevos.map (fun w => (⟨w, some v,
          cam ++ [entradaArbol red par w]⟩ : ColaEntry))).map
        ColaEntry.nodo_actual = nuevos := by
  intro nuevos
  induction nuevos with
  | nil => rfl
  | cons a l ih =>
    simp only [List.map_cons, ih]

/-- Loop invariant of the branch BFS: claimed pairs are parent pairs
of non-root nodes forming a parent-closed set; every queued entry
(beyond the root seed) sits at a claimed non-root node reached from
its parent; recorded path entries are child records; children of
queued nodes are unclaimed; unclaimed children of reached nodes have
their parent in the queue; queue nodes are distinct. -/
structure InvRamas (red : RedElectrica) (root : Nat) (par : Nat → Nat)
    (cola : List ColaEntry) (visE : List (Nat × Nat)) : Prop where
  pares : ∀ q ∈ visE, ∃ w, w ∈ nodeIds red ∧ w ≠ root ∧
    q = sortPair w (par w)
  parCerrado : ∀ w ∈ nodeIds red, w ≠ root →
    sortPair w (par w) ∈ visE →
    par w = root ∨ sortPair (par w) (par (par w)) ∈ visE
  entradas : ∀ c ∈ cola,
    (c.nodo_previo = none → c.nodo_actual = root ∧ c.camino = []) ∧
    (∀ p, c.nodo_previo = some p → p = par c.nodo_actual ∧
      c.nodo_actual ∈ nodeIds red ∧ c.nodo_actual ≠ root ∧
      sortPair c.nodo_actual (par c.nodo_actual) ∈ visE)
  caminos : ∀ c ∈ cola, ∀ s ∈ c.camino, ∃ w, w ∈ nodeIds red ∧
    w ≠ root ∧ s = entradaArbol red par w
  hijosLibres : ∀ c ∈ cola, ∀ u ∈ nodeIds red, u ≠ root →
    par u = c.nodo_actual → sortPair u (par u) ∉ visE
  cobertura : ∀ u ∈ nodeIds red, u ≠ root →
    sortPair u (par u) ∉ visE →
    (par u = root ∨ sortPair (par u) (par (par u)) ∈ visE) →
    par u ∈ cola.map ColaEntry.nodo_actual
  nodosNodup : (cola.map ColaEntry.nodo_actual).Nodup

/-- With an empty queue every non-root node's parent pair has been
claimed. -/
theorem ramas_base (red : RedElectrica) (root : Nat)
    (par dep : Nat → Nat) (T : EsArbol red root par dep)
    (visE : List (Nat × Nat))
    (inv : InvRamas red root par [] visE) :
    ∀ w ∈ nodeIds red, w ≠ root → sortPair w (par w) ∈ visE := by
  have key : ∀ n, ∀ w ∈ nodeIds red, w ≠ root → dep w ≤ n →
      sortPair w (par w) ∈ visE := by
    intro n
    induction n with
    | zero =>
      intro w hw hr hd
      have := T.dep_par w hw hr
      omega
    | succ n ih =>
      intro w hw hr hd
      have hvisited : par w = root ∨
          sortPair (par w) (par (par w)) ∈ visE := by
        by_cases hpr : par w = root
        · exact Or.inl hpr
        · refine Or.inr (ih (par w) (T.par_mem w hw hr) hpr ?_)
          have := T.dep_par w hw hr
          omega
      by_contra hun
      have := inv.cobertura w hw hr hun hvisited
      simp at this
  intro w hw hr
  exact key (dep w) w hw hr (Nat.le_refl _)

/-- One sweep preserves the BFS invariant. -/
theorem invPaso (red : RedElectrica) (root : Nat) (par dep : Nat → Nat)
    (T : EsArbol red root par dep)
    (c : ColaEntry) (rest : List ColaEntry) (visE : List (Nat × Nat))
    (inv : InvRamas red root par (c :: rest) visE)
    (cam : List SegEntry)
    (hcam : ∀ s ∈ cam, ∃ w, w ∈ nodeIds red ∧ w ≠ root ∧
      s = entradaArbol red par w)
    (nuevos : List Nat)
    (h3 : ∀ w ∈ nuevos, w ∈ nodeIds red ∧ w ≠ root ∧
      par w = c.nodo_actual ∧ sortPair w (par w) ∉ visE)
    (h4 : nuevos.Nodup)
    (hcompl : ∀ u ∈ nodeIds red, u ≠ root → par u = c.nodo_actual →
      sortPair u (par u) ∉ visE → u ∈ nuevos) :
    InvRamas red root par
      (rest ++ nuevos.map (fun w =>
        ⟨w, some c.nodo_actual, cam ++ [entradaArbol red par w]⟩))
      ((nuevos.map (fun w => sortPair w (par w))).reverse ++ visE)
    := by
  have hvstat : c.nodo_actual = root ∨
      sortPair c.nodo_actual (par c.nodo_actual) ∈ visE := by
    obtain ⟨hnone, hsome⟩ := inv.entradas c (List.mem_cons_self _ _)
    match hpc : c.nodo_previo with
    | none => exact Or.inl (hnone hpc).1
    | some p => exact Or.inr (hsome p hpc).2.2.2
  have hmemE : ∀ q, q ∈ (nuevos.map
        (fun w => sortPair w (par w))).reverse ++ visE ↔
      (∃ w ∈ nuevos, q = sortPair w (par w)) ∨ q ∈ visE := by
    intro q
    simp only [List.mem_append, List.mem_reverse, List.mem_map]
    constructor
    · rintro (⟨w, hwm, hwq⟩ | h)
      · exact Or.inl ⟨w, hwm, hwq.symm⟩
      · exact Or.inr h
    · rintro (⟨w, hwm, hwq⟩ | h)
      · exact Or.inl ⟨w, hwm, hwq.symm⟩
      · exact Or.inr h
  have hnuevo_es : ∀ w, w ∈ nodeIds red → w ≠ root →
      (∃ w' ∈ nuevos, sortPair w (par w) = sortPair w' (par w')) →
      w ∈ nuevos := by
    intro w hw hr ⟨w', hw'm, hq⟩
    obtain ⟨hw'1, hw'2, _, _⟩ := h3 w' hw'm
    have := T.pareja_inj w w' hw hw'1 hr hw'2 hq
    exact this ▸ hw'm
  refine ⟨?_, ?_, ?_, ?_, ?_, ?_, ?_⟩
  · intro q hq
    rcases (hmemE q).mp hq with ⟨w, hwm, hwq⟩ | hq2
    · obtain ⟨a, b, _, _⟩ := h3 w hwm
      exact ⟨w, a, b, hwq⟩
    · exact inv.pares q hq2
  · intro w hw hr hq
    rcases (hmemE _).mp hq with hnew | hold
    · have hwm := hnuevo_es w hw hr hnew
      obtain ⟨_, _, hpw, _⟩ := h3 w hwm
      rcases hvstat with hroot2 | hclaim
      · exact Or.inl (hpw.trans hroot2)
      · refine Or.inr ((hmemE _).mpr (Or.inr ?_))
        rw [hpw]
        exact hclaim
    · rcases inv.parCerrado w hw hr hold with h | h
      · exact Or.inl h
      · exact Or.inr ((hmemE _).mpr (Or.inr h))
  · intro c' hc'
    rcases List.mem_append.mp hc' with hc' | hc'
    · obtain ⟨hnone, hsome⟩ := inv.entradas c'
        (List.mem_cons_of_mem _ hc')
      refine ⟨hnone, ?_⟩
      intro p hp
      obtain ⟨a, b, d, e⟩ := hsome p hp
      exact ⟨a, b, d, (hmemE _).mpr (Or.inr e)⟩
    · obtain ⟨w, hwm, hwe⟩ := List.mem_map.mp hc'
      obtain ⟨hw1, hw2, hw3, _⟩ := h3 w hwm
      constructor
      · intro hp
        rw [← hwe] at hp
        cases hp
      · intro p hp
        rw [← hwe] at hp ⊢
        injection hp with hp
        refine ⟨by rw [← hp, hw3], hw1, hw2, ?_⟩
        exact (hmemE _).mpr (Or.inl ⟨w, hwm, rfl⟩)
  · intro c' hc' s hs
    rcases List.mem_append.mp hc' with hc' | hc'
    · exact inv.caminos c' (List.mem_cons_of_mem _ hc') s hs
    · obtain ⟨w, hwm, hwe⟩ := List.mem_map.mp hc'
      obtain ⟨hw1, hw2, _, _⟩ := h3 w hwm
      rw [← hwe] at hs
      rcases List.mem_append.mp hs with hs | hs
      · exact hcam s hs
      · rcases List.mem_singleton.mp hs with rfl
        exact ⟨w, hw1, hw2, rfl⟩
  · intro c' hc' u hu hur hupar hclaim
    rcases (hmemE _).mp hclaim with hnew | hold
    · have hum := hnuevo_es u hu hur hnew
      obtain ⟨_, _, hupar2, _⟩ := h3 u hum
      rcases List.mem_append.mp hc' with hc' | hc'
      · -- u is a child of both the popped node and a rest entry
        have hdup : c.nodo_actual ∈ rest.map ColaEntry.nodo_actual :=
          by
          rw [← hupar2, hupar]
          exact List.mem_map.mpr ⟨c', hc', rfl⟩
        have := inv.nodosNodup
        rw [List.map_cons, List.nodup_cons] at this
        exact this.1 hdup
      · obtain ⟨w, hwm, hwe⟩ := List.mem_map.mp hc'
        obtain ⟨hw1, hw2, hw3, _⟩ := h3 w hwm
        have hupar' : par u = w := by
          rw [← hwe] at hupar
          exact hupar
        have hwu : c.nodo_actual = w := by
          rw [← hupar2]
          exact hupar'
        exact T.par_ne w hw1 hw2 (by rw [hw3]; exact hwu)
    · rcases List.mem_append.mp hc' with hc' | hc'
      · exact inv.hijosLibres c' (List.mem_cons_of_mem _ hc') u hu
          hur hupar hold
      · obtain ⟨w, hwm, hwe⟩ := List.mem_map.mp hc'
        obtain ⟨hw1, hw2, _, hw4⟩ := h3 w hwm
        have hupar' : par u = w := by
          rw [← hwe] at hupar
          exact hupar
        rcases inv.parCerrado u hu hur hold with h | h
        · refine hw2 ?_
          rw [← hupar']
          exact h
        · rw [hupar'] at h
          exact hw4 h
  · intro u hu hur hun hvis
    have hun' : sortPair u (par u) ∉ visE := by
      intro hc
      exact hun ((hmemE _).mpr (Or.inr hc))
    have hunuevo : u ∉ nuevos := by
      intro hc
      exact hun ((hmemE _).mpr (Or.inl ⟨u, hc, rfl⟩))
    have hvis' : par u = root ∨
        sortPair (par u) (par (par u)) ∈ visE ∨
        par u ∈ nuevos := by
      rcases hvis with h | h
      · exact Or.inl h
      · rcases (hmemE _).mp h with hnew | hold
        · by_cases hpr : par u = root
          · exact Or.inl hpr
          · refine Or.inr (Or.inr (hnuevo_es (par u)
              (T.par_mem u hu hur) hpr hnew))
        · exact Or.inr (Or.inl hold)
    rw [List.map_append, map_nodo_entries]
    rcases hvis' with h | h | h
    · have := inv.cobertura u hu hur hun' (Or.inl h)
      rw [List.map_cons] at this
      rcases List.mem_cons.mp this with heq | hmem
      · exfalso
        exact hunuevo (hcompl u hu hur heq hun')
      · exact List.mem_append_left _ hmem
    · have := inv.cobertura u hu hur hun' (Or.inr h)
      rw [List.map_cons] at this
      rcases List.mem_cons.mp this with heq | hmem
      · exfalso
        exact hunuevo (hcompl u hu hur heq hun')
      · exact List.mem_append_left _ hmem
    · exact List.mem_append_right _ h
  · rw [List.map_append, map_nodo_entries]
    have hrest : (rest.map ColaEntry.nodo_actual).Nodup := by
      have := inv.nodosNodup
      rw [List.map_cons, List.nodup_cons] at this
      exact this.2
    refine List.Nodup.append hrest h4 ?_
    intro w hwrest hwnuevos
    obtain ⟨c', hc', hwe⟩ := List.mem_map.mp hwrest
    obtain ⟨_, _, _, hw4⟩ := h3 w hwnuevos
    obtain ⟨hnone, hsome⟩ := inv.entradas c'
      (List.mem_cons_of_mem _ hc')
    match hpc : c'.nodo_previo with
    | none =>
      obtain ⟨h1, _⟩ := hnone hpc
      obtain ⟨_, hw2, _, _⟩ := h3 w hwnuevos
      rw [← hwe] at hw2
      exact hw2 h1
    | some p =>
      obtain ⟨_, _, _, hclaim⟩ := hsome p hpc
      rw [hwe] at hclaim
      exact hw4 hclaim

/-- One unfolding of the BFS loop. -/
theorem ramasLoop_cons (red : RedElectrica) (root : Nat) (fuel : Nat)
    (c : ColaEntry) (rest : List ColaEntry)
    (visE : List (Nat × Nat)) :
    ramasLoop red root (fuel + 1) (c :: rest) visE =
      if (esTerminal red c.nodo_actual ∨
          (esDerivacion red root c.nodo_actual ∧
            0 < c.camino.length)) ∧ c.camino ≠ [] then
        (if esDerivacion red root c.nodo_actual then
          ⟨c.camino, caminoInicio c.camino c.nodo_previo,
              c.nodo_actual⟩ ::
            ramasLoop red root fuel
              (rest ++ (explorar red c.nodo_actual c.nodo_previo []
                (neighbors red c.nodo_actual) visE).2)
              (explorar red c.nodo_actual c.nodo_previo []
                (neighbors red c.nodo_actual) visE).1
        else
          ⟨c.camino, caminoInicio c.camino c.nodo_previo,
              c.nodo_actual⟩ :: ramasLoop red root fuel rest visE)
      else
        ramasLoop red root fuel
          (rest ++ (explorar red c.nodo_actual c.nodo_previo c.camino
            (neighbors red c.nodo_actual) visE).2)
          (explorar red c.nodo_actual c.nodo_previo c.camino
            (neighbors red c.nodo_actual) visE).1 := rfl

/-- An empty queue ends the BFS at any fuel. -/
theorem ramasLoop_nil (red : RedElectrica) (root : Nat) :
    ∀ (fuel : Nat) (visE : List (Nat × Nat)),
      ramasLoop red root fuel [] visE = [] := by
  intro fuel visE
  cases fuel <;> rfl

/-- Dropping a queue entry whose node has no unclaimed children
preserves the invariant. -/
theorem invResto (red : RedElectrica) (root : Nat) (par : Nat → Nat)
    (c : ColaEntry) (rest : List ColaEntry) (visE : List (Nat × Nat))
    (inv : InvRamas red root par (c :: rest) visE)
    (hnochild : ∀ u ∈ nodeIds red, u ≠ root →
      par u = c.nodo_actual → sortPair u (par u) ∈ visE) :
    InvRamas red root par rest visE := by
  refine ⟨inv.pares, inv.parCerrado, ?_, ?_, ?_, ?_, ?_⟩
  · intro c' hc'
    exact inv.entradas c' (List.mem_cons_of_mem _ hc')
  · intro c' hc'
    exact inv.caminos c' (List.mem_cons_of_mem _ hc')
  · intro c' hc'
    exact inv.hijosLibres c' (List.mem_cons_of_mem _ hc')
  · intro u hu hur hun hvis
    have := inv.cobertura u hu hur hun hvis
    rw [List.map_cons] at this
    rcases List.mem_cons.mp this with heq | hmem
    · exact absurd (hnochild u hu hur heq) hun
    · exact hmem
  · have := inv.nodosNodup
    rw [List.map_cons, List.nodup_cons] at this
    exact this.2

/-- Pushing a batch of fresh children keeps the per-child emission
count balanced: the new queue records plus the new indicator equal the
old indicator. -/
theorem balanceInd (red : RedElectrica) (root : Nat)
    (par dep : Nat → Nat) (T : EsArbol red root par dep)
    (nuevos : List Nat) (visE visE' : List (Nat × Nat))
    (e4 : nuevos.Nodup)
    (h3' : ∀ w ∈ nuevos, w ∈ nodeIds red ∧ w ≠ root ∧
      sortPair w (par w) ∉ visE)
    (hE : visE' =
      (nuevos.map (fun w => sortPair w (par w))).reverse ++ visE)
    (w1 : Nat) (hw1 : w1 ∈ nodeIds red) (hr1 : w1 ≠ root) :
    (nuevos.map (entradaArbol red par)).count
        (entradaArbol red par w1) +
      (if sortPair w1 (par w1) ∈ visE' then 0 else 1) =
    (if sortPair w1 (par w1) ∈ visE then 0 else 1) := by
  subst hE
  rw [count_entrada red par nuevos e4 w1]
  by_cases hw1n : w1 ∈ nuevos
  · rw [if_pos hw1n]
    have h1 : sortPair w1 (par w1) ∈
        (nuevos.map (fun w => sortPair w (par w))).reverse ++ visE
        := by
      refine List.mem_append_left _ ?_
      rw [List.mem_reverse]
      exact List.mem_map.mpr ⟨w1, hw1n, rfl⟩
    rw [if_pos h1, if_neg (h3' w1 hw1n).2.2]
  · rw [if_neg hw1n]
    have hiff : sortPair w1 (par w1) ∈
        (nuevos.map (fun w => sortPair w (par w))).reverse ++ visE ↔
        sortPair w1 (par w1) ∈ visE := by
      constructor
      · intro h
        rcases List.mem_append.mp h with h | h
        · exfalso
          rw [List.mem_reverse] at h
          obtain ⟨w, hwm, hweq⟩ := List.mem_map.mp h
          obtain ⟨a, b, _⟩ := h3' w hwm
          exact hw1n ((T.pareja_inj w1 w hw1 a hr1 b hweq.symm) ▸
            hwm)
        · exact h
      · exact fun h => List.mem_append_right _ h
    by_cases hv1 : sortPair w1 (par w1) ∈ visE
    · rw [if_pos (hiff.mpr hv1), if_pos hv1]
    · rw [if_neg (fun hc => hv1 (hiff.mp hc)), if_neg hv1]

/-- The master BFS lemma: with enough fuel, from any state satisfying
the invariant the recorded branches consist of child records, and each
child's record is emitted exactly once beyond what the queue already
carries — once per still-unclaimed child. -/
theorem ramasLoop_arbol (red : RedElectrica) (root : Nat)
    (par dep : Nat → Nat) (T : EsArbol red root par dep) :
    ∀ (fuel : Nat) (cola : List ColaEntry) (visE : List (Nat × Nat)),
      medidaRamas red cola visE ≤ fuel →
      InvRamas red root par cola visE →
      (∀ s ∈ ((ramasLoop red root fuel cola visE).map
          Rama.segmentos).flatten,
        ∃ w, w ∈ nodeIds red ∧ w ≠ root ∧
          s = entradaArbol red par w) ∧
      (∀ w1 ∈ nodeIds red, w1 ≠ root →
        (((ramasLoop red root fuel cola visE).map
            Rama.segmentos).flatten).count (entradaArbol red par w1) =
          ((cola.map ColaEntry.camino).flatten).count
            (entradaArbol red par w1) +
          (if sortPair w1 (par w1) ∈ visE then 0 else 1)) := by
  have base : ∀ (fuel : Nat) (visE : List (Nat × Nat)),
      InvRamas red root par [] visE →
      (∀ s ∈ ((ramasLoop red root fuel [] visE).map
          Rama.segmentos).flatten,
        ∃ w, w ∈ nodeIds red ∧ w ≠ root ∧
          s = entradaArbol red par w) ∧
      (∀ w1 ∈ nodeIds red, w1 ≠ root →
        (((ramasLoop red root fuel [] visE).map
            Rama.segmentos).flatten).count (entradaArbol red par w1) =
          ((([] : List ColaEntry).map ColaEntry.camino).flatten).count
            (entradaArbol red par w1) +
          (if sortPair w1 (par w1) ∈ visE then 0 else 1)) := by
    intro fuel visE inv
    rw [ramasLoop_nil]
    constructor
    · intro s hs
      simp at hs
    · intro w1 hw1 hr1
      rw [if_pos (ramas_base red root par dep T visE inv w1 hw1 hr1)]
      simp
  intro fuel
  induction fuel with
  | zero =>
    intro cola visE hfu inv
    match cola with
    | [] => exact base 0 visE inv
    | c :: rest =>
      exfalso
      unfold medidaRamas at hfu
      simp only [List.length_cons] at hfu
      omega
  | succ fuel ih =>
    intro cola visE hfu inv
    match cola with
    | [] => exact base (fuel + 1) visE inv
    | c :: rest =>
      obtain ⟨hnone, hsome⟩ := inv.entradas c (List.mem_cons_self _ _)
      have hopts : (c.nodo_previo = none ∧ c.nodo_actual = root ∧
          c.camino = []) ∨
          (c.nodo_previo = some (par c.nodo_actual) ∧
           c.nodo_actual ∈ nodeIds red ∧ c.nodo_actual ≠ root ∧
           sortPair c.nodo_actual (par c.nodo_actual) ∈ visE) := by
        match hpc : c.nodo_previo with
        | none =>
          obtain ⟨h1, h2⟩ := hnone hpc
          exact Or.inl ⟨rfl, h1, h2⟩
        | some p =>
          obtain ⟨h1, h2, h3, h4⟩ := hsome p hpc
          refine Or.inr ⟨?_, h2, h3, h4⟩
          rw [h1]
      have hvnodo : c.nodo_actual ∈ nodeIds red := by
        rcases hopts with ⟨_, h, _⟩ | ⟨_, h, _, _⟩
        · rw [h]
          exact T.root_mem
        · exact h
      have hprev : (c.nodo_actual = root ∧ c.nodo_previo = none) ∨
          (c.nodo_actual ≠ root ∧
            c.nodo_previo = some (par c.nodo_actual)) := by
        rcases hopts with ⟨h1, h2, _⟩ | ⟨h1, _, h3, _⟩
        · exact Or.inl ⟨h2, h1⟩
        · exact Or.inr ⟨h3, h1⟩
      have hhijos : ∀ u ∈ nodeIds red, u ≠ root →
          par u = c.nodo_actual → sortPair u (par u) ∉ visE →
          u ∈ neighbors red c.nodo_actual ∧
            some u ≠ c.nodo_previo := by
        intro u hu hur hupar _
        constructor
        · have := T.hijo_vecino u hu hur
          rw [hupar] at this
          exact this
        · rcases hprev with ⟨_, hp⟩ | ⟨hnr, hp⟩
          · rw [hp]
            intro hc
            cases hc
          · rw [hp]
            intro hc
            injection hc with hc
            by_cases hparroot : par c.nodo_actual = root
            · exact hur (by rw [hc, hparroot])
            · have hd1 := T.dep_par u hu hur
              have hdn := T.dep_par c.nodo_actual hvnodo hnr
              rw [hupar] at hd1
              rw [← hc] at hdn
              omega
      rw [ramasLoop_cons]
      by_cases hfin : (esTerminal red c.nodo_actual ∨
          (esDerivacion red root c.nodo_actual ∧
            0 < c.camino.length)) ∧ c.camino ≠ []
      · rw [if_pos hfin]
        by_cases hder : esDerivacion red root c.nodo_actual
        · rw [if_pos hder]
          obtain ⟨nuevos, e1, e2, e3, e4, e5⟩ := explorar_spec red root
            par dep T c.nodo_actual c.nodo_previo [] hvnodo hprev
            (neighbors red c.nodo_actual) visE (fun w hw => hw)
          have h3' : ∀ w ∈ nuevos, w ∈ nodeIds red ∧ w ≠ root ∧
              par w = c.nodo_actual ∧ sortPair w (par w) ∉ visE := by
            intro w hw
            obtain ⟨a, b, d, e6, _, _⟩ := e3 w hw
            exact ⟨a, b, d, e6⟩
          have hcompl : ∀ u ∈ nodeIds red, u ≠ root →
              par u = c.nodo_actual → sortPair u (par u) ∉ visE →
              u ∈ nuevos := by
            intro u hu hur hupar hun
            obtain ⟨hnb, hns⟩ := hhijos u hu hur hupar hun
            refine e5 u hnb hns ?_
            rw [show sortPair c.nodo_actual u = sortPair u (par u)
              from by rw [hupar]; exact sortPair_comm _ _]
            exact hun
          have hinv1 : InvRamas red root par
              (rest ++ (explorar red c.nodo_actual c.nodo_previo []
                (neighbors red c.nodo_actual) visE).2)
              (explorar red c.nodo_actual c.nodo_previo []
                (neighbors red c.nodo_actual) visE).1 := by
            rw [e1, e2]
            exact invPaso red root par dep T c rest visE inv []
              (fun s hs => absurd hs (List.not_mem_nil s)) nuevos h3'
              e4 hcompl
          have hlote := claimLote red root par dep T nuevos visE
            (fun w hw => ⟨(h3' w hw).1, (h3' w hw).2.1,
              (h3' w hw).2.2.2⟩) e4
          have hfu1 : medidaRamas red
              (rest ++ (explorar red c.nodo_actual c.nodo_previo []
                (neighbors red c.nodo_actual) visE).2)
              (explorar red c.nodo_actual c.nodo_previo []
                (neighbors red c.nodo_actual) visE).1 ≤ fuel := by
            unfold medidaRamas at hfu ⊢
            simp only [e1, e2, List.length_append, List.length_map,
              List.length_cons] at hfu ⊢
            omega
          obtain ⟨rmem, rcnt⟩ := ih _ _ hfu1 hinv1
          have hcamflat : (((rest ++ (explorar red c.nodo_actual
              c.nodo_previo [] (neighbors red c.nodo_actual)
              visE).2).map ColaEntry.camino).flatten) =
              ((rest.map ColaEntry.camino).flatten) ++
                nuevos.map (entradaArbol red par) := by
            rw [e2, List.map_append, List.flatten_append,
              List.map_map]
            congr 1
            exact flatten_singletons (entradaArbol red par) nuevos
          constructor
          · intro s hs
            simp only [List.map_cons, List.flatten_cons] at hs
            rcases List.mem_append.mp hs with hs | hs
            · exact inv.caminos c (List.mem_cons_self _ _) s hs
            · exact rmem s hs
          · intro w1 hw1 hr1
            have hb := rcnt w1 hw1 hr1
            rw [hcamflat] at hb
            simp only [List.count_append] at hb
            have hbal := balanceInd red root par dep T nuevos visE _
              e4 (fun w hw => ⟨(h3' w hw).1, (h3' w hw).2.1,
                (h3' w hw).2.2.2⟩) e1 w1 hw1 hr1
            simp only [List.map_cons, List.flatten_cons,
              List.count_append]
            omega
        · rw [if_neg hder]
          have hterm : esTerminal red c.nodo_actual := by
            rcases hfin.1 with h | h
            · exact h
            · exact absurd h.1 hder
          rcases hopts with ⟨_, _, hcam⟩ | ⟨hp, _, hnroot, _⟩
          · exact absurd hcam hfin.2
          have hnochild : ∀ u ∈ nodeIds red, u ≠ root →
              par u = c.nodo_actual → sortPair u (par u) ∈ visE := by
            intro u hu hur hupar
            by_contra hun
            obtain ⟨hnb, _⟩ := hhijos u hu hur hupar hun
            have hpn := par_vecino red root par dep T c.nodo_actual
              hvnodo hnroot
            have hlen : (neighbors red c.nodo_actual).length = 1 :=
              hterm
            obtain ⟨x, hx⟩ := List.length_eq_one.mp hlen
            rw [hx] at hnb hpn
            have h1 := List.mem_singleton.mp hnb
            have h2 := List.mem_singleton.mp hpn
            have hd1 := T.dep_par u hu hur
            have hdn := T.dep_par c.nodo_actual hvnodo hnroot
            rw [hupar] at hd1
            rw [show par c.nodo_actual = u from by rw [h2, ← h1]]
              at hdn
            omega
          have hinv1 := invResto red root par c rest visE inv hnochild
          have hfu1 : medidaRamas red rest visE ≤ fuel := by
            unfold medidaRamas at hfu ⊢
            simp only [List.length_cons] at hfu
            omega
          obtain ⟨rmem, rcnt⟩ := ih rest visE hfu1 hinv1
          constructor
          · intro s hs
            simp only [List.map_cons, List.flatten_cons] at hs
            rcases List.mem_append.mp hs with hs | hs
            · exact inv.caminos c (List.mem_cons_self _ _) s hs
            · exact rmem s hs
          · intro w1 hw1 hr1
            have hb := rcnt w1 hw1 hr1
            simp only [List.map_cons, List.flatten_cons,
              List.count_append]
            omega
      · rw [if_neg hfin]
        obtain ⟨nuevos, e1, e2, e3, e4, e5⟩ := explorar_spec red root
          par dep T c.nodo_actual c.nodo_previo c.camino hvnodo hprev
          (neighbors red c.nodo_actual) visE (fun w hw => hw)
        have h3' : ∀ w ∈ nuevos, w ∈ nodeIds red ∧ w ≠ root ∧
            par w = c.nodo_actual ∧ sortPair w (par w) ∉ visE := by
          intro w hw
          obtain ⟨a, b, d, e6, _, _⟩ := e3 w hw
          exact ⟨a, b, d, e6⟩
        have hcompl : ∀ u ∈ nodeIds red, u ≠ root →
            par u = c.nodo_actual → sortPair u (par u) ∉ visE →
            u ∈ nuevos := by
          intro u hu hur hupar hun
          obtain ⟨hnb, hns⟩ := hhijos u hu hur hupar hun
          refine e5 u hnb hns ?_
          rw [show sortPair c.nodo_actual u = sortPair u (par u)
            from by rw [hupar]; exact sortPair_comm _ _]
          exact hun
        have hinv1 : InvRamas red root par
            (rest ++ (explorar red c.nodo_actual c.nodo_previo
              c.camino (neighbors red c.nodo_actual) visE).2)
            (explorar red c.nodo_actual c.nodo_previo c.camino
              (neighbors red c.nodo_actual) visE).1 := by
          rw [e1, e2]
          exact invPaso red root par dep T c rest visE inv c.camino
            (inv.caminos c (List.mem_cons_self _ _)) nuevos h3' e4
            hcompl
        have hlote := claimLote red root par dep T nuevos visE
          (fun w hw => ⟨(h3' w hw).1, (h3' w hw).2.1,
            (h3' w hw).2.2.2⟩) e4
        have hfu1 : medidaRamas red
            (rest ++ (explorar red c.nodo_actual c.nodo_previo
              c.camino (neighbors red c.nodo_actual) visE).2)
            (explorar red c.nodo_actual c.nodo_previo c.camino
              (neighbors red c.nodo_actual) visE).1 ≤ fuel := by
          unfold medidaRamas at hfu ⊢
          simp only [e1, e2, List.length_append, List.length_map,
            List.length_cons] at hfu ⊢
          omega
        obtain ⟨rmem, rcnt⟩ := ih _ _ hfu1 hinv1
        by_cases hcam0 : c.camino = []
        · simp only [hcam0] at e1 e2 rmem rcnt ⊢
          have hcamflat : (((rest ++ (explorar red c.nodo_actual
              c.nodo_previo [] (neighbors red c.nodo_actual)
              visE).2).map ColaEntry.camino).flatten) =
              ((rest.map ColaEntry.camino).flatten) ++
                nuevos.map (entradaArbol red par) := by
            rw [e2, List.map_append, List.flatten_append,
              List.map_map]
            congr 1
            exact flatten_singletons (entradaArbol red par) nuevos
          constructor
          · intro s hs
            exact rmem s hs
          · intro w1 hw1 hr1
            have hb := rcnt w1 hw1 hr1
            rw [hcamflat] at hb
            simp only [List.count_append] at hb
            have hbal := balanceInd red root par dep T nuevos visE _
              e4 (fun w hw => ⟨(h3' w hw).1, (h3' w hw).2.1,
                (h3' w hw).2.2.2⟩) e1 w1 hw1 hr1
            simp only [List.map_cons, List.flatten_cons, hcam0,
              List.nil_append, List.count_append]
            omega
        · have hlen0 : 0 < c.camino.length :=
            List.length_pos.mpr hcam0
          have hnA : ¬(esTerminal red c.nodo_actual ∨
              (esDerivacion red root c.nodo_actual ∧
                0 < c.camino.length)) := by
            intro hA
            exact hfin ⟨hA, hcam0⟩
          have hterm : ¬ esTerminal red c.nodo_actual :=
            fun h => hnA (Or.inl h)
          have hder : ¬ esDerivacion red root c.nodo_actual :=
            fun h => hnA (Or.inr ⟨h, hlen0⟩)
          have hnroot : c.nodo_actual ≠ root := by
            intro hc
            exact hder (Or.inr hc)
          rcases hopts with ⟨_, _, hcam⟩ | ⟨hp, _, _, hcl⟩
          · exact absurd hcam hcam0
          have hdeg2 : degree red c.nodo_actual = 2 := by
            have h1 : ¬ degree red c.nodo_actual = 1 := hterm
            have h2 : ¬ 3 ≤ degree red c.nodo_actual := fun h =>
              hder (Or.inl h)
            have h3 : 0 < degree red c.nodo_actual := by
              have hm := par_vecino red root par dep T c.nodo_actual
                hvnodo hnroot
              exact List.length_pos.mpr (List.ne_nil_of_mem hm)
            omega
          obtain ⟨a, b, hab⟩ := List.length_eq_two.mp hdeg2
          have hnd : a ≠ b := by
            have hx := neighbors_nodup red c.nodo_actual
            rw [hab] at hx
            rw [List.nodup_cons] at hx
            intro hc
            exact hx.1 (hc ▸ List.mem_cons_self _ _)
          have hpar_mem : par c.nodo_actual ∈
              neighbors red c.nodo_actual :=
            par_vecino red root par dep T c.nodo_actual hvnodo hnroot
          have hu : ∃ u, u ≠ par c.nodo_actual ∧
              u ∈ neighbors red c.nodo_actual ∧
              ∀ w ∈ neighbors red c.nodo_actual,
                w = par c.nodo_actual ∨ w = u := by
            rw [hab] at hpar_mem
            rcases List.mem_cons.mp hpar_mem with hpa | hpb
            · refine ⟨b, ?_, ?_, ?_⟩
              · rw [hpa]
                exact fun hc => hnd hc.symm
              · rw [hab]
                exact List.mem_cons_of_mem _ (List.mem_cons_self _ _)
              · intro w hw
                rw [hab] at hw
                rcases List.mem_cons.mp hw with rfl | hw
                · exact Or.inl hpa.symm
                · rw [List.mem_singleton.mp hw]
                  exact Or.inr rfl
            · have hpb' := List.mem_singleton.mp hpb
              refine ⟨a, ?_, ?_, ?_⟩
              · rw [hpb']
                exact fun hc => hnd hc
              · rw [hab]
                exact List.mem_cons_self _ _
              · intro w hw
                rw [hab] at hw
                rcases List.mem_cons.mp hw with rfl | hw
                · exact Or.inr rfl
                · rw [List.mem_singleton.mp hw]
                  exact Or.inl hpb'.symm
          obtain ⟨u, hune, humem, huonly⟩ := hu
          obtain ⟨hu1, hu2, hu3⟩ := vecino_hijo red root par dep T
            c.nodo_actual u hvnodo humem (Or.inr hune)
          have hulib : sortPair u (par u) ∉ visE :=
            inv.hijosLibres c (List.mem_cons_self _ _) u hu1 hu2 hu3
          have humenu : u ∈ nuevos := by
            refine e5 u humem ?_ ?_
            · rw [hp]
              intro hc
              injection hc with hc
              exact hune hc
            · rw [show sortPair c.nodo_actual u = sortPair u (par u)
                from by rw [hu3]; exact sortPair_comm _ _]
              exact hulib
          have hnu : nuevos = [u] := by
            refine eq_singleton_of nuevos u humenu ?_ e4
            intro x hx
            obtain ⟨_, _, _, _, hxw, hxp⟩ := e3 x hx
            rcases huonly x hxw with h | h
            · exfalso
              apply hxp
              rw [hp, h]
            · exact h
          subst hnu
          have hcamflat : (((rest ++ (explorar red c.nodo_actual
              c.nodo_previo c.camino (neighbors red c.nodo_actual)
              visE).2).map ColaEntry.camino).flatten) =
              ((rest.map ColaEntry.camino).flatten) ++
                (c.camino ++ [entradaArbol red par u]) := by
            rw [e2, List.map_append, List.flatten_append,
              List.map_map]
            congr 1
            simp
          constructor
          · intro s hs
            exact rmem s hs
          · intro w1 hw1 hr1
            have hb := rcnt w1 hw1 hr1
            rw [hcamflat] at hb
            have hbal := balanceInd red root par dep T [u] visE _
              e4 (fun w hw => ⟨(h3' w hw).1, (h3' w hw).2.1,
                (h3' w hw).2.2.2⟩) e1 w1 hw1 hr1
            simp only [List.map_cons, List.map_nil,
              List.count_append, List.count_cons, List.count_nil]
              at hb hbal
            simp only [List.map_cons, List.flatten_cons,
              List.count_append]
            omega

/-- On a tree the identified branches carry the id/length pairs of the
edge list exactly once each: the concatenated branch records are a
permutation of the edges. -/
theorem identificar_ramas_arbol (red : RedElectrica) (root : Nat)
    (par dep : Nat → Nat) (T : EsArbol red root par dep) :
    ((((identificar_ramas red root).map Rama.segmentos).flatten).map
        (fun s => (s.segmento_id, s.longitud_m))).Perm
      (red.edges.map (fun e => (e.id_segmento, e.longitud_m))) := by
  have hinv : InvRamas red root par [⟨root, none, []⟩] [] := by
    refine ⟨?_, ?_, ?_, ?_, ?_, ?_, ?_⟩
    · intro q hq
      cases hq
    · intro w _ _ hq
      cases hq
    · intro c hc
      rcases List.mem_singleton.mp hc with rfl
      constructor
      · intro _
        exact ⟨rfl, rfl⟩
      · intro p hp
        cases hp
    · intro c hc s hs
      rcases List.mem_singleton.mp hc with rfl
      cases hs
    · intro c hc u _ _ _ hq
      cases hq
    · intro u hu hur _ hvis
      rcases hvis with h | h
      · rw [h]
        exact List.mem_cons_self _ _
      · cases h
    · simp
  have hfu : medidaRamas red [⟨root, none, []⟩] [] ≤ bfsFuel red := by
    unfold medidaRamas bfsFuel
    have h1 : red.edges.countP
        (fun e => sortPair e.nodo_inicio e.nodo_fin ∉
          ([] : List (Nat × Nat))) ≤ red.edges.length :=
      List.countP_le_length _
    simp only [List.length_cons, List.length_nil]
    omega
  obtain ⟨rmem, rcnt⟩ := ramasLoop_arbol red root par dep T
    (bfsFuel red) [⟨root, none, []⟩] [] hfu hinv
  have hcnt : ∀ w ∈ nodeIds red, w ≠ root →
      (((identificar_ramas red root).map Rama.segmentos).flatten).count
        (entradaArbol red par w) = 1 := by
    intro w hw hr
    have := rcnt w hw hr
    simp at this
    exact this
  have hmem2 : ∀ s ∈ ((identificar_ramas red root).map
      Rama.segmentos).flatten, ∃ w, w ∈ nodeIds red ∧ w ≠ root ∧
      s = entradaArbol red par w := rmem
  have hnodupFL : (((identificar_ramas red root).map
      Rama.segmentos).flatten).Nodup := by
    rw [List.nodup_iff_count_le_one]
    intro s
    by_cases hs : s ∈ ((identificar_ramas red root).map
        Rama.segmentos).flatten
    · obtain ⟨w, hw, hr, rfl⟩ := hmem2 s hs
      rw [hcnt w hw hr]
    · rw [List.count_eq_zero.mpr hs]
      omega
  have hnodup1 : ((((identificar_ramas red root).map
      Rama.segmentos).flatten).map
        (fun s => (s.segmento_id, s.longitud_m))).Nodup := by
    refine nodup_map_trans _ _ (fun s => s) (by simpa using hnodupFL)
      ?_
    intro s1 hs1 s2 hs2 h12
    obtain ⟨w1, hw1, hr1, rfl⟩ := hmem2 s1 hs1
    obtain ⟨w2, hw2, hr2, rfl⟩ := hmem2 s2 hs2
    obtain ⟨f1, hf1, hp1, he1⟩ :=
      entradaArbol_spec red root par dep T w1 hw1 hr1
    obtain ⟨f2, hf2, hp2, he2⟩ :=
      entradaArbol_spec red root par dep T w2 hw2 hr2
    have hsid : f1.id_segmento = f2.id_segmento := by
      have := congrArg Prod.fst h12
      rw [he1, he2] at this
      exact this
    have hf12 : f1 = f2 := T.sid_inj f1 f2 hf1 hf2 hsid
    have hww : w1 = w2 := by
      refine T.pareja_inj w1 w2 hw1 hw2 hr1 hr2 ?_
      rw [← hp1, hf12, hp2]
    rw [hww]
  have hnodup2 : (red.edges.map
      (fun e => (e.id_segmento, e.longitud_m))).Nodup := by
    refine nodup_map_trans _ _ Segmento.id_segmento T.sids_nodup ?_
    intro a _ b _ hab
    exact congrArg Prod.fst hab
  have hsub1 : ((((identificar_ramas red root).map
      Rama.segmentos).flatten).map
        (fun s => (s.segmento_id, s.longitud_m))) ⊆
      red.edges.map (fun e => (e.id_segmento, e.longitud_m)) := by
    intro x hx
    obtain ⟨s, hs, rfl⟩ := List.mem_map.mp hx
    obtain ⟨w, hw, hr, rfl⟩ := hmem2 s hs
    obtain ⟨f, hf, _, hef⟩ :=
      entradaArbol_spec red root par dep T w hw hr
    refine List.mem_map.mpr ⟨f, hf, ?_⟩
    rw [hef]
  have hsub2 : red.edges.map
      (fun e => (e.id_segmento, e.longitud_m)) ⊆
      (((identificar_ramas red root).map
        Rama.segmentos).flatten).map
          (fun s => (s.segmento_id, s.longitud_m)) := by
    intro x hx
    obtain ⟨e, he, rfl⟩ := List.mem_map.mp hx
    obtain ⟨w, hw, hwr, hwpair⟩ := T.edge_hijo e he
    have hmemw : entradaArbol red par w ∈ ((identificar_ramas red
        root).map Rama.segmentos).flatten := by
      have h := hcnt w hw hwr
      have : 0 < (((identificar_ramas red root).map
          Rama.segmentos).flatten).count (entradaArbol red par w) :=
        by omega
      exact List.count_pos_iff_mem.mp this
    obtain ⟨f, hf, hpf, hef⟩ :=
      entradaArbol_spec red root par dep T w hw hwr
    have hfe : f = e := by
      refine T.par_inj f e hf he ?_
      rw [hpf, ← hwpair]
    refine List.mem_map.mpr ⟨entradaArbol red par w, hmemw, ?_⟩
    rw [hef, hfe]
  exact (List.subperm_of_subset hnodup1 hsub1).antisymm
    (List.subperm_of_subset hnodup2 hsub2)

/-- Wrapping a branch's bins does not change their member lists. -/
theorem envolver_segmentos (info : RamaInfo) :
    ∀ (gl : List GrupoRama) (g0 : Nat),
      (envolver info gl g0).map Cierre.segmentos =
        gl.map GrupoRama.segmentos := by
  intro gl
  induction gl with
  | nil => intro g0; rfl
  | cons g rest ih =>
    intro g0
    rw [show envolver info (g :: rest) g0 =
      ⟨g0, g.segmentos, g.longitud_total, some info⟩ ::
        envolver info rest (g0 + 1) from rfl]
    rw [List.map_cons, List.map_cons, ih]

/-- The members of the branch-mode closes concatenate to the identified
branches' segment lists. -/
theorem cierresRamas_flatten (obj tol : ℚ) :
    ∀ (ramas : List Rama) (rid g0 : Nat),
      ((cierresRamas obj tol ramas rid g0).map
        Cierre.segmentos).flatten =
        (ramas.map Rama.segmentos).flatten := by
  intro ramas
  induction ramas with
  | nil => intro rid g0; rfl
  | cons rama rest ih =>
    intro rid g0
    rw [show cierresRamas obj tol (rama :: rest) rid g0 =
      envolver ⟨rid + 1, rama.nodo_inicio, rama.nodo_fin⟩
          (agrupar_segmentos_rama rama.segmentos obj tol) g0 ++
        cierresRamas obj tol rest (rid + 1)
          (g0 + (agrupar_segmentos_rama rama.segmentos obj tol).length)
      from rfl]
    rw [List.map_append, List.flatten_append, envolver_segmentos, ih]
    rw [List.map_cons, List.flatten_cons]
    congr 1
    have := (agruparRamaLoop_particion (obj * (1 + tol))
      (obj * (1 - tol)) rama.segmentos [] 0 (by simp [sumLen])).2
    simpa using this

/-- C5: on a radial (tree) graph with positive segment lengths, a
branch-mode run (`dfs_por_ramas`) places every segment of the graph in
exactly one stored group, and the stored totals sum to the total
length of all segments. -/
theorem c5_particion_ramas (red : RedElectrica) (root : Nat)
    (par dep : Nat → Nat) (T : EsArbol red root par dep)
    (hroot : encontrar_subestacion_principal red = Except.ok root)
    (hpos : ∀ e ∈ red.edges, 0 < e.longitud_m)
    (obj tol : ℚ) (reg0 reg : Registry)
    (hreg : dfs_por_ramas red obj tol reg0 = Except.ok reg) :
    (∀ e ∈ red.edges, reg.grupos.countP
      (fun p => p.2.segmentos.any
        (fun s => s.segmento_id = e.id_segmento)) = 1) ∧
    (reg.grupos.map (fun p => p.2.longitud_total_m)).sum =
      (red.edges.map Segmento.longitud_m).sum := by
  rw [dfs_por_ramas_como_cierres red obj tol reg0 root hroot] at hreg
  injection hreg with hreg
  have hflat := cierresRamas_flatten obj tol
    (identificar_ramas red root) 0 1
  have hprops := cierresRamas_spec obj tol
    (identificar_ramas red root) 0 1
  have hgr : reg.grupos =
      (cierresRamas obj tol (identificar_ramas red root) 0 1).map
        (fun c => (c.gid, c.grupo)) := by
    rw [← hreg]
    rw [applyCierres_grupos _ ⟨[], []⟩ 1
      (cierresRamas_gids obj tol (identificar_ramas red root) 0 1)
      (by simp)]
    simp
  have hperm := identificar_ramas_arbol red root par dep T
  have hperm_sid : ((((identificar_ramas red root).map
      Rama.segmentos).flatten).map SegEntry.segmento_id).Perm
      (red.edges.map Segmento.id_segmento) := by
    have h := hperm.map Prod.fst
    rw [List.map_map, List.map_map] at h
    exact h
  have hperm_len : ((((identificar_ramas red root).map
      Rama.segmentos).flatten).map SegEntry.longitud_m).Perm
      (red.edges.map Segmento.longitud_m) := by
    have h := hperm.map Prod.snd
    rw [List.map_map, List.map_map] at h
    exact h
  constructor
  · intro e he
    have hmem : e.id_segmento ∈ red.edges.map Segmento.id_segmento :=
      List.mem_map.mpr ⟨e, he, rfl⟩
    have hcnt : ((((identificar_ramas red root).map
        Rama.segmentos).flatten).map SegEntry.segmento_id).count
          e.id_segmento = 1 := by
      rw [hperm_sid.count_eq]
      exact List.count_eq_one_of_mem T.sids_nodup hmem
    have hcountP : (((identificar_ramas red root).map
        Rama.segmentos).flatten).countP
        (fun s => s.segmento_id = e.id_segmento) = 1 := by
      rw [countP_sid]
      exact hcnt
    have hflat' : ((cierresRamas obj tol
        (identificar_ramas red root) 0 1).map
          Cierre.segmentos).flatten.countP
        (fun s => s.segmento_id = e.id_segmento) = 1 := by
      rw [hflat]
      exact hcountP
    have huno := countP_flatten_uno
      (fun (s : SegEntry) => s.segmento_id = e.id_segmento) _ hflat'
    rw [List.countP_map] at huno
    rw [hgr, List.countP_map]
    exact huno
  · rw [hgr, List.map_map]
    have hsum := sum_totales
      (cierresRamas obj tol (identificar_ramas red root) 0 1)
      (fun c hc => (hprops c hc).2.1)
    refine Eq.trans (?_ : _ =
      ((cierresRamas obj tol (identificar_ramas red root) 0 1).map
        Cierre.total).sum) ?_
    · rfl
    · rw [hsum, hflat]
      unfold sumLen
      exact hperm_len.sum_eq

/-- The registry `dfs_por_ramas` produces on the 400/400/400 chain:
one branch from the root to the terminal, cut into two groups. -/
def regRamasCadena : Registry :=
  ⟨[(1, ⟨[⟨1, 400, 1, 2⟩, ⟨2, 400, 2, 3⟩], 800, 2, 4/5,
      some ⟨1, 1, 4⟩⟩),
    (2, ⟨[⟨3, 400, 3, 4⟩], 400, 1, 2/5, some ⟨1, 1, 4⟩⟩)],
   [(1, 1), (2, 1), (3, 2)]⟩

/-- The fresh branch-mode run on `redCadena` computes
`regRamasCadena`. -/
theorem regRamasCadena_run :
    dfs_por_ramas redCadena 1000 (1/5) ⟨[], []⟩ =
      Except.ok regRamasCadena := by
  norm_num [redCadena, cargar_datos, addEdge, addEndpoint, addNode,
    nodeIds, dfs_por_ramas, encontrar_subestacion_principal,
    buscarSubestacion, identificar_ramas, ramasLoop, bfsFuel, explorar,
    esDerivacion, esTerminal, degree, caminoInicio, almacenarRama,
    agrupar_segmentos_rama, agruparRamaLoop, cerrarGrupoReg, dictSet,
    neighbors, incidentes, dedupFirst, getEdgeData, sortPair,
    regRamasCadena, List.enum, List.enumFrom]

/-- Witness: the 400/400/400 chain's branch-mode run partitions the
three segments with matching totals. -/
theorem c5_particion_ramas_witness :
    (∀ e ∈ redCadena.edges, regRamasCadena.grupos.countP
      (fun p => p.2.segmentos.any
        (fun s => s.segmento_id = e.id_segmento)) = 1) ∧
    (regRamasCadena.grupos.map (fun p => p.2.longitud_total_m)).sum =
      (redCadena.edges.map Segmento.longitud_m).sum :=
  c5_particion_ramas redCadena 1 (fun v => v - 1) (fun v => v - 1)
    ⟨by decide, by decide, by decide, by decide, by decide, by decide,
     by decide⟩
    (by rfl)
    (by norm_num [redCadena, cargar_datos, addEdge, addEndpoint,
      addNode, nodeIds])
    1000 (1/5) ⟨[], []⟩ regRamasCadena regRamasCadena_run

/-- Witness: the 400/400/400 chain is a rooted tree at node 1 and its
fresh linear run partitions the three segments with matching totals. -/
theorem c1_particion_lineal_witness :
    (∀ e ∈ redCadena.edges, regC10Cadena.grupos.countP
      (fun p => p.2.segmentos.any
        (fun s => s.segmento_id = e.id_segmento)) = 1) ∧
    (regC10Cadena.grupos.map (fun p => p.2.longitud_total_m)).sum =
      (redCadena.edges.map Segmento.longitud_m).sum :=
  c1_particion_lineal redCadena 1 (fun v => v - 1) (fun v => v - 1)
    ⟨by decide, by decide, by decide, by decide, by decide, by decide,
     by decide⟩
    (by rfl)
    (by norm_num [redCadena, cargar_datos, addEdge, addEndpoint,
      addNode, nodeIds])
    1000 (1/5) regC10Cadena regC10Cadena_run

end AgruparCircuitos
